import Mathlib

/-!
# Schedule units, edge bundles and graph composition (lib/Schedule/VSUnit.cpp)

A shallow embedding of the dependency-edge bundling rule (`VSUnit::EdgeBundle::addEdge`),
of dependency attachment (`VSUnit::addDep`) and of graph composition
(`VSchedGraph::mergeSUsInSubGraph`).

Units live in a heap addressed by natural numbers (the `VSUnit*` pointers of the source);
a failed `assert` / `llvm_unreachable` is an `Except.error` carrying the violated check.
-/

namespace Shang

/-! ## Dependency edges -/

/-- Modelled from the spec: the edge kinds of `VDEdge::Types` (the class declaration is in
the header, which is not part of the sources).  `ValDep`, `MemDep` and `FixedTiming` are the
names used by VSUnit.cpp; the fourth kind is the loop-carried kind of the data model. -/
inductive VDEdgeTypes where
  | ValDep
  | MemDep
  | FixedTiming
  | LoopCarried
  deriving DecidableEq, Repr

/-- Modelled from the spec: a dependency edge `{ kind, latency, distance }` with non-negative
latency and distance; `operator==` is equality of the three fields. -/
structure VDEdge where
  EdgeType : VDEdgeTypes
  Latency : Nat
  Distance : Nat
  deriving DecidableEq, Repr

/-- Modelled from the spec: `VDEdge::CreateFixTimingConstraint(Latency)`, a `FixedTiming` edge
of the given latency within one iteration. -/
def VDEdge.CreateFixTimingConstraint (Latency : Nat) : VDEdge :=
  { EdgeType := .FixedTiming, Latency := Latency, Distance := 0 }

/-- The scheduling bound an edge imposes once the initiation interval is known:
`slot(dst) - slot(src) >= latency - distance * II`. -/
def VDEdge.bound (e : VDEdge) (II : Nat) : Int :=
  (e.Latency : Int) - (e.Distance : Int) * (II : Int)

/-- The checks of VSUnit.cpp that abort the compilation when they fail. -/
inductive Violation where
  /-- Assertion "Cannot override fixed timing dependencies!" -/
  | overrideFixedTiming
  /-- Assertion "Unexpected multiple loop carried dependencies!" -/
  | multipleLoopCarried
  /-- Assertion "Cannot add self-loop!" -/
  | selfLoop
  /-- Assertion "Bad index!" -/
  | badIndex
  /-- Assertion "Index mis-matched!" on entry of the merge (line 146). -/
  | indexMismatchedOnEntry
  /-- Assertion "Terminator SU not found!" -/
  | terminatorNotFound
  /-- Assertion "Unexpected unscheduled SU!" -/
  | unscheduledSU
  /-- Assertion "Index mis-matched!" at the end of the merge (line 202). -/
  | indexMismatched
  /-- Assertion "Bad value dependent edge!" -/
  | badValueDep
  /-- Assertion "Bad inter BB dependent edge." -/
  | badInterBBDep
  /-- Assertion "Unexpected deteched SU!" -/
  | detachedSU
  /-- Assertion "Find SU not constrained by the BB entry!" -/
  | floatingSU
  /-- Assertion "Can not schedule to slot 0!" -/
  | scheduleToSlotZero
  /-- Assertion "MII provided but LoopOp not exist!" (also a loop operation that is read
  although the graph has none). -/
  | noLoopOp
  /-- Assertion "MII bigger then Critical path length!" -/
  | miiExceedsCriticalPath
  /-- Assertion "LoopOp was not scheduled to the right slot!" -/
  | loopOpWrongSlot
  /-- Assertion "Expect MII is not bigger then critical path length!" -/
  | loopOpAfterEnd
  /-- Assertion "Cannot remember II!" -/
  | cannotRememberII
  /-- Assertion "Bad PHI schedule!" -/
  | badPHISchedule
  /-- Assertion "Cannot schedule the data-path!" -/
  | cannotScheduleDatapath
  /-- Assertion "Expected datapath operation!" -/
  | expectedDatapath
  /-- Assertion "Unexpected datapath operation merged!" -/
  | datapathMerged
  /-- Assertion "dependence latency information not available?" -/
  | noDepLatInfo
  /-- Assertion "Source schedule unit not exist?" -/
  | noSourceSU
  /-- Assertion "Expect datapath operation have only 1 define!" -/
  | notOneDefine
  /-- Assertion "Bad topological sort!", also raised when `CPSUs[Idx++]` would write behind
  the end of the list. -/
  | badTopologicalSort
  /-- Access through the null pointer that `getEdgeFrom` answers when there is no edge. -/
  | noEdge
  /-- Assertion "Unexpected datapath op in to schedule list!" -/
  | unexpectedDatapath
  deriving DecidableEq, Repr

deriving instance DecidableEq for Except

/-- Modelled from the spec: an edge bundle, the representative edge (`Edges.front()` in the
source) of all edges between one ordered pair, and the cross-block tag given at creation. -/
structure EdgeBundle where
  Edge : VDEdge
  IsCrossBB : Bool
  deriving DecidableEq, Repr

/-- `VSUnit::EdgeBundle::addEdge` on the representative edge `CurEdge`. -/
def VDEdge.addEdge (CurEdge NewEdge : VDEdge) : Except Violation VDEdge :=
  if CurEdge = NewEdge then .ok CurEdge
  else if ¬ (NewEdge.EdgeType ≠ .FixedTiming ∧ CurEdge.EdgeType ≠ .FixedTiming) then
    .error .overrideFixedTiming
  else if ¬ (NewEdge.Distance = 0 ∨ CurEdge.Distance = 0
      ∨ CurEdge.Distance = NewEdge.Distance) then
    .error .multipleLoopCarried
  else if NewEdge.Distance ≤ CurEdge.Distance ∧ NewEdge.Latency > CurEdge.Latency then
    .ok NewEdge
  else .ok CurEdge

/-- `VSUnit::EdgeBundle::addEdge`: only the representative edge may change. -/
def EdgeBundle.addEdge (b : EdgeBundle) (NewEdge : VDEdge) : Except Violation EdgeBundle :=
  match b.Edge.addEdge NewEdge with
  | .ok e => .ok { b with Edge := e }
  | .error v => .error v

/-- A sequence of edges merged into one bundle: the first edge creates the bundle
(the `EdgeBundle(NewE, IsCrossBB)` of `VSUnit::addDep`), every later one goes through
`addEdge`; the first failing check aborts. -/
def EdgeBundle.mergeAll (b : EdgeBundle) : List VDEdge → Except Violation EdgeBundle
  | [] => .ok b
  | e :: es =>
    match b.addEdge e with
    | .ok b1 => EdgeBundle.mergeAll b1 es
    | .error v => .error v

/-! ## Schedule units and the heap -/

/-- Modelled from the spec: the fields of a schedule unit that VSUnit.cpp reads and writes
(the class declaration is in the header, which is not part of the sources).  `Deps` is the
dependency map (source unit to bundle), `UseList` the reverse use set; `ParentBB` and
`RepresentativePtr` stand for the block and the representative instruction of the unit.
`IsBBEntry` tells that the representative is a basic block (`isMBB()`), `IsTerminator` that it
is a terminator instruction, `IsPHI` and `IsDatapath` are the answers of `isPHI()` and
`isDatapath()`. -/
structure VSUnit where
  SchedSlot : Nat := 0
  IsDangling : Bool := true
  HasFixedTiming : Bool := false
  InstIdx : Nat := 1
  FUNum : Nat := 0
  Deps : List (Nat × EdgeBundle) := []
  UseList : List Nat := []
  ParentBB : Nat := 0
  RepresentativePtr : Nat := 0
  IsBBEntry : Bool := false
  IsTerminator : Bool := false
  IsPHI : Bool := false
  IsDatapath : Bool := false
  NumInstrs : Nat := 1
  Latency : Nat := 0
  deriving DecidableEq, Repr

/-- The units of all graphs, addressed by their pointer. -/
abbrev Heap := Nat → VSUnit

/-- Store `u` at address `p`. -/
def Heap.set (h : Heap) (p : Nat) (u : VSUnit) : Heap :=
  fun q => if q = p then u else h q

/-- Lookup in a map kept as an association list (`find`). -/
def mapFind {β : Type} (k : Nat) : List (Nat × β) → Option β
  | [] => none
  | (a, b) :: r => if a = k then some b else mapFind k r

/-- Overwrite the value stored under an existing key (assignment through an iterator). -/
def mapSet {β : Type} (k : Nat) (v : β) : List (Nat × β) → List (Nat × β)
  | [] => []
  | (a, b) :: r => if a = k then (a, v) :: r else (a, b) :: mapSet k v r

/-- Map `insert`: an entry is added only when its key is not yet present. -/
def mapInsert {β : Type} (m : List (Nat × β)) (kv : Nat × β) : List (Nat × β) :=
  match mapFind kv.1 m with
  | none => m ++ [kv]
  | some _ => m

/-- Map range `insert(begin, end)`. -/
def mapInsertAll {β : Type} (m : List (Nat × β)) (src : List (Nat × β)) : List (Nat × β) :=
  src.foldl mapInsert m

/-- Map `erase(key)`. -/
def mapErase {β : Type} (k : Nat) (m : List (Nat × β)) : List (Nat × β) :=
  m.filter (fun e => decide (e.1 ≠ k))

/-- Modelled from the spec: `VSUnit::addToUseList`, registering a user in the use set. -/
def addToUseList (h : Heap) (Src User : Nat) : Heap :=
  if User ∈ (h Src).UseList then h
  else h.set Src { h Src with UseList := (h Src).UseList ++ [User] }

/-- `VSUnit::addDep`: `This->addDep(Src, NewE)`. -/
def addDep (h : Heap) (This Src : Nat) (NewE : VDEdge) : Except Violation Heap :=
  if Src = This then .error .selfLoop
  else
    match mapFind Src (h This).Deps with
    | none =>
      let IsCrossBB : Bool := decide ((h Src).ParentBB ≠ (h This).ParentBB)
      let h1 := h.set This { h This with Deps := mapInsert (h This).Deps (Src, ⟨NewE, IsCrossBB⟩) }
      .ok (addToUseList h1 Src This)
    | some b =>
      match b.addEdge NewE with
      | .ok b1 => .ok (h.set This { h This with Deps := mapSet Src b1 (h This).Deps })
      | .error v => .error v

/-- Modelled from the spec: `VSUnit::cleanDepAndUse`, clearing the dependencies and the uses
of the unit. -/
def cleanDepAndUse (h : Heap) (U : Nat) : Heap :=
  h.set U { h U with Deps := [], UseList := [] }

/-- Modelled from the spec: `VSUnit::resetSchedule`, slot 0 meaning unscheduled. -/
def resetSchedule (h : Heap) (U : Nat) : Heap :=
  h.set U { h U with SchedSlot := 0 }

/-- Modelled from the spec: `VSUnit::setHasFixedTiming`. -/
def setHasFixedTiming (h : Heap) (U : Nat) : Heap :=
  h.set U { h U with HasFixedTiming := true }

/-- Result of an `unsigned` expression (32 bits, wrapping). -/
def wrap32 (z : Int) : Nat := (z % 4294967296).toNat

/-- Conversion to `unsigned short` (16 bits). -/
def wrap16 (n : Nat) : Nat := n % 65536

/-- The index constants `VSchedGraph::NullSUIdx` and `VSchedGraph::FirstSUIdx`, declared in
the header, which is not part of the sources. -/
structure SUIdxConsts where
  NullSUIdx : Nat
  FirstSUIdx : Nat
  deriving DecidableEq, Repr

/-- `VSUnit::updateIdx(unsigned short Idx)`. -/
def updateIdx (k : SUIdxConsts) (h : Heap) (U : Nat) (Idx : Nat) : Except Violation Heap :=
  if ¬ (wrap16 Idx > k.NullSUIdx) then .error .badIndex
  else .ok (h.set U { h U with InstIdx := wrap16 Idx })

/-! ## Schedule graphs and composition -/

/-- Modelled from the spec: the members of a schedule graph used by the composition (the
class declaration is in the header, which is not part of the sources).  `Exit` is the unit
returned by `getExitRoot()`; the counter `NextSUIdx` is kept as a natural number.  `Entry` is
the unit returned by `getEntryRoot()`, `EntrySlot` the entry slot of the graph and `LoopOp`
the unit returned by `getLoopOp()`, if the graph has one. -/
structure VSchedGraph where
  EntryBB : Nat := 0
  Exit : Nat
  Entry : Nat := 0
  EntrySlot : Nat := 1
  LoopOp : Option Nat := none
  CPSUs : List Nat := []
  DPSUs : List Nat := []
  NextSUIdx : Nat := 1
  InstToSUnits : List (Nat × Nat) := []
  IIMap : List (Nat × Nat) := []
  Terminators : List (Nat × Nat) := []
  deriving DecidableEq, Repr

/-- Modelled from the spec: `num_cps()`, the length of the control-path list. -/
def VSchedGraph.num_cps (G : VSchedGraph) : Nat := G.CPSUs.length

/-- Modelled from the spec: `num_sus()`, the number of units of both lists. -/
def VSchedGraph.num_sus (G : VSchedGraph) : Nat := G.CPSUs.length + G.DPSUs.length

/-- Modelled from the spec: `lookUpTerminator(MBB)`, the entry of the terminator table. -/
def VSchedGraph.lookUpTerminator (G : VSchedGraph) (MBB : Nat) : Option Nat :=
  mapFind MBB G.Terminators

/-- The state threaded through the two loops of the merge: the heap, the unit list being
extended and the index counter. -/
structure MergeLoop where
  heap : Heap
  SUs : List Nat
  NextSUIdx : Nat

/-- One iteration of the control-path loop of `mergeSUsInSubGraph` (lines 154-181). -/
def mergeCPStep (k : SUIdxConsts) (SubExit Terminator TerminatorSlot NewIdxBase : Nat)
    (s : MergeLoop) (U : Nat) : Except Violation MergeLoop :=
  if U = SubExit then .ok s
  else
    match updateIdx k s.heap U
        (wrap32 ((NewIdxBase : Int) + ((s.heap U).InstIdx : Int) - (k.FirstSUIdx : Int))) with
    | .error v => .error v
    | .ok h1 =>
      let CPSUs := s.SUs ++ [U]
      let Next := s.NextSUIdx + 1
      let USlot := (h1 U).SchedSlot
      let h2 := resetSchedule h1 U
      let h3 := setHasFixedTiming h2 U
      if U = Terminator then .ok ⟨h3, CPSUs, Next⟩
      else if USlot = 0 then .error .unscheduledSU
      else
        let ScheduleOffset := wrap32 ((TerminatorSlot : Int) - (USlot : Int))
        let h4 := cleanDepAndUse h3 U
        match addDep h4 Terminator U (VDEdge.CreateFixTimingConstraint ScheduleOffset) with
        | .error v => .error v
        | .ok h5 => .ok ⟨h5, CPSUs, Next⟩

/-- The control-path loop of `mergeSUsInSubGraph`. -/
def mergeCPSUs (k : SUIdxConsts) (SubExit Terminator TerminatorSlot NewIdxBase : Nat) :
    List Nat → MergeLoop → Except Violation MergeLoop
  | [], s => .ok s
  | U :: rest, s =>
    match mergeCPStep k SubExit Terminator TerminatorSlot NewIdxBase s U with
    | .error v => .error v
    | .ok s1 => mergeCPSUs k SubExit Terminator TerminatorSlot NewIdxBase rest s1

/-- One iteration of the data-path loop of `mergeSUsInSubGraph` (lines 183-189). -/
def mergeDPStep (k : SUIdxConsts) (NewIdxBase : Nat) (s : MergeLoop) (U : Nat) :
    Except Violation MergeLoop :=
  match updateIdx k s.heap U
      (wrap32 ((NewIdxBase : Int) + ((s.heap U).InstIdx : Int) - (k.FirstSUIdx : Int))) with
  | .error v => .error v
  | .ok h1 => .ok ⟨h1, s.SUs ++ [U], s.NextSUIdx + 1⟩

/-- The data-path loop of `mergeSUsInSubGraph`. -/
def mergeDPSUs (k : SUIdxConsts) (NewIdxBase : Nat) :
    List Nat → MergeLoop → Except Violation MergeLoop
  | [], s => .ok s
  | U :: rest, s =>
    match mergeDPStep k NewIdxBase s U with
    | .error v => .error v
    | .ok s1 => mergeDPSUs k NewIdxBase rest s1

/-- The outcome of a merge: the heap, both graphs, and the position in the enclosing
control-path list that the returned iterator points to. -/
structure Merged where
  heap : Heap
  G : VSchedGraph
  SubGraph : VSchedGraph
  first : Nat

/-- `VSchedGraph::mergeSUsInSubGraph`: `G.mergeSUsInSubGraph(SubGraph)`. -/
def mergeSUsInSubGraph (k : SUIdxConsts) (h : Heap) (G SubGraph : VSchedGraph) :
    Except Violation Merged :=
  let SubInst := mapErase (h SubGraph.Exit).RepresentativePtr SubGraph.InstToSUnits
  let Inst := mapInsertAll G.InstToSUnits SubInst
  let OldCPStart := G.num_cps
  let NewIdxBase := G.NextSUIdx
  if ¬ (G.num_sus = wrap32 ((G.NextSUIdx : Int) - (k.FirstSUIdx : Int))) then
    .error .indexMismatchedOnEntry
  else
    match SubGraph.lookUpTerminator SubGraph.EntryBB with
    | none => .error .terminatorNotFound
    | some Terminator =>
      let h1 := cleanDepAndUse h Terminator
      let TerminatorSlot := (h1 Terminator).SchedSlot
      match mergeCPSUs k SubGraph.Exit Terminator TerminatorSlot NewIdxBase SubGraph.CPSUs
          ⟨h1, G.CPSUs, G.NextSUIdx⟩ with
      | .error v => .error v
      | .ok s1 =>
        match mergeDPSUs k NewIdxBase SubGraph.DPSUs ⟨s1.heap, G.DPSUs, s1.NextSUIdx⟩ with
        | .error v => .error v
        | .ok s2 =>
          let Sub1 : VSchedGraph :=
            { SubGraph with InstToSUnits := SubInst, CPSUs := [G.Exit], DPSUs := [] }
          let G1 : VSchedGraph :=
            { G with
              InstToSUnits := Inst, CPSUs := s1.SUs, DPSUs := s2.SUs,
              NextSUIdx := s2.NextSUIdx,
              IIMap := mapInsertAll G.IIMap SubGraph.IIMap,
              Terminators := mapInsertAll G.Terminators SubGraph.Terminators }
          if ¬ (s2.NextSUIdx = (s2.heap Terminator).InstIdx + 1) then .error .indexMismatched
          else .ok ⟨s2.heap, G1, Sub1, OldCPStart + 1⟩

/-- The units that the merge moves into the enclosing graph: the control-path units of the
subgraph other than its exit root, and all its data-path units. -/
def migrated (SubGraph : VSchedGraph) : List Nat :=
  SubGraph.CPSUs.filter (fun U => decide (U ≠ SubGraph.Exit)) ++ SubGraph.DPSUs

/-- The fixed-timing bundles held in the dependency map of unit `p`. -/
def fixedTimingDeps (h : Heap) (p : Nat) : List (Nat × EdgeBundle) :=
  (h p).Deps.filter (fun e => decide (e.2.Edge.EdgeType = VDEdgeTypes.FixedTiming))

/-- The number of fixed-timing edges whose destination is one of the units `us`. -/
def countFixedTiming (h : Heap) (us : List Nat) : Nat :=
  (us.map (fun p => (fixedTimingDeps h p).length)).sum

/-- The entry that one iteration of the control-path loop adds to the dependency map of the
terminator `T` for the unit `U`: a fixed-timing edge whose source is `U`. -/
def mergedDep (h : Heap) (T TerminatorSlot U : Nat) : Nat × EdgeBundle :=
  (U, ⟨VDEdge.CreateFixTimingConstraint
        (wrap32 ((TerminatorSlot : Int) - ((h U).SchedSlot : Int))),
      decide ((h U).ParentBB ≠ (h T).ParentBB)⟩)

/-! ## A small composition example

The enclosing graph holds an entry root (address 0) and an exit root (address 1).  The
subgraph holds an entry root 10 (slot 1), an operation 11 (slot 2), its terminator 12
(slot 4), the virtual exit root 13 and one data-path unit 14 (slot 3). -/

/-- The heap of the example. -/
def exHeap : Heap := fun p =>
  match p with
  | 0 => { InstIdx := 1, SchedSlot := 1, RepresentativePtr := 100 }
  | 1 => { InstIdx := 2, RepresentativePtr := 101, Deps := [(0, ⟨⟨.ValDep, 0, 0⟩, false⟩)] }
  | 10 => { InstIdx := 1, SchedSlot := 1, ParentBB := 1, RepresentativePtr := 110,
            UseList := [11, 14] }
  | 11 => { InstIdx := 2, SchedSlot := 2, ParentBB := 1, RepresentativePtr := 111,
            Deps := [(10, ⟨⟨.ValDep, 1, 0⟩, false⟩)], UseList := [12] }
  | 12 => { InstIdx := 4, SchedSlot := 4, ParentBB := 1, RepresentativePtr := 112,
            Deps := [(11, ⟨⟨.ValDep, 2, 0⟩, false⟩)], UseList := [13] }
  | 13 => { InstIdx := 5, SchedSlot := 4, ParentBB := 1, RepresentativePtr := 113,
            Deps := [(12, ⟨⟨.ValDep, 0, 0⟩, false⟩)] }
  | 14 => { InstIdx := 3, SchedSlot := 3, ParentBB := 1, RepresentativePtr := 114,
            Deps := [(10, ⟨⟨.ValDep, 0, 0⟩, false⟩)] }
  | _ => {}

/-- The index constants of the example. -/
def exConsts : SUIdxConsts := { NullSUIdx := 0, FirstSUIdx := 1 }

/-- The enclosing graph of the example. -/
def exG : VSchedGraph :=
  { EntryBB := 0, Exit := 1, CPSUs := [0, 1], NextSUIdx := 3,
    InstToSUnits := [(100, 0), (101, 1)] }

/-- The subgraph of the example. -/
def exSub : VSchedGraph :=
  { EntryBB := 1, Exit := 13, CPSUs := [10, 11, 12, 13], DPSUs := [14], NextSUIdx := 6,
    InstToSUnits := [(110, 10), (111, 11), (112, 12), (113, 13), (114, 14)],
    Terminators := [(1, 12)] }

/-- The outcome of the merge of the example. -/
def exMerged : Merged :=
  match mergeSUsInSubGraph exConsts exHeap exG exSub with
  | .ok m => m
  | .error _ => ⟨exHeap, exG, exSub, 0⟩

/-- The heap of the example with the operation 11 left unscheduled. -/
def exHeapUnscheduled : Heap :=
  exHeap.set 11 { exHeap 11 with SchedSlot := 0 }

/-- A projection of the outcome of a merge (the default `d` when the merge fails). -/
def Merged.get {α : Type} (d : α) (f : Merged → α) : Except Violation Merged → α
  | .ok m => f m
  | .error _ => d

/-! ## Verification of a unit -/

/-- Modelled from the spec: `VSUnit::isScheduled`, a slot different from 0. -/
def isScheduled (h : Heap) (U : Nat) : Bool := decide ((h U).SchedSlot ≠ 0)

/-- The loop over the dependencies in `VSchedGraph::verifySU` (lines 95-104); the Boolean is
`AnyDepFromTheSameParent`. -/
def verifyDeps (h : Heap) (SU : Nat) (IsBBEntry : Bool) :
    List (Nat × EdgeBundle) → Bool → Except Violation Bool
  | [], AnyDep => .ok AnyDep
  | (Dep, b) :: rest, AnyDep =>
    if ¬ (b.Edge.EdgeType = .MemDep ∨ (h SU).InstIdx > (h Dep).InstIdx) then
      .error .badValueDep
    else if ¬ (IsBBEntry = false ∨ ((h Dep).IsTerminator = true ∧ b.Edge.Latency = 0)) then
      .error .badInterBBDep
    else
      verifyDeps h SU IsBBEntry rest
        (AnyDep || decide ((h Dep).ParentBB = (h SU).ParentBB))

/-- `VSchedGraph::verifySU`. -/
def verifySU (h : Heap) (G : VSchedGraph) (SU : Nat) : Except Violation Unit :=
  let IsBBEntry := (h SU).IsBBEntry
  match verifyDeps h SU IsBBEntry (h SU).Deps IsBBEntry with
  | .error v => .error v
  | .ok AnyDepFromTheSameParent =>
    if ¬ (isScheduled h SU = true ∨ (h SU).UseList ≠ [] ∨ SU = G.Exit) then
      .error .detachedSU
    else if ¬ (isScheduled h SU = true ∨ (h SU).HasFixedTiming = true
        ∨ AnyDepFromTheSameParent = true) then
      .error .floatingSU
    else .ok ()

/-! ## Resetting the control-path schedule -/

/-- `VSUnit::scheduledTo`. -/
def scheduledTo (h : Heap) (U slot : Nat) : Except Violation Heap :=
  if slot = 0 then .error .scheduleToSlotZero
  else .ok (h.set U { h U with SchedSlot := slot })

/-- The last loop of `resetCPSchedule` (lines 248-250): the edges into the exit root whose
source is a PHI unit get the latency `MII`. -/
def setPHILatency (h : Heap) (MII : Nat) (Deps : List (Nat × EdgeBundle)) :
    List (Nat × EdgeBundle) :=
  Deps.map (fun e =>
    if (h e.1).IsPHI = true then (e.1, { e.2 with Edge := { e.2.Edge with Latency := MII } })
    else e)

/-- `VSchedGraph::resetCPSchedule`. -/
def resetCPSchedule (h : Heap) (G : VSchedGraph) (MII : Nat) : Except Violation Heap :=
  let h1 := G.CPSUs.foldl resetSchedule h
  match scheduledTo h1 G.Entry G.EntrySlot with
  | .error v => .error v
  | .ok h2 =>
    let r : Except Violation Heap :=
      if MII ≠ 0 then
        match G.LoopOp with
        | none => .error .noLoopOp
        | some L => scheduledTo h2 L (wrap32 ((G.EntrySlot : Int) + (MII : Int)))
      else .ok h2
    match r with
    | .error v => .error v
    | .ok h3 =>
      .ok (h3.set G.Exit { h3 G.Exit with Deps := setPHILatency h3 MII (h3 G.Exit).Deps })

/-! ## PHI schedules -/

/-- Modelled from the spec: `getII(MBB)`, the initiation interval recorded for the block;
what it answers for a block without a recorded interval is the parameter `unrecorded`. -/
def VSchedGraph.getII (G : VSchedGraph) (unrecorded : Nat → Nat) (MBB : Nat) : Nat :=
  match mapFind MBB G.IIMap with
  | some v => v
  | none => unrecorded MBB

/-- One iteration of the loop of `fixPHISchedules` (lines 362-370); `getEndSlot`, the end
slot of a block, is declared in the header and taken as a parameter. -/
def fixPHIStep (getII getEndSlot : Nat → Nat) (h : Heap) (U : Nat) : Except Violation Heap :=
  if (h U).IsPHI = false then .ok h
  else
    let MBB := (h U).ParentBB
    match scheduledTo h U (wrap32 (((h U).SchedSlot : Int) + (getII MBB : Int))) with
    | .error v => .error v
    | .ok h1 =>
      if ¬ ((h1 U).SchedSlot ≤ getEndSlot MBB) then .error .badPHISchedule
      else .ok h1

/-- `VSchedGraph::fixPHISchedules` over the range given as a list. -/
def fixPHISchedules (getII getEndSlot : Nat → Nat) : List Nat → Heap → Except Violation Heap
  | [], h => .ok h
  | U :: rest, h =>
    match fixPHIStep getII getEndSlot h U with
    | .error v => .error v
    | .ok h1 => fixPHISchedules getII getEndSlot rest h1

/-! ## The modulo-scheduling driver -/

/-- The two bounds of the driver, the unsigned counters `MII` and `CriticalPathEnd` of
ForceDirectedScheduling.h, and the number of feasibility attempts made so far (not a member
of the source: it lets an attempt depend on the history). -/
structure Driver where
  MII : Nat := 0
  CriticalPathEnd : Nat := 0
  Attempts : Nat := 0
  deriving DecidableEq, Repr

/-- Modelled from the spec: `getCriticalPathLength()`, the critical-path bound of the driver
(the class used by `scheduleLoop` is declared in a header that is not part of the sources). -/
def Driver.getCriticalPathLength (d : Driver) : Nat := d.CriticalPathEnd

/-- The `increaseMII()` of `scheduleLoop`, as `lengthenMII() { ++MII; }` of
ForceDirectedScheduling.h. -/
def Driver.increaseMII (d : Driver) : Driver :=
  { d with MII := wrap32 ((d.MII : Int) + 1) }

/-- The `lengthenCriticalPath() { ++CriticalPathEnd; }` of ForceDirectedScheduling.h. -/
def Driver.lengthenCriticalPath (d : Driver) : Driver :=
  { d with CriticalPathEnd := wrap32 ((d.CriticalPathEnd : Int) + 1) }

/-- The external scheduler that the driver calls: a feasibility attempt answers whether it
succeeded and which slots it assigned; `computeMII` answers the value it stores in `MII`. -/
structure ModuloScheduler where
  scheduleCriticalPath : Driver → Heap → Bool × (Nat → Nat)
  scheduleState : Driver → Heap → Bool × (Nat → Nat)
  computeMII : Driver → Heap → Nat

/-- The heap after the scheduler has assigned the slots `slots`. -/
def Heap.withSlots (h : Heap) (slots : Nat → Nat) : Heap :=
  fun p => { h p with SchedSlot := slots p }

/-- The body of the second retry loop of `scheduleLoop` (lines 279-282). -/
def retryCriticalPath (d : Driver) : Driver :=
  if wrap32 (2 * (d.MII : Int)) < d.getCriticalPathLength then d.increaseMII
  else d.lengthenCriticalPath

/-- The body of the third retry loop of `scheduleLoop` (lines 290-293). -/
def retryState (d : Driver) : Driver :=
  if d.MII < d.getCriticalPathLength then d.increaseMII
  else d.lengthenCriticalPath

/-- A loop `while (!attempt()) retry();` run for at most `fuel` attempts; `none` when the
fuel is used up before an attempt succeeds. -/
def retryLoop (attempt : Driver → Heap → Bool × (Nat → Nat)) (retry : Driver → Driver) :
    Nat → Driver → Heap → Option (Driver × Heap)
  | 0, _, _ => none
  | fuel + 1, d, h =>
    let r := attempt d h
    let d1 : Driver := { d with Attempts := d.Attempts + 1 }
    let h1 := h.withSlots r.2
    if r.1 = true then some (d1, h1)
    else retryLoop attempt retry fuel (retry d1) h1

/-- The outcome of a normal return of `scheduleLoop`: the heap, the graph, the final state
of the driver and the value that `computeMII` had produced. -/
structure LoopScheduled where
  heap : Heap
  G : VSchedGraph
  driver : Driver
  computedMII : Nat

/-- `VSchedGraph::scheduleLoop`, each of its three retry loops run for at most `fuel`
attempts (`none`: a loop did not end within the fuel); `d0` is the state of the driver after
its construction. -/
def scheduleLoop (S : ModuloScheduler) (unrecorded getEndSlot : Nat → Nat) (fuel : Nat)
    (h : Heap) (G : VSchedGraph) (d0 : Driver) : Option (Except Violation LoopScheduled) :=
  match retryLoop S.scheduleCriticalPath Driver.lengthenCriticalPath fuel d0 h with
  | none => none
  | some (d1, h1) =>
    let computed := wrap32 (S.computeMII d1 h1 : Int)
    let d2 : Driver := { d1 with MII := computed }
    match retryLoop S.scheduleCriticalPath retryCriticalPath fuel d2 h1 with
    | none => none
    | some (d3, h3) =>
      if ¬ (d3.MII ≤ d3.getCriticalPathLength) then some (.error .miiExceedsCriticalPath)
      else
        match retryLoop S.scheduleState retryState fuel d3 h3 with
        | none => none
        | some (d4, h4) =>
          match G.LoopOp with
          | none => some (.error .noLoopOp)
          | some L =>
            if ¬ (wrap32 (((h4 L).SchedSlot : Int) - (G.EntrySlot : Int)) = d4.MII) then
              some (.error .loopOpWrongSlot)
            else if ¬ ((h4 L).SchedSlot ≤ getEndSlot G.EntryBB) then
              some (.error .loopOpAfterEnd)
            else
              let succ : Bool := (mapFind G.EntryBB G.IIMap).isNone
              let G1 : VSchedGraph := { G with IIMap := mapInsert G.IIMap (G.EntryBB, d4.MII) }
              if succ = false then some (.error .cannotRememberII)
              else
                match fixPHISchedules (G1.getII unrecorded) getEndSlot G1.CPSUs h4 with
                | .error v => some (.error v)
                | .ok h5 => some (.ok ⟨h5, G1, d4, computed⟩)

/-! ## An example with tables

The enclosing graph of the composition example already records the initiation interval 5
for block 1; the subgraph records 3 for block 1 and 7 for block 2. -/

/-- The enclosing graph of the example, with an initiation interval recorded for block 1. -/
def exGTables : VSchedGraph := { exG with IIMap := [(1, 5)] }

/-- The subgraph of the example, with initiation intervals recorded for blocks 1 and 2. -/
def exSubTables : VSchedGraph := { exSub with IIMap := [(1, 3), (2, 7)] }

/-- The outcome of the merge of the example with tables. -/
def exMergedTables : Merged :=
  match mergeSUsInSubGraph exConsts exHeap exGTables exSubTables with
  | .ok m => m
  | .error _ => ⟨exHeap, exGTables, exSubTables, 0⟩

/-! ## An example for the verification

Block 2 has the entry unit 20 (unscheduled, no dependency), the operation 21 depending on it
and the operation 23 of index 9; block 3 has the operations 22, with a value edge from 23,
and 24, with a memory edge from 23. -/

/-- The heap of the verification example. -/
def exHeapVerify : Heap := fun p =>
  match p with
  | 20 => { InstIdx := 1, ParentBB := 2, IsBBEntry := true, UseList := [21] }
  | 21 => { InstIdx := 2, ParentBB := 2, Deps := [(20, ⟨⟨.ValDep, 0, 0⟩, false⟩)],
            UseList := [25] }
  | 22 => { InstIdx := 3, ParentBB := 3, SchedSlot := 2,
            Deps := [(23, ⟨⟨.ValDep, 1, 0⟩, true⟩)], UseList := [25] }
  | 23 => { InstIdx := 9, ParentBB := 2, SchedSlot := 1, UseList := [22, 24] }
  | 24 => { InstIdx := 4, ParentBB := 3, SchedSlot := 2,
            Deps := [(23, ⟨⟨.MemDep, 1, 0⟩, true⟩)], UseList := [25] }
  | _ => {}

/-- The graph of the verification example. -/
def exGVerify : VSchedGraph :=
  { EntryBB := 2, Exit := 25, Entry := 20, CPSUs := [20, 21, 22, 23, 24, 25] }

/-! ## A loop example

Block 4 is a self-loop: entry root 30, the PHI unit 31, the loop operation 32 (its
terminator), the exit root 33 and the data-path unit 34. -/

/-- The heap of the loop example. -/
def exHeapLoop : Heap := fun p =>
  match p with
  | 30 => { InstIdx := 1, ParentBB := 4, IsBBEntry := true, SchedSlot := 1,
            UseList := [31] }
  | 31 => { InstIdx := 2, ParentBB := 4, IsPHI := true, SchedSlot := 2,
            Deps := [(30, ⟨⟨.ValDep, 1, 0⟩, false⟩)], UseList := [32, 33, 34] }
  | 32 => { InstIdx := 3, ParentBB := 4, IsTerminator := true, SchedSlot := 3,
            Deps := [(31, ⟨⟨.ValDep, 1, 0⟩, false⟩)], UseList := [33] }
  | 33 => { InstIdx := 4, ParentBB := 4, SchedSlot := 3,
            Deps := [(32, ⟨⟨.ValDep, 0, 0⟩, false⟩), (31, ⟨⟨.ValDep, 0, 0⟩, false⟩)] }
  | 34 => { InstIdx := 5, ParentBB := 4, IsDatapath := true, SchedSlot := 2,
            Deps := [(31, ⟨⟨.ValDep, 0, 0⟩, false⟩)] }
  | _ => {}

/-- The graph of the loop example. -/
def exGLoop : VSchedGraph :=
  { EntryBB := 4, Exit := 33, Entry := 30, EntrySlot := 1, LoopOp := some 32,
    CPSUs := [30, 31, 32, 33], DPSUs := [34] }

/-- The heap of the loop example after `resetCPSchedule(2)`. -/
def exHeapReset : Heap :=
  match resetCPSchedule exHeapLoop exGLoop 2 with
  | .ok h => h
  | .error _ => exHeapLoop

/-- The heap of the loop example after `fixPHISchedules` over the control-path list, with
the initiation interval 2 for every block and the end slot 10. -/
def exHeapFixed : Heap :=
  match fixPHISchedules (fun _ => 2) (fun _ => 10) exGLoop.CPSUs exHeapLoop with
  | .ok h => h
  | .error _ => exHeapLoop

/-- The state of a retry loop `while (!attempt()) retry();` after `n` failed attempts. -/
def failedAttempts (attempt : Driver → Heap → Bool × (Nat → Nat)) (retry : Driver → Driver) :
    Nat → Driver → Heap → Driver × Heap
  | 0, d, h => (d, h)
  | n + 1, d, h =>
    failedAttempts attempt retry n (retry { d with Attempts := d.Attempts + 1 })
      (h.withSlots (attempt d h).2)

/-- The slots that the scheduler of the loop example assigns. -/
def exSlots (d : Driver) : Nat → Nat := fun p =>
  match p with
  | 30 => 1
  | 31 => 2
  | 32 => 1 + d.MII
  | 33 => 1 + d.CriticalPathEnd
  | 34 => 2
  | _ => 0

/-- The scheduler of the loop example: the critical path is feasible from the bound 3 on,
`computeMII` answers 1 and the pipelined schedule is feasible from the interval 2 on. -/
def exScheduler : ModuloScheduler :=
  { scheduleCriticalPath := fun d _ => (decide (3 ≤ d.CriticalPathEnd), exSlots d),
    scheduleState := fun d _ => (decide (2 ≤ d.MII), exSlots d),
    computeMII := fun _ _ => 1 }

/-- The outcome of `scheduleLoop` on the loop example, the driver starting with the
critical-path bound 1. -/
def exLoopScheduled : LoopScheduled :=
  match scheduleLoop exScheduler (fun _ => 0) (fun _ => 10) 5 exHeapLoop exGLoop
      { CriticalPathEnd := 1 } with
  | some (.ok r) => r
  | _ => ⟨exHeapLoop, exGLoop, {}, 0⟩

/-! ## Dangling detection -/

/-- The loop of `VSchedGraph::clearDanglingFlagForTree` (lines 380-397), run for at most
`fuel` iterations (`none`: the work stack is not empty when the fuel is used up).  A frame of
the work stack is a unit with the dependencies that its iterator has not visited yet. -/
def clearDanglingLoop (RootBB : Nat) : Nat → Heap → List (Nat × List Nat) → Option Heap
  | 0, _, _ => none
  | _ + 1, h, [] => some h
  | fuel + 1, h, (_, []) :: WorkStack => clearDanglingLoop RootBB fuel h WorkStack
  | fuel + 1, h, (U, ChildNode :: ChildIt) :: WorkStack =>
    if (h ChildNode).IsDangling = false ∨ (h ChildNode).ParentBB ≠ RootBB then
      clearDanglingLoop RootBB fuel h ((U, ChildIt) :: WorkStack)
    else
      let h1 := h.set ChildNode { h ChildNode with IsDangling := false }
      clearDanglingLoop RootBB fuel h1
        ((ChildNode, (h1 ChildNode).Deps.map Prod.fst) :: (U, ChildIt) :: WorkStack)

/-- `VSchedGraph::clearDanglingFlagForTree`. -/
def clearDanglingFlagForTree (fuel : Nat) (h : Heap) (Root : Nat) : Option Heap :=
  let WorkStack := [(Root, (h Root).Deps.map Prod.fst)]
  let h1 := h.set Root { h Root with IsDangling := false }
  clearDanglingLoop (h1 Root).ParentBB fuel h1 WorkStack

/-- The loop of `scheduleDatapath` over the control-path list (lines 480-481), calling
`clearDanglingFlagForTree` for every unit that `isControl()`, the negation of
`isDatapath()`. -/
def clearDanglingFlags (fuel : Nat) : List Nat → Heap → Option Heap
  | [], h => some h
  | U :: rest, h =>
    if (h U).IsDatapath = false then
      match clearDanglingFlagForTree fuel h U with
      | none => none
      | some h1 => clearDanglingFlags fuel rest h1
    else clearDanglingFlags fuel rest h

/-- A chain of dependency edges leading from the unit `R` back to a unit, every unit of
which belongs to the basic block of `R`. -/
inductive DepChain (h : Heap) (R : Nat) : Nat → Prop
  | root : DepChain h R R
  | step {c d : Nat} : DepChain h R c → d ∈ (h c).Deps.map Prod.fst →
      (h d).ParentBB = (h R).ParentBB → DepChain h R d

/-- The heap `h1` has the dependencies, blocks and classification of the heap `h`. -/
def SameGraph (h h1 : Heap) : Prop :=
  ∀ p, (h1 p).Deps = (h p).Deps ∧ (h1 p).ParentBB = (h p).ParentBB ∧
    (h1 p).IsDatapath = (h p).IsDatapath

/-- Every dependency of `c` in the block of `c` is non-dangling in `hc`. -/
def ClosedAt (h hc : Heap) (c : Nat) : Prop :=
  ∀ d ∈ (h c).Deps.map Prod.fst, (h d).ParentBB = (h c).ParentBB →
    (hc d).IsDangling = false

/-- The number of dangling units among `Us`. -/
def danglingCount (Us : List Nat) (hc : Heap) : Nat :=
  (Us.filter (fun p => (hc p).IsDangling)).length

/-- The work left on a work stack: the dependencies still to visit and one pop per frame. -/
def workSize (WorkStack : List (Nat × List Nat)) : Nat :=
  (WorkStack.map (fun f => f.2.length + 1)).sum

/-! ## A dangling example

Block 5 has the control-path units 40 and 42 and the data-path units 41, 43 and 45; the
data-path unit 44 is in block 6.  The unit 42 depends on 41 and 44, the units 41 and 45
depend on each other, and nothing depends on 43. -/

/-- The heap of the dangling example. -/
def exHeapDangling : Heap := fun p =>
  match p with
  | 40 => { InstIdx := 1, ParentBB := 5, IsBBEntry := true }
  | 41 => { InstIdx := 2, ParentBB := 5, IsDatapath := true,
            Deps := [(40, ⟨⟨.ValDep, 0, 0⟩, false⟩), (45, ⟨⟨.MemDep, 0, 1⟩, false⟩)] }
  | 42 => { InstIdx := 3, ParentBB := 5,
            Deps := [(41, ⟨⟨.ValDep, 0, 0⟩, false⟩), (44, ⟨⟨.ValDep, 0, 0⟩, true⟩)] }
  | 43 => { InstIdx := 4, ParentBB := 5, IsDatapath := true,
            Deps := [(41, ⟨⟨.ValDep, 0, 0⟩, false⟩)] }
  | 44 => { InstIdx := 5, ParentBB := 6, IsDatapath := true }
  | 45 => { InstIdx := 6, ParentBB := 5, IsDatapath := true,
            Deps := [(41, ⟨⟨.ValDep, 0, 0⟩, false⟩)] }
  | _ => {}

/-- The graph of the dangling example. -/
def exGDangling : VSchedGraph :=
  { EntryBB := 5, Exit := 42, Entry := 40, CPSUs := [40, 42], DPSUs := [41, 43, 44, 45] }

/-! ## The pushes of the dangling search -/

/-- The loop of `VSchedGraph::clearDanglingFlagForTree` (lines 380-397) together with a ghost
record `Pushed` of the units that line 396 pushed on the work stack, latest first.  The heap
it computes is the one of `clearDanglingLoop`. -/
def clearDanglingPushes (RootBB : Nat) :
    Nat → Heap → List (Nat × List Nat) → List Nat → Option (Heap × List Nat)
  | 0, _, _, _ => none
  | _ + 1, h, [], Pushed => some (h, Pushed)
  | fuel + 1, h, (_, []) :: WorkStack, Pushed =>
    clearDanglingPushes RootBB fuel h WorkStack Pushed
  | fuel + 1, h, (U, ChildNode :: ChildIt) :: WorkStack, Pushed =>
    if (h ChildNode).IsDangling = false ∨ (h ChildNode).ParentBB ≠ RootBB then
      clearDanglingPushes RootBB fuel h ((U, ChildIt) :: WorkStack) Pushed
    else
      let h1 := h.set ChildNode { h ChildNode with IsDangling := false }
      clearDanglingPushes RootBB fuel h1
        ((ChildNode, (h1 ChildNode).Deps.map Prod.fst) :: (U, ChildIt) :: WorkStack)
        (ChildNode :: Pushed)

/-- The units that `clearDanglingFlagForTree` pushes on the work stack after `Root`. -/
def clearDanglingFlagForTreePushes (fuel : Nat) (h : Heap) (Root : Nat) :
    Option (Heap × List Nat) :=
  let WorkStack := [(Root, (h Root).Deps.map Prod.fst)]
  let h1 := h.set Root { h Root with IsDangling := false }
  clearDanglingPushes (h1 Root).ParentBB fuel h1 WorkStack []

/-- The largest work a frame can hold in the graph on `Us`: the number of dependency edges
of the units of `Us`. -/
def depEdgeCount (Us : List Nat) (h : Heap) : Nat :=
  (Us.map (fun u => ((h u).Deps.map Prod.fst).length)).sum

/-! ## Data-path scheduling -/

/-- Modelled from the spec: `VSUnit::num_instrs()` is the field `NumInstrs` and
`VSUnit::getFinSlot()` (VSUnit.h is not part of the sources) is the finish slot of the unit,
its slot plus its latency. -/
def getFinSlot (h : Heap) (U : Nat) : Nat :=
  (h U).SchedSlot + (h U).Latency

/-- Modelled from the spec: what `fixChainedDatapathRC` reads of a machine instruction (the
LLVM and VInstrInfo declarations are not part of the sources): `getParent()`,
`VInstrInfo::hasTrivialFU(getOpcode())`, `VInstrInfo::isWriteUntilFinish(getOpcode())`,
`getDesc().getNumDefs()` and `getOperand(0).getReg()`. -/
structure MachineInstr where
  Parent : Nat := 0
  HasTrivialFU : Bool := false
  IsWriteUntilFinish : Bool := false
  NumDefs : Nat := 1
  DefReg : Nat := 0
  deriving DecidableEq, Repr

/-- Modelled from the spec: a register class is `VTM::WireRegClass` or another class. -/
inductive RegClass
  | WireRegClass
  | other (id : Nat)
  deriving DecidableEq, Repr

/-- Modelled from the spec: `DetialLatencyInfo` (not part of the sources) as far as
`fixChainedDatapathRC` reads it: the machine instructions by pointer, and `getDepLatInfo`,
which answers the source instructions of an instruction in the order of the iteration, a
null source being `none`, or null (`none`) when it has no information. -/
structure DetialLatencyInfo where
  Instrs : Nat → MachineInstr
  getDepLatInfo : Nat → Option (List (Option Nat))

/-- The register classes of `DLInfo.MRI`, by register. -/
abbrev RegInfo := Nat → RegClass

/-- `MachineRegisterInfo::setRegClass`. -/
def RegInfo.setRegClass (MRI : RegInfo) (Reg : Nat) (RC : RegClass) : RegInfo :=
  fun r => if r = Reg then RC else MRI r

/-- Modelled from the spec: `lookupSUnit(MI)`, the entry of the instruction table. -/
def VSchedGraph.lookupSUnit (G : VSchedGraph) (MI : Nat) : Option Nat :=
  mapFind MI G.InstToSUnits

/-- The loop of `fixChainedDatapathRC` (lines 327-347) over the sources of the instruction:
the value of `NeedCopyToReg` when the loop is left. -/
def needCopyToReg (DLInfo : DetialLatencyInfo) (h : Heap) (G : VSchedGraph)
    (U ParentMBB : Nat) : List (Option Nat) → Bool → Except Violation Bool
  | [], NeedCopyToReg => .ok NeedCopyToReg
  | none :: rest, NeedCopyToReg => needCopyToReg DLInfo h G U ParentMBB rest NeedCopyToReg
  | some SrcMI :: rest, NeedCopyToReg =>
    if (DLInfo.Instrs SrcMI).Parent ≠ ParentMBB then
      needCopyToReg DLInfo h G U ParentMBB rest NeedCopyToReg
    else if (DLInfo.Instrs SrcMI).HasTrivialFU then
      needCopyToReg DLInfo h G U ParentMBB rest NeedCopyToReg
    else
      match G.lookupSUnit SrcMI with
      | none => .error .noSourceSU
      | some SrcSU =>
        let SrcCopySlot := wrap32 ((getFinSlot h SrcSU : Int) +
          (if (DLInfo.Instrs SrcMI).IsWriteUntilFinish then 1 else 0))
        if SrcCopySlot > (h U).SchedSlot then .ok true
        else needCopyToReg DLInfo h G U ParentMBB rest NeedCopyToReg

/-- `VSchedGraph::fixChainedDatapathRC`; `DisableMultiCyclesChain` is the command-line option
of line 42, and the result is the register information after the call. -/
def fixChainedDatapathRC (DisableMultiCyclesChain : Bool) (DLInfo : DetialLatencyInfo)
    (h : Heap) (G : VSchedGraph) (MRI : RegInfo) (U : Nat) : Except Violation RegInfo :=
  if (h U).IsDatapath = false then .error .expectedDatapath
  else if (h U).NumInstrs ≠ 1 then .error .datapathMerged
  else
    let MI := (h U).RepresentativePtr
    let ParentMBB := (DLInfo.Instrs MI).Parent
    match DLInfo.getDepLatInfo MI with
    | none => .error .noDepLatInfo
    | some DepLatInfo =>
      match needCopyToReg DLInfo h G U ParentMBB DepLatInfo DisableMultiCyclesChain with
      | .error v => .error v
      | .ok NeedCopyToReg =>
        if NeedCopyToReg = false then
          if (DLInfo.Instrs MI).NumDefs ≠ 1 then .error .notOneDefine
          else .ok (MRI.setRegClass (DLInfo.Instrs MI).DefReg .WireRegClass)
        else .ok MRI

/-- The external constraint solver `SDCScheduler<false>` that `scheduleDatapath` calls:
`createLPAndVariables` answers whether there is anything to solve, and `schedule` whether it
succeeded and which slots it assigned. -/
structure DatapathScheduler where
  createLPAndVariables : Heap → Bool
  schedule : Heap → Bool × (Nat → Nat)

/-- The last loop of `scheduleDatapath` (lines 483-489) over the data-path list. -/
def pinDanglingSUs (DisableMultiCyclesChain : Bool) (DLInfo : DetialLatencyInfo)
    (getEndSlot : Nat → Nat) (G : VSchedGraph) :
    List Nat → Heap → RegInfo → Except Violation (Heap × RegInfo)
  | [], h, MRI => .ok (h, MRI)
  | U :: rest, h, MRI =>
    match (if (h U).IsDangling then scheduledTo h U (getEndSlot (h U).ParentBB)
        else .ok h) with
    | .error v => .error v
    | .ok h1 =>
      match fixChainedDatapathRC DisableMultiCyclesChain DLInfo h1 G MRI U with
      | .error v => .error v
      | .ok MRI1 => pinDanglingSUs DisableMultiCyclesChain DLInfo getEndSlot G rest h1 MRI1

/-- `VSchedGraph::scheduleDatapath`, with at most `fuel` iterations for each dangling search
(`none`: a search ran out of fuel). -/
def scheduleDatapath (Scheduler : DatapathScheduler) (DisableMultiCyclesChain : Bool)
    (DLInfo : DetialLatencyInfo) (getEndSlot : Nat → Nat) (fuel : Nat) (h : Heap)
    (G : VSchedGraph) (MRI : RegInfo) : Option (Except Violation (Heap × RegInfo)) :=
  match (if Scheduler.createLPAndVariables h then
      (if (Scheduler.schedule h).1 then Except.ok (h.withSlots (Scheduler.schedule h).2)
       else Except.error Violation.cannotScheduleDatapath)
    else Except.ok h) with
  | .error v => some (.error v)
  | .ok h1 =>
    match clearDanglingFlags fuel G.CPSUs h1 with
    | none => none
    | some h2 => some (pinDanglingSUs DisableMultiCyclesChain DLInfo getEndSlot G G.DPSUs h2 MRI)

/-- Register information in which no register is a wire. -/
def exMRI : RegInfo := fun _ => .other 0

/-- The solver of the data-path example: unit `p` gets the slot `p - 38`. -/
def exDatapathScheduler : DatapathScheduler where
  createLPAndVariables := fun _ => true
  schedule := fun _ => (true, fun p => p - 38)

/-- The latency information of the data-path example: no operation has a source. -/
def exDLInfoDangling : DetialLatencyInfo where
  Instrs := fun _ => {}
  getDepLatInfo := fun _ => some []

/-- The outcome of `scheduleDatapath` on the dangling example with end slot 9. -/
def exDatapathScheduled : Heap × RegInfo :=
  match scheduleDatapath exDatapathScheduler false exDLInfoDangling (fun _ => 9) 100
      exHeapDangling exGDangling exMRI with
  | some (.ok r) => r
  | _ => (exHeapDangling, exMRI)

/-! ## Topological sort of the control path -/

/-- The traversal of `po_iterator<VSUnit*, SmallPtrSet<VSUnit*, 64>, false,
GraphTraits<Inverse<VSUnit*> > >` (lines 211-216), run for at most `fuel` steps (`none`: the
visit stack is not empty when the fuel is used up).  Modelled from the spec: the children of
a unit in the inverse graph are the sources of its dependency edges (the `GraphTraits` of
VSUnit.h are not part of the sources).  `Visited` is the set of the iterator, a frame of
`VisitStack` is a unit with the children its iterator has not visited yet, and `Out` is the
sequence of the units the iterator has answered so far: a unit is answered when all its
children have been visited. -/
def postOrderLoop (h : Heap) :
    Nat → List Nat → List (Nat × List Nat) → List Nat → Option (List Nat)
  | 0, _, _, _ => none
  | _ + 1, _, [], Out => some Out
  | fuel + 1, Visited, (U, []) :: VisitStack, Out =>
    postOrderLoop h fuel Visited VisitStack (Out ++ [U])
  | fuel + 1, Visited, (U, BB :: It) :: VisitStack, Out =>
    if BB ∈ Visited then postOrderLoop h fuel Visited ((U, It) :: VisitStack) Out
    else
      postOrderLoop h fuel (BB :: Visited)
        ((BB, (h BB).Deps.map Prod.fst) :: (U, It) :: VisitStack) Out

/-- `VSchedGraph::topologicalSortCPSUs`: the units that the post-order iterator answers from
the exit root overwrite the control-path list from its start (`CPSUs[Idx++] = *I`); a write
behind the end of the list and a failure of the assertion `Idx == num_cps()` are both the
violation `badTopologicalSort`. -/
def topologicalSortCPSUs (fuel : Nat) (h : Heap) (G : VSchedGraph) :
    Option (Except Violation VSchedGraph) :=
  let Exit := G.Exit
  match postOrderLoop h fuel [Exit] [(Exit, (h Exit).Deps.map Prod.fst)] [] with
  | none => none
  | some Out =>
    if G.num_cps < Out.length then some (.error .badTopologicalSort)
    else if Out.length ≠ G.num_cps then some (.error .badTopologicalSort)
    else some (.ok { G with CPSUs := Out ++ G.CPSUs.drop Out.length })

/-- The unit `R` reaches a unit backward along dependency edges. -/
inductive DepReach (h : Heap) (R : Nat) : Nat → Prop
  | refl : DepReach h R R
  | step {c d : Nat} : DepReach h R c → d ∈ (h c).Deps.map Prod.fst → DepReach h R d

/-- Every unit of the list, read from its last unit to its first, has all its dependencies
among the units that follow it. -/
def depsAfter (h : Heap) : List Nat → Prop
  | [] => True
  | u :: r => (∀ d ∈ (h u).Deps.map Prod.fst, d ∈ r) ∧ depsAfter h r

/-- Every dependency of the unit of a frame is still to be visited by the frame, has been
answered, or is the unit of a frame above it (`Above`). -/
def framesDone (h : Heap) (Out : List Nat) : List Nat → List (Nat × List Nat) → Prop
  | _, [] => True
  | Above, (U, It) :: VisitStack =>
    (∀ d ∈ (h U).Deps.map Prod.fst, d ∈ It ∨ d ∈ Out ∨ d ∈ Above) ∧
      framesDone h Out (U :: Above) VisitStack

/-- The number of units of `Us` that the traversal has not visited. -/
def unvisitedCount (Us Visited : List Nat) : Nat :=
  (Us.filter (fun u => decide (u ∉ Visited))).length

/-! ## A topological-sort example

The control-path units 60 (entry), 61, 62 and 63 (exit root): 61 depends on 60, 62 on 60 and
61, and 63 on 62 and 61.  The control-path list holds them in the order 63, 61, 60, 62. -/

/-- The heap of the topological-sort example. -/
def exHeapTopo : Heap := fun p =>
  match p with
  | 60 => { InstIdx := 1, ParentBB := 8, IsBBEntry := true }
  | 61 => { InstIdx := 2, ParentBB := 8, Deps := [(60, ⟨⟨.ValDep, 1, 0⟩, false⟩)] }
  | 62 => { InstIdx := 3, ParentBB := 8,
            Deps := [(60, ⟨⟨.ValDep, 1, 0⟩, false⟩), (61, ⟨⟨.ValDep, 1, 0⟩, false⟩)] }
  | 63 => { InstIdx := 4, ParentBB := 8,
            Deps := [(62, ⟨⟨.ValDep, 1, 0⟩, false⟩), (61, ⟨⟨.ValDep, 1, 0⟩, false⟩)] }
  | _ => {}

/-- The graph of the topological-sort example. -/
def exGTopo : VSchedGraph :=
  { EntryBB := 8, Exit := 63, Entry := 60, CPSUs := [63, 61, 60, 62], NextSUIdx := 5 }

/-! ## Scalar streamization

`ScalarStreamization::runOnBasicBlock` works on the hardware atoms of HWAtomInfo.h, which is
not part of the sources.  The atoms are modelled by what the pass reads and by what the
names and arguments of the calls `getWrReg(Src, NewReg, StartSlot)` and
`replaceDep(Src, NewWrReg)` say. -/

/-- Modelled from the spec: a hardware atom as far as the pass reads it: `getSlot()`, the
dependency edges by source atom with their `isBackEdge()`, and the class tests
`dyn_cast<HWAWrReg>` with `writeFUReg()` and `dyn_cast<HWARdReg>` with `isPHINode()`. -/
structure HWAtom where
  Slot : Nat := 0
  Deps : List (Nat × Bool) := []
  IsWrReg : Bool := false
  WriteFUReg : Bool := false
  IsRdReg : Bool := false
  IsPHINode : Bool := false
  deriving DecidableEq, Repr

/-- Modelled from the spec: `HWAtomInfo`, the atoms by address; the atoms in use have the
addresses below `NextAtom`. -/
structure HWAtomInfo where
  Atoms : Nat → HWAtom
  NextAtom : Nat

/-- Modelled from the spec: `FSMState`: the atoms of the state in the order of its iterator,
`getExitRoot()`, `haveSelfLoop()`, `getII()` and `getTotalSlot()`. -/
structure FSMState where
  Atoms : List Nat
  ExitRoot : Nat
  HaveSelfLoop : Bool
  II : Nat
  TotalSlot : Nat
  deriving DecidableEq, Repr

/-- Modelled from the spec: `Dst->getEdgeFrom(Src)->isBackEdge()`; `none` is the null pointer
answered when `Dst` has no edge from `Src`. -/
def HWAtomInfo.getEdgeFrom (HI : HWAtomInfo) (Dst Src : Nat) : Option Bool :=
  mapFind Src (HI.Atoms Dst).Deps

/-- Modelled from the spec: the use list `use_begin() .. use_end()` of `Src`, the atoms in
use that have a dependency edge from `Src`, by ascending address. -/
def HWAtomInfo.uses (HI : HWAtomInfo) (Src : Nat) : List Nat :=
  (List.range HI.NextAtom).filter (fun Dst => (HI.getEdgeFrom Dst Src).isSome)

/-- Modelled from the spec: `HI.getWrReg(Src, NewReg, StartSlot)` creates, at the next free
address, a register write at slot `StartSlot` whose only dependency is a forward edge from
`Src`, and answers its address.  The register of `allocaRegister` is not modelled: the pass
does not read it. -/
def HWAtomInfo.getWrReg (HI : HWAtomInfo) (Src StartSlot : Nat) : HWAtomInfo × Nat :=
  ({ Atoms := fun a =>
      if a = HI.NextAtom then { Slot := StartSlot, Deps := [(Src, false)], IsWrReg := true }
      else HI.Atoms a,
     NextAtom := HI.NextAtom + 1 }, HI.NextAtom)

/-- The atom `a` with its edges from `Src` turned into edges from `New`. -/
def retarget (Src New : Nat) (a : HWAtom) : HWAtom :=
  { a with Deps := a.Deps.map (fun e => if e.1 = Src then (New, e.2) else e) }

/-- Modelled from the spec: `Dst->replaceDep(Src, New)`: the edges of `Dst` from `Src`
become edges from `New`. -/
def HWAtomInfo.replaceDep (HI : HWAtomInfo) (Dst Src New : Nat) : HWAtomInfo :=
  { HI with Atoms := fun a => if a = Dst then retarget Src New (HI.Atoms Dst) else HI.Atoms a }

/-- The loop over `RegUsers` (lines 74-110) for the source `Src`; the list holds the users
in the order in which the loop takes them, and `NewWrReg` is the copy created so far. -/
def streamUsers (Exit II Src : Nat) :
    List Nat → HWAtomInfo → Option Nat → Except Violation (HWAtomInfo × Option Nat)
  | [], HI, NewWrReg => .ok (HI, NewWrReg)
  | Dst :: RegUsers, HI, NewWrReg =>
    if Dst = Exit then streamUsers Exit II Src RegUsers HI NewWrReg
    else
      match HI.getEdgeFrom Dst Src with
      | none => .error .noEdge
      | some true => streamUsers Exit II Src RegUsers HI NewWrReg
      | some false =>
        if II ≤ wrap32 (((HI.Atoms Dst).Slot : Int) - ((HI.Atoms Src).Slot : Int)) then
          let StartSlot := wrap32 (((HI.Atoms Src).Slot : Int) + (II : Int))
          let r := match NewWrReg with
            | some N => (HI, N)
            | none => HI.getWrReg Src StartSlot
          streamUsers Exit II Src RegUsers (r.1.replaceDep Dst Src r.2) (some r.2)
        else streamUsers Exit II Src RegUsers HI NewWrReg

/-- The loop over `WorkList` (lines 67-115), run for at most `fuel` iterations (`none`: the
work list is not empty when the fuel is used up).  The head of the list is the back of the
vector; the users are taken from the back of `RegUsers`. -/
def streamLoop (Exit II : Nat) :
    Nat → List Nat → HWAtomInfo → Option (Except Violation HWAtomInfo)
  | 0, _, _ => none
  | _ + 1, [], HI => some (.ok HI)
  | fuel + 1, Src :: WorkList, HI =>
    match streamUsers Exit II Src (HI.uses Src).reverse HI none with
    | .error v => some (.error v)
    | .ok (HI1, none) => streamLoop Exit II fuel WorkList HI1
    | .ok (HI1, some NewWrReg) => streamLoop Exit II fuel (NewWrReg :: WorkList) HI1

/-- The work list that lines 56-65 build, its back first: the register writes of the state
that do not write a function-unit register and the register reads that are PHI nodes. -/
def initialWorkList (HI : HWAtomInfo) (State : FSMState) : List Nat :=
  (State.Atoms.filter (fun a =>
    if (HI.Atoms a).IsWrReg then !(HI.Atoms a).WriteFUReg
    else (HI.Atoms a).IsRdReg && (HI.Atoms a).IsPHINode)).reverse

/-- `ScalarStreamization::runOnBasicBlock`: the atoms after the pass. -/
def runOnBasicBlock (fuel : Nat) (HI : HWAtomInfo) (State : FSMState) :
    Option (Except Violation HWAtomInfo) :=
  if State.HaveSelfLoop = false then some (.ok HI)
  else if State.II = State.TotalSlot then some (.ok HI)
  else streamLoop State.ExitRoot State.II fuel (initialWorkList HI State) HI

/-- The user `Dst` of `Src` has an anti dependency: it is not the exit root, its edge from
`Src` is a forward edge, and the slots are at least `II` apart. -/
def HWAtomInfo.antiDep (HI : HWAtomInfo) (Exit II Src Dst : Nat) : Bool :=
  decide (Dst ≠ Exit) && decide (HI.getEdgeFrom Dst Src = some false) &&
    decide (II ≤ wrap32 (((HI.Atoms Dst).Slot : Int) - ((HI.Atoms Src).Slot : Int)))

/-- The atom `Copy` holds the value of `S`: it is `S`, or a register write that the pass has
inserted (its address is `First` or above), whose only dependency is a forward edge from an
atom that holds the value of `S`, and whose slot is `II` behind the slot of that atom. -/
inductive CopyChain (HI : HWAtomInfo) (II First S : Nat) : Nat → Prop
  | refl : CopyChain HI II First S S
  | step {B N : Nat} : CopyChain HI II First S B → First ≤ N → N < HI.NextAtom →
      (HI.Atoms N).Deps = [(B, false)] → (HI.Atoms N).IsWrReg = true →
      (HI.Atoms N).Slot = (HI.Atoms B).Slot + II → CopyChain HI II First S N

/-- The sources in the words of the specification: a register write that does not write a
function-unit register, or a register read (an atom that is not a register write) that is a
PHI node. -/
abbrev isStreamSource (a : HWAtom) : Prop :=
  (a.IsWrReg = true ∧ a.WriteFUReg = false) ∨
  (a.IsWrReg = false ∧ a.IsRdReg = true ∧ a.IsPHINode = true)

/-- The fuel that the work list `WorkList` needs at most when no slot exceeds `M`. -/
def streamWork (HI : HWAtomInfo) (M : Nat) (WorkList : List Nat) : Nat :=
  (WorkList.map (fun S => M + 2 - (HI.Atoms S).Slot)).sum

/-- The state `HI` with the work list `WorkList`, reached by the work-list loop from the
atoms `HI0` (whose first free address is `First`) and the work list `WorkList0`: the work
list holds distinct atoms in use, the edges join atoms in use, no slot exceeds `M` and no
slot of `HI0` has changed, every inserted copy reads an atom that has left the work list,
every forward user of an atom of the work list is scheduled no earlier than it, every
forward user of an atom of `WorkList0` reads a copy of its value that is close enough or
still on the work list, the work list holds atoms of `WorkList0` and inserted copies, no atom
of `WorkList0` or inserted copy that has left the work list has a forward user of `HI0` at
`II` slots or more, and the edges from the other atoms of `HI0` are unchanged. -/
structure StreamInv (Exit II First M : Nat) (HI0 : HWAtomInfo) (WorkList0 : List Nat)
    (HI : HWAtomInfo) (WorkList : List Nat) : Prop where
  next : First ≤ HI.NextAtom
  nodup : WorkList.Nodup
  inUse : ∀ S ∈ WorkList, S < HI.NextAtom
  keys : ∀ D, D < HI.NextAtom → ∀ e ∈ (HI.Atoms D).Deps, e.1 < HI.NextAtom
  slots : ∀ D, D < HI.NextAtom → (HI.Atoms D).Slot ≤ M
  old : ∀ D, D < First → (HI.Atoms D).Slot = (HI0.Atoms D).Slot
  copies : ∀ N, First ≤ N → N < HI.NextAtom →
    ∃ B, B < N ∧ (HI.Atoms N).Deps = [(B, false)] ∧ (HI.Atoms N).IsWrReg = true ∧
      (HI.Atoms N).Slot = (HI.Atoms B).Slot + II ∧ B ∉ WorkList
  ahead : ∀ S ∈ WorkList, ∀ D, D < HI.NextAtom → D ≠ Exit →
    HI.getEdgeFrom D S = some false → (HI.Atoms S).Slot ≤ (HI.Atoms D).Slot
  served : ∀ S ∈ WorkList0, ∀ D, D < First → D ≠ Exit → HI0.getEdgeFrom D S = some false →
    ∃ C, C < HI.NextAtom ∧ CopyChain HI II First S C ∧ HI.getEdgeFrom D C = some false ∧
      (HI.Atoms C).Slot ≤ (HI.Atoms D).Slot ∧
      ((HI.Atoms D).Slot - (HI.Atoms C).Slot < II ∨ C ∈ WorkList)
  origin : ∀ S ∈ WorkList, S ∈ WorkList0 ∨ First ≤ S
  settled : ∀ A, A < HI.NextAtom → A ∉ WorkList → (A ∈ WorkList0 ∨ First ≤ A) →
    ∀ D, D < First → D ≠ Exit → HI.getEdgeFrom D A = some false →
      (HI.Atoms A).Slot ≤ (HI.Atoms D).Slot ∧ (HI.Atoms D).Slot - (HI.Atoms A).Slot < II
  frame : ∀ D, D < First → ∀ K, K < First → K ∉ WorkList0 →
    HI.getEdgeFrom D K = HI0.getEdgeFrom D K

/-! ## A streamization example

A self-loop state with II 2 and 6 slots.  Atom 1 is a register write at slot 1 that does not
write a function-unit register; its users are the exit root 0, atom 2 at slot 2, atom 3 at
slot 6, and atom 4, which reads it through a back edge.  Atom 5 is a PHI register read at
slot 1 with the user 6 at slot 4.  Atom 7 is a register write that writes a function-unit
register and atom 8 a register read that is no PHI node, both at slot 1 with the user 9 at
slot 6. -/

/-- The atoms of the streamization example. -/
def exAtoms : HWAtomInfo where
  Atoms := fun a =>
    match a with
    | 0 => { Slot := 6, Deps := [(1, false)] }
    | 1 => { Slot := 1, IsWrReg := true }
    | 2 => { Slot := 2, Deps := [(1, false)] }
    | 3 => { Slot := 6, Deps := [(1, false)] }
    | 4 => { Slot := 0, Deps := [(1, true)] }
    | 5 => { Slot := 1, IsRdReg := true, IsPHINode := true }
    | 6 => { Slot := 4, Deps := [(5, false)] }
    | 7 => { Slot := 1, IsWrReg := true, WriteFUReg := true }
    | 8 => { Slot := 1, IsRdReg := true }
    | 9 => { Slot := 6, Deps := [(7, false), (8, false)] }
    | _ => {}
  NextAtom := 10

/-- The state of the streamization example. -/
def exState : FSMState :=
  { Atoms := [0, 1, 2, 3, 4, 5, 6, 7, 8, 9], ExitRoot := 0, HaveSelfLoop := true, II := 2,
    TotalSlot := 6 }

/-- The atoms of the streamization example after the pass. -/
def exStreamed : HWAtomInfo :=
  match runOnBasicBlock 100 exAtoms exState with
  | some (.ok HI) => HI
  | _ => exAtoms

/-! ## Preparing the data-path schedule -/

/-- The loop of `prepareForDatapathSched` (lines 222-226) over the control-path list;
`isControl()` is the negation of `isDatapath()`. -/
def prepareCPSUs : List Nat → Heap → Except Violation Heap
  | [], h => .ok h
  | U :: rest, h =>
    if (h U).IsDatapath = true then .error .unexpectedDatapath
    else prepareCPSUs rest (cleanDepAndUse h U)

/-- `VSchedGraph::prepareForDatapathSched`: the data-path list is appended to the
control-path list (line 230). -/
def prepareForDatapathSched (h : Heap) (G : VSchedGraph) : Except Violation (Heap × VSchedGraph) :=
  match prepareCPSUs G.CPSUs h with
  | .error v => .error v
  | .ok h1 => .ok (h1, { G with CPSUs := G.CPSUs ++ G.DPSUs })

/-- The loop example after `prepareForDatapathSched`. -/
def exPrepared : Heap × VSchedGraph :=
  match prepareForDatapathSched exHeapLoop exGLoop with
  | .ok r => r
  | .error _ => (exHeapLoop, exGLoop)

/-- The heap of the prepared loop example after `resetCPSchedule(2)`. -/
def exPreparedReset : Heap :=
  match resetCPSchedule exPrepared.1 exPrepared.2 2 with
  | .ok h => h
  | .error _ => exPrepared.1

/-- From the driver state `d` to the driver state `d1` exactly one of the two bounds, MII or
the critical-path bound, has grown by one, and the other one is unchanged. -/
def oneBoundUp (d d1 : Driver) : Prop :=
  (d1.MII = d.MII + 1 ∧ d1.CriticalPathEnd = d.CriticalPathEnd) ∨
  (d1.MII = d.MII ∧ d1.CriticalPathEnd = d.CriticalPathEnd + 1)

/-! ## Edge bundling: theorems -/

theorem VDEdge.addEdge_ok_cases {C N E : VDEdge} (h : C.addEdge N = .ok E) :
    (E = N ∧ N.Distance ≤ C.Distance ∧ C.Latency ≤ N.Latency) ∨
    (E = C ∧ (N.Distance ≤ C.Distance → N.Latency ≤ C.Latency)) := by
  unfold VDEdge.addEdge at h
  split_ifs at h with h1 h2 h3 h4
  · cases h; subst h1; right; exact ⟨rfl, fun _ => le_refl _⟩
  · cases h; left; exact ⟨rfl, h4.1, by omega⟩
  · cases h; right; refine ⟨rfl, fun hd => ?_⟩
    by_contra hc
    exact h4 ⟨hd, by omega⟩

theorem EdgeBundle.addEdge_ok {b b1 : EdgeBundle} {N : VDEdge} (h : b.addEdge N = .ok b1) :
    b.Edge.addEdge N = .ok b1.Edge ∧ b1.IsCrossBB = b.IsCrossBB := by
  unfold EdgeBundle.addEdge at h
  split at h
  · next e he => cases h; exact ⟨he, rfl⟩
  · cases h

theorem EdgeBundle.mergeAll_mono {es : List VDEdge} {b F : EdgeBundle}
    (h : b.mergeAll es = .ok F) :
    b.Edge.Latency ≤ F.Edge.Latency ∧ F.Edge.Distance ≤ b.Edge.Distance := by
  induction es generalizing b with
  | nil => simp [EdgeBundle.mergeAll] at h; subst h; exact ⟨le_refl _, le_refl _⟩
  | cons e es ih =>
    simp only [EdgeBundle.mergeAll] at h
    split at h
    · next b1 hb1 =>
      have h1 := (EdgeBundle.addEdge_ok hb1).1
      have h2 := ih h
      rcases VDEdge.addEdge_ok_cases h1 with ⟨he, hd, hl⟩ | ⟨he, _⟩
      · rw [he] at h2; exact ⟨by omega, by omega⟩
      · rw [he] at h2; exact h2
    · cases h

theorem EdgeBundle.mergeAll_latency {es : List VDEdge} {b F : EdgeBundle}
    (h : b.mergeAll es = .ok F) (e : VDEdge) (he : e ∈ es)
    (hd : e.Distance ≤ F.Edge.Distance) : e.Latency ≤ F.Edge.Latency := by
  induction es generalizing b with
  | nil => cases he
  | cons a es ih =>
    simp only [EdgeBundle.mergeAll] at h
    split at h
    · next b1 hb1 =>
      have h1 := (EdgeBundle.addEdge_ok hb1).1
      have h2 := EdgeBundle.mergeAll_mono h
      rcases List.mem_cons.1 he with rfl | hmem
      · rcases VDEdge.addEdge_ok_cases h1 with ⟨hE, _, _⟩ | ⟨hE, himp⟩
        · rw [hE] at h2; exact h2.1
        · rw [hE] at h2
          have := himp (by omega)
          omega
      · exact ih h hmem
    · cases h

/-- C1: for a new edge N different from the current edge C that passes both invariant checks,
the bundle holds N after addEdge(N) exactly when N.distance <= C.distance and
N.latency > C.latency, and holds C otherwise; addEdge of an equal edge changes nothing. -/
theorem addEdge_replacement_rule (C N : VDEdge) (x : Bool) :
    (N ≠ C → N.EdgeType ≠ .FixedTiming → C.EdgeType ≠ .FixedTiming →
      ¬ (N.Distance ≠ 0 ∧ C.Distance ≠ 0 ∧ N.Distance ≠ C.Distance) →
      EdgeBundle.addEdge ⟨C, x⟩ N =
        .ok ⟨if N.Distance ≤ C.Distance ∧ N.Latency > C.Latency then N else C, x⟩) ∧
    EdgeBundle.addEdge ⟨C, x⟩ C = .ok ⟨C, x⟩ := by
  constructor
  · intro hne h1 h2 h3
    have hne2 : ¬ C = N := fun h => hne h.symm
    have h4 : N.Distance = 0 ∨ C.Distance = 0 ∨ C.Distance = N.Distance := by omega
    have hA : N.EdgeType ≠ .FixedTiming ∧ C.EdgeType ≠ .FixedTiming := ⟨h1, h2⟩
    unfold EdgeBundle.addEdge VDEdge.addEdge
    simp only [if_neg hne2, if_neg (not_not.2 hA), if_neg (not_not.2 h4)]
    split_ifs <;> rfl
  · simp [EdgeBundle.addEdge, VDEdge.addEdge]

/-- C1 (witness): a value edge of latency 3 replaces a value edge of latency 2. -/
theorem addEdge_replacement_rule_witness :
    EdgeBundle.addEdge ⟨⟨.ValDep, 2, 0⟩, false⟩ ⟨.ValDep, 3, 0⟩ =
      .ok ⟨⟨.ValDep, 3, 0⟩, false⟩ :=
  (addEdge_replacement_rule ⟨.ValDep, 2, 0⟩ ⟨.ValDep, 3, 0⟩ false).1
    (by decide) (by decide) (by decide) (by decide)

/-- C2 (counterexample): merging the edge (latency 10, distance 1) into a bundle created by
the edge (latency 5, distance 0) succeeds and keeps the first edge, whose bound at II = 1
is 5, below the bound 9 of the merged edge. -/
theorem mergeAll_not_tightest :
    ¬ (∀ (first : VDEdge) (x : Bool) (es : List VDEdge) (F : EdgeBundle) (II : Nat),
        EdgeBundle.mergeAll ⟨first, x⟩ es = .ok F →
        ∀ e ∈ first :: es, e.bound II ≤ F.Edge.bound II) := by
  intro h
  have := h ⟨.ValDep, 5, 0⟩ false [⟨.ValDep, 10, 1⟩] ⟨⟨.ValDep, 5, 0⟩, false⟩ 1 (by decide)
    ⟨.ValDep, 10, 1⟩ (by simp)
  revert this
  decide

/-- C2 (amended): for every sequence of edges merged into one bundle without an invariant
violation and every initiation interval II, the bound (latency - distance * II) of the
retained edge is >= the bound of the edge that created the bundle and >= the bound of each
merged edge whose distance equals the distance of the retained edge. -/
theorem mergeAll_bound_same_distance (first : VDEdge) (x : Bool) (es : List VDEdge)
    (F : EdgeBundle) (II : Nat) (h : EdgeBundle.mergeAll ⟨first, x⟩ es = .ok F) :
    first.bound II ≤ F.Edge.bound II ∧
    ∀ e ∈ first :: es, e.Distance = F.Edge.Distance → e.bound II ≤ F.Edge.bound II := by
  have hm := EdgeBundle.mergeAll_mono h
  simp only at hm
  have key : ∀ a b c d : Nat, a ≤ b → d ≤ c →
      (a : Int) - (c : Int) * (II : Int) ≤ (b : Int) - (d : Int) * (II : Int) := by
    intro a b c d hab hdc
    have h1 : (d : Int) * (II : Int) ≤ (c : Int) * (II : Int) :=
      Int.mul_le_mul_of_nonneg_right (by exact_mod_cast hdc) (by positivity)
    have h2 : (a : Int) ≤ (b : Int) := by exact_mod_cast hab
    omega
  refine ⟨key _ _ _ _ hm.1 hm.2, ?_⟩
  intro e he hd
  have hl : e.Latency ≤ F.Edge.Latency := by
    rcases List.mem_cons.1 he with rfl | hmem
    · exact hm.1
    · exact EdgeBundle.mergeAll_latency h e hmem (by omega)
  unfold VDEdge.bound
  exact key _ _ _ _ hl (by omega)

/-- C2 (amended, witness): three edges of distance 1 and latencies 2, 5, 3. -/
theorem mergeAll_bound_same_distance_witness :
    (VDEdge.bound ⟨.ValDep, 2, 1⟩ 4 ≤ VDEdge.bound ⟨.ValDep, 5, 1⟩ 4) ∧
    ∀ e ∈ [(⟨.ValDep, 2, 1⟩ : VDEdge), ⟨.ValDep, 5, 1⟩, ⟨.ValDep, 3, 1⟩],
      e.Distance = 1 → e.bound 4 ≤ VDEdge.bound ⟨.ValDep, 5, 1⟩ 4 :=
  mergeAll_bound_same_distance ⟨.ValDep, 2, 1⟩ false [⟨.ValDep, 5, 1⟩, ⟨.ValDep, 3, 1⟩]
    ⟨⟨.ValDep, 5, 1⟩, false⟩ 4 (by decide)

/-- C3: for every sequence of edges merged into one bundle without an invariant violation
(the first edge creating the bundle), the latency of the final bundle is >= the latency of
every merged edge whose distance is <= the distance of the final bundle. -/
theorem mergeAll_monotonic_tightening (first : VDEdge) (x : Bool) (es : List VDEdge)
    (F : EdgeBundle) (h : EdgeBundle.mergeAll ⟨first, x⟩ es = .ok F)
    (e : VDEdge) (he : e ∈ first :: es) (hd : e.Distance ≤ F.Edge.Distance) :
    e.Latency ≤ F.Edge.Latency := by
  rcases List.mem_cons.1 he with rfl | hmem
  · exact (EdgeBundle.mergeAll_mono h).1
  · exact EdgeBundle.mergeAll_latency h e hmem hd

/-- C3 (witness): merging latencies 2, 7, 4 at distance 0 leaves latency 7 >= 4. -/
theorem mergeAll_monotonic_tightening_witness :
    (⟨.ValDep, 4, 0⟩ : VDEdge).Latency ≤ (⟨⟨.MemDep, 7, 0⟩, true⟩ : EdgeBundle).Edge.Latency :=
  mergeAll_monotonic_tightening ⟨.ValDep, 2, 0⟩ true [⟨.MemDep, 7, 0⟩, ⟨.ValDep, 4, 0⟩]
    ⟨⟨.MemDep, 7, 0⟩, true⟩ (by decide) ⟨.ValDep, 4, 0⟩ (by simp) (by decide)

/-- C4: addEdge fails with an invariant violation if and only if the new edge N differs from
the current edge C and either one of them is FixedTiming or their distances are both nonzero
and unequal; hence a successful addEdge never changes a bundle holding a FixedTiming edge. -/
theorem addEdge_fails_iff (b : EdgeBundle) (N : VDEdge) :
    ((∃ v, b.addEdge N = .error v) ↔
      (N ≠ b.Edge ∧
        ((N.EdgeType = .FixedTiming ∨ b.Edge.EdgeType = .FixedTiming) ∨
          (N.Distance ≠ 0 ∧ b.Edge.Distance ≠ 0 ∧ N.Distance ≠ b.Edge.Distance)))) ∧
    (b.Edge.EdgeType = .FixedTiming → ∀ b1, b.addEdge N = .ok b1 → b1 = b) := by
  constructor
  · unfold EdgeBundle.addEdge VDEdge.addEdge
    by_cases h0 : b.Edge = N
    · simp [h0]
    · have h0s : N ≠ b.Edge := fun h => h0 h.symm
      simp only [if_neg h0]
      by_cases h1 : N.EdgeType ≠ .FixedTiming ∧ b.Edge.EdgeType ≠ .FixedTiming
      · simp only [if_neg (not_not.2 h1)]
        by_cases h2 : N.Distance = 0 ∨ b.Edge.Distance = 0 ∨ b.Edge.Distance = N.Distance
        · have h3 : ¬ (N.Distance ≠ 0 ∧ b.Edge.Distance ≠ 0 ∧ N.Distance ≠ b.Edge.Distance) := by
            omega
          simp only [if_neg (not_not.2 h2)]
          constructor
          · rintro ⟨v, hv⟩
            split_ifs at hv
          · rintro ⟨_, hft | hd⟩
            · rcases hft with hft | hft
              · exact absurd hft h1.1
              · exact absurd hft h1.2
            · exact absurd hd h3
        · have h3 : N.Distance ≠ 0 ∧ b.Edge.Distance ≠ 0 ∧ N.Distance ≠ b.Edge.Distance := by
            omega
          simp only [if_pos h2]
          exact ⟨fun _ => ⟨h0s, Or.inr h3⟩, fun _ => ⟨_, rfl⟩⟩
      · have h3 : N.EdgeType = .FixedTiming ∨ b.Edge.EdgeType = .FixedTiming := by
          by_contra hc
          push_neg at hc
          exact h1 hc
        simp only [if_pos h1]
        exact ⟨fun _ => ⟨h0s, Or.inl h3⟩, fun _ => ⟨_, rfl⟩⟩
  · intro hft b1 hok
    have h1 := EdgeBundle.addEdge_ok hok
    have h2 : b.Edge.addEdge N = .ok b1.Edge := h1.1
    unfold VDEdge.addEdge at h2
    split_ifs at h2 with h3 h4 h5 h6
    · cases b; cases b1; simp only at h1 h2 ⊢
      cases h2; simp [h1.2]
    · exact absurd hft h4.2
    · exact absurd hft h4.2

/-- C4 (witness): a bundle holding a FixedTiming edge accepts only the same edge again. -/
theorem addEdge_fails_iff_witness :
    (⟨⟨.FixedTiming, 3, 0⟩, false⟩ : EdgeBundle) = ⟨⟨.FixedTiming, 3, 0⟩, false⟩ :=
  (addEdge_fails_iff ⟨⟨.FixedTiming, 3, 0⟩, false⟩ ⟨.FixedTiming, 3, 0⟩).2 (by decide)
    ⟨⟨.FixedTiming, 3, 0⟩, false⟩ (by decide)

/-! ## Dependency attachment: theorems -/

@[simp] theorem Heap.set_same (h : Heap) (p : Nat) (u : VSUnit) : (h.set p u) p = u := by
  simp [Heap.set]

@[simp] theorem Heap.set_other (h : Heap) {p q : Nat} (u : VSUnit) (hne : q ≠ p) :
    (h.set p u) q = h q := by
  simp [Heap.set, hne]

theorem mapSet_keys {β : Type} (k : Nat) (v : β) (m : List (Nat × β)) :
    (mapSet k v m).map Prod.fst = m.map Prod.fst := by
  induction m with
  | nil => rfl
  | cons a r ih =>
    obtain ⟨a1, a2⟩ := a
    simp only [mapSet]
    split_ifs <;> simp [ih]

theorem mapFind_mapSet_same {β : Type} (k : Nat) (v b : β) (m : List (Nat × β))
    (h : mapFind k m = some b) : mapFind k (mapSet k v m) = some v := by
  induction m with
  | nil => simp [mapFind] at h
  | cons a r ih =>
    obtain ⟨a1, a2⟩ := a
    simp only [mapSet, mapFind] at h ⊢
    split_ifs at h ⊢ with h1
    · simp [mapFind, h1]
    · simp [mapFind, h1, ih h]

theorem mapFind_mapSet_other {β : Type} (k j : Nat) (v : β) (m : List (Nat × β))
    (hne : j ≠ k) : mapFind j (mapSet k v m) = mapFind j m := by
  induction m with
  | nil => rfl
  | cons a r ih =>
    obtain ⟨a1, a2⟩ := a
    simp only [mapSet]
    split_ifs with h1
    · subst h1
      have : ¬ a1 = j := fun h => hne h.symm
      simp [mapFind, this]
    · simp [mapFind, ih]

theorem addDep_new {h : Heap} {This Src : Nat} (NewE : VDEdge) (hne : Src ≠ This)
    (hfind : mapFind Src (h This).Deps = none) :
    addDep h This Src NewE = .ok (addToUseList
      (h.set This { h This with
        Deps := (h This).Deps ++
          [(Src, ⟨NewE, decide ((h Src).ParentBB ≠ (h This).ParentBB)⟩)] })
      Src This) := by
  simp [addDep, hne, hfind, mapInsert]

/-- C5: when the source S (different from U) has no bundle in the dependency map of U,
U.addDep(S, E) appends exactly the entry S -> bundle with edge E, tagged cross-block iff S and
U are in different basic blocks, and U is in the use set of S; when a bundle b for S exists,
addDep fails exactly when addEdge fails and otherwise keeps the key set, the use set of S and
the cross-block tag, changing only the edge of that bundle as addEdge prescribes. -/
theorem addDep_new_or_merge (h : Heap) (U S : Nat) (E : VDEdge) (hne : S ≠ U) :
    (mapFind S (h U).Deps = none →
      ∃ h1, addDep h U S E = .ok h1 ∧
        (h1 U).Deps =
          (h U).Deps ++ [(S, ⟨E, decide ((h S).ParentBB ≠ (h U).ParentBB)⟩)] ∧
        U ∈ (h1 S).UseList) ∧
    (∀ b, mapFind S (h U).Deps = some b →
      (∀ v, b.addEdge E = .error v → addDep h U S E = .error v) ∧
      (∀ b1, b.addEdge E = .ok b1 →
        ∃ h1, addDep h U S E = .ok h1 ∧
          (h1 U).Deps.map Prod.fst = (h U).Deps.map Prod.fst ∧
          (h1 S).UseList = (h S).UseList ∧
          mapFind S (h1 U).Deps = some b1 ∧
          b1.IsCrossBB = b.IsCrossBB ∧
          b.Edge.addEdge E = .ok b1.Edge ∧
          ∀ j, j ≠ S → mapFind j (h1 U).Deps = mapFind j (h U).Deps)) := by
  have hne2 : U ≠ S := fun e => hne e.symm
  constructor
  · intro hfind
    refine ⟨_, addDep_new E hne hfind, ?_, ?_⟩
    · unfold addToUseList
      split_ifs
      · simp
      · rw [Heap.set_other _ _ hne2]; simp
    · unfold addToUseList
      split_ifs with hm
      · exact hm
      · simp
  · intro b hfind
    constructor
    · intro v hv
      simp [addDep, hne, hfind, hv]
    · intro b1 hb1
      refine ⟨h.set U { h U with Deps := mapSet S b1 (h U).Deps },
        by simp [addDep, hne, hfind, hb1], ?_, ?_, ?_, ?_, ?_, ?_⟩
      · simp [mapSet_keys]
      · rw [Heap.set_other _ _ hne]
      · simp [mapFind_mapSet_same S b1 b _ hfind]
      · exact (EdgeBundle.addEdge_ok hb1).2
      · exact (EdgeBundle.addEdge_ok hb1).1
      · intro j hj
        simp [mapFind_mapSet_other S j b1 _ hj]

/-- C5 (witness): in the example heap, attaching the entry root 10 as a new source of the
terminator 12 appends one entry and registers 12 as a user of 10. -/
theorem addDep_new_or_merge_witness :
    ∃ h1, addDep exHeap 12 10 ⟨.ValDep, 3, 0⟩ = .ok h1 ∧
      (h1 12).Deps = (exHeap 12).Deps ++
        [(10, ⟨⟨.ValDep, 3, 0⟩, decide ((exHeap 10).ParentBB ≠ (exHeap 12).ParentBB)⟩)] ∧
      12 ∈ (h1 10).UseList :=
  (addDep_new_or_merge exHeap 12 10 ⟨.ValDep, 3, 0⟩ (by decide)).1 (by decide)

/-- C6: U.addDep(U, E) fails with the self-loop invariant violation for every unit U and
every edge E; the aborted call leaves no heap in which U is its own dependency or user. -/
theorem addDep_self_rejected (h : Heap) (U : Nat) (E : VDEdge) :
    addDep h U U E = .error .selfLoop := by
  simp [addDep]

/-! ## Graph composition: one step of each loop -/

@[simp] theorem Heap.set_set (h : Heap) (p : Nat) (u v : VSUnit) :
    (h.set p u).set p v = h.set p v := by
  funext q
  simp only [Heap.set]
  split_ifs <;> rfl

theorem addDep_shape {h h1 : Heap} {This Src : Nat} {E : VDEdge}
    (hok : addDep h This Src E = .ok h1) :
    Src ≠ This ∧ ∃ D Us, ∀ p, h1 p =
      if p = This then { h p with Deps := D }
      else if p = Src then { h p with UseList := Us } else h p := by
  unfold addDep at hok
  by_cases hne : Src = This
  · rw [if_pos hne] at hok; cases hok
  rw [if_neg hne] at hok
  refine ⟨hne, ?_⟩
  split at hok
  · cases hok
    unfold addToUseList
    by_cases hm : This ∈ (h Src).UseList
    · refine ⟨mapInsert (h This).Deps
        (Src, ⟨E, decide ((h Src).ParentBB ≠ (h This).ParentBB)⟩), (h Src).UseList, fun p => ?_⟩
      simp only [Heap.set_other _ _ hne, if_pos hm]
      simp only [Heap.set]
      split_ifs with h1 h2
      · subst h1; rfl
      · subst h2; rfl
      · rfl
    · refine ⟨mapInsert (h This).Deps
        (Src, ⟨E, decide ((h Src).ParentBB ≠ (h This).ParentBB)⟩),
        (h Src).UseList ++ [This], fun p => ?_⟩
      simp only [Heap.set_other _ _ hne, if_neg hm]
      simp only [Heap.set]
      split_ifs with h1 h2 h3
      · subst h1; exact absurd h2 hne
      · subst h1; rfl
      · subst h3; rfl
      · rfl
  · next b hb =>
    split at hok
    · next b1 hb1 =>
      cases hok
      refine ⟨mapSet Src b1 (h This).Deps, (h Src).UseList, fun p => ?_⟩
      simp only [Heap.set]
      split_ifs with h1 h2
      · subst h1; rfl
      · subst h2; rfl
      · rfl
    · cases hok

theorem addDep_frame {h h1 : Heap} {This Src : Nat} {E : VDEdge}
    (hok : addDep h This Src E = .ok h1) (p : Nat) :
    (h1 p).InstIdx = (h p).InstIdx ∧ (h1 p).SchedSlot = (h p).SchedSlot ∧
    (h1 p).ParentBB = (h p).ParentBB ∧
    (p ≠ This → (h1 p).Deps = (h p).Deps) ∧ (p ≠ Src → (h1 p).UseList = (h p).UseList) := by
  obtain ⟨hne, D, Us, hsh⟩ := addDep_shape hok
  rw [hsh p]
  split_ifs with h1 h2
  · subst h1
    exact ⟨rfl, rfl, rfl, fun hc => absurd rfl hc, fun _ => rfl⟩
  · subst h2
    exact ⟨rfl, rfl, rfl, fun _ => rfl, fun hc => absurd rfl hc⟩
  · exact ⟨rfl, rfl, rfl, fun _ => rfl, fun _ => rfl⟩

theorem mergeCPStep_exit {k : SUIdxConsts} {X T TS B : Nat} {s s1 : MergeLoop} {U : Nat}
    (hU : U = X) (hok : mergeCPStep k X T TS B s U = .ok s1) : s1 = s := by
  simp [mergeCPStep, hU] at hok
  exact hok.symm

theorem mergeCPStep_ok {k : SUIdxConsts} {X T TS B : Nat} {s s1 : MergeLoop} {U : Nat}
    (hU : U ≠ X) (hok : mergeCPStep k X T TS B s U = .ok s1) :
    k.NullSUIdx <
      wrap16 (wrap32 ((B : Int) + ((s.heap U).InstIdx : Int) - (k.FirstSUIdx : Int))) ∧
    s1.SUs = s.SUs ++ [U] ∧ s1.NextSUIdx = s.NextSUIdx + 1 ∧
    (U = T → s1.heap = s.heap.set U { s.heap U with
        InstIdx :=
          wrap16 (wrap32 ((B : Int) + ((s.heap U).InstIdx : Int) - (k.FirstSUIdx : Int))),
        SchedSlot := 0, HasFixedTiming := true }) ∧
    (U ≠ T → (s.heap U).SchedSlot ≠ 0 ∧
      addDep (s.heap.set U { s.heap U with
        InstIdx :=
          wrap16 (wrap32 ((B : Int) + ((s.heap U).InstIdx : Int) - (k.FirstSUIdx : Int))),
        SchedSlot := 0, HasFixedTiming := true, Deps := [], UseList := [] }) T U
        (VDEdge.CreateFixTimingConstraint
          (wrap32 ((TS : Int) - ((s.heap U).SchedSlot : Int)))) = .ok s1.heap) := by
  unfold mergeCPStep at hok
  rw [if_neg hU] at hok
  unfold updateIdx at hok
  by_cases hidx : wrap16 (wrap32 ((B : Int) + ((s.heap U).InstIdx : Int) -
      (k.FirstSUIdx : Int))) > k.NullSUIdx
  · rw [if_neg (not_not.2 hidx)] at hok
    simp only [resetSchedule, setHasFixedTiming, cleanDepAndUse, Heap.set_set,
      Heap.set_same] at hok
    by_cases hT : U = T
    · rw [if_pos hT] at hok
      cases hok
      exact ⟨hidx, rfl, rfl, fun _ => rfl, fun hc => absurd hT hc⟩
    · rw [if_neg hT] at hok
      by_cases hslot : (s.heap U).SchedSlot = 0
      · rw [if_pos hslot] at hok; cases hok
      · rw [if_neg hslot] at hok
        split at hok
        · cases hok
        · next h5 hdep =>
          cases hok
          exact ⟨hidx, rfl, rfl, fun hc => absurd hc hT, fun _ => ⟨hslot, hdep⟩⟩
  · rw [if_pos hidx] at hok; cases hok

theorem mergeDPStep_ok {k : SUIdxConsts} {B : Nat} {s s1 : MergeLoop} {U : Nat}
    (hok : mergeDPStep k B s U = .ok s1) :
    s1.SUs = s.SUs ++ [U] ∧ s1.NextSUIdx = s.NextSUIdx + 1 ∧
    s1.heap = s.heap.set U { s.heap U with
        InstIdx :=
          wrap16 (wrap32 ((B : Int) + ((s.heap U).InstIdx : Int) - (k.FirstSUIdx : Int))) } := by
  unfold mergeDPStep updateIdx at hok
  by_cases hidx : wrap16 (wrap32 ((B : Int) + ((s.heap U).InstIdx : Int) -
      (k.FirstSUIdx : Int))) > k.NullSUIdx
  · rw [if_neg (not_not.2 hidx)] at hok
    cases hok
    exact ⟨rfl, rfl, rfl⟩
  · rw [if_pos hidx] at hok; cases hok

theorem mapFind_eq_none {β : Type} (k : Nat) (m : List (Nat × β)) :
    mapFind k m = none ↔ k ∉ m.map Prod.fst := by
  induction m with
  | nil => simp [mapFind]
  | cons a r ih =>
    obtain ⟨a1, a2⟩ := a
    simp only [mapFind]
    split_ifs with h1
    · subst h1; simp
    · have h2 : ¬ k = a1 := fun e => h1 e.symm
      simp [ih, h2]

/-- Facts about one successful iteration of the control-path loop. -/
theorem mergeCPStep_fields {k : SUIdxConsts} {X T TS B : Nat} {s s1 : MergeLoop} {U : Nat}
    (hok : mergeCPStep k X T TS B s U = .ok s1) :
    (∀ p, p ≠ U → (s1.heap p).InstIdx = (s.heap p).InstIdx ∧
      (s1.heap p).SchedSlot = (s.heap p).SchedSlot) ∧
    (∀ p, (s1.heap p).ParentBB = (s.heap p).ParentBB) ∧
    (U ≠ X → (s1.heap U).SchedSlot = 0 ∧ (s1.heap U).InstIdx =
      wrap16 (wrap32 ((B : Int) + ((s.heap U).InstIdx : Int) - (k.FirstSUIdx : Int)))) ∧
    (∀ p, p ≠ U → p ≠ T → (s1.heap p).Deps = (s.heap p).Deps ∧
      (s1.heap p).UseList = (s.heap p).UseList) ∧
    (U = X ∨ U = T → (s1.heap T).Deps = (s.heap T).Deps) ∧
    (U ≠ X → U ≠ T → (s.heap U).SchedSlot ≠ 0) := by
  by_cases hX : U = X
  · have := mergeCPStep_exit hX hok
    subst this
    exact ⟨fun _ _ => ⟨rfl, rfl⟩, fun _ => rfl, fun hc => absurd hX hc,
      fun _ _ _ => ⟨rfl, rfl⟩, fun _ => rfl, fun hc => absurd hX hc⟩
  · obtain ⟨_, _, _, hT, hnT⟩ := mergeCPStep_ok hX hok
    by_cases hUT : U = T
    · have hh := hT hUT
      refine ⟨?_, ?_, ?_, ?_, ?_, fun _ hc => absurd hUT hc⟩
      · intro p hp; rw [hh, Heap.set_other _ _ hp]; exact ⟨rfl, rfl⟩
      · intro p
        rw [hh]
        by_cases hp : p = U
        · subst hp; simp
        · rw [Heap.set_other _ _ hp]
      · intro _; rw [hh]; simp
      · intro p hp _; rw [hh, Heap.set_other _ _ hp]; exact ⟨rfl, rfl⟩
      · intro _; rw [hh, ← hUT]; simp
    · obtain ⟨hslot, hdep⟩ := hnT hUT
      have hfr := addDep_frame hdep
      refine ⟨?_, ?_, ?_, ?_, fun hc => ?_, fun _ _ => hslot⟩
      · intro p hp
        have := hfr p
        rw [Heap.set_other _ _ hp] at this
        exact ⟨this.1, this.2.1⟩
      · intro p
        have := (hfr p).2.2.1
        rw [this]
        by_cases hp : p = U
        · subst hp; simp
        · rw [Heap.set_other _ _ hp]
      · intro _
        have := hfr U
        simp only [Heap.set_same] at this
        exact ⟨this.2.1, this.1⟩
      · intro p hp hpT
        have := hfr p
        rw [Heap.set_other _ _ hp] at this
        exact ⟨this.2.2.2.1 hpT, this.2.2.2.2 hp⟩
      · rcases hc with hc | hc
        · exact absurd hc hX
        · exact absurd hc hUT

/-- The heap after one successful iteration for a unit that is neither the exit root nor
the terminator and has no entry yet in the dependency map of the terminator. -/
theorem mergeCPStep_new {k : SUIdxConsts} {X T TS B : Nat} {s s1 : MergeLoop} {U : Nat}
    (hok : mergeCPStep k X T TS B s U = .ok s1) (hX : U ≠ X) (hT : U ≠ T)
    (hnew : U ∉ (s.heap T).Deps.map Prod.fst) :
    (s1.heap T).Deps = (s.heap T).Deps ++ [mergedDep s.heap T TS U] ∧
    (s1.heap U).Deps = [] ∧ (s1.heap U).UseList = [T] := by
  obtain ⟨_, _, _, _, hnT⟩ := mergeCPStep_ok hX hok
  obtain ⟨_, hdep⟩ := hnT hT
  have hTU : T ≠ U := fun e => hT e.symm
  rw [addDep_new _ hT (by
    rw [Heap.set_other _ _ hTU]
    exact (mapFind_eq_none U _).2 hnew)] at hdep
  have hEq := Except.ok.inj hdep
  rw [← hEq]
  simp only [addToUseList, Heap.set_other _ _ hT, Heap.set_other _ _ hTU, Heap.set_same,
    List.not_mem_nil, if_false, mergedDep]
  simp [Heap.set_other _ _ hTU]

/-! ## Graph composition: the control-path loop -/

theorem mergeCPSUs_cons {k : SUIdxConsts} {X T TS B : Nat} {U : Nat} {rest : List Nat}
    {s s2 : MergeLoop} (hok : mergeCPSUs k X T TS B (U :: rest) s = .ok s2) :
    ∃ s1, mergeCPStep k X T TS B s U = .ok s1 ∧ mergeCPSUs k X T TS B rest s1 = .ok s2 := by
  simp only [mergeCPSUs] at hok
  split at hok
  · cases hok
  · next s1 h1 => exact ⟨s1, h1, hok⟩

theorem mergeCPSUs_lists {k : SUIdxConsts} {X T TS B : Nat} {l : List Nat}
    {s s2 : MergeLoop} (hok : mergeCPSUs k X T TS B l s = .ok s2) :
    s2.SUs = s.SUs ++ l.filter (fun U => decide (U ≠ X)) ∧
    s2.NextSUIdx = s.NextSUIdx + (l.filter (fun U => decide (U ≠ X))).length := by
  induction l generalizing s with
  | nil =>
    simp only [mergeCPSUs] at hok
    cases hok
    simp
  | cons U rest ih =>
    obtain ⟨s1, h1, h2⟩ := mergeCPSUs_cons hok
    have := ih h2
    by_cases hX : U = X
    · have := mergeCPStep_exit hX h1
      subst this
      simpa [List.filter_cons, hX] using this
    · obtain ⟨_, hs, hn, _, _⟩ := mergeCPStep_ok hX h1
      have hfc : (U :: rest).filter (fun U => decide (U ≠ X)) =
          U :: rest.filter (fun U => decide (U ≠ X)) := by
        simp [List.filter_cons, hX]
      rw [hfc, this.1, this.2, hs, hn]
      refine ⟨by simp, by simp only [List.length_cons]; omega⟩

theorem mergeCPSUs_parentBB {k : SUIdxConsts} {X T TS B : Nat} {l : List Nat}
    {s s2 : MergeLoop} (hok : mergeCPSUs k X T TS B l s = .ok s2) (p : Nat) :
    (s2.heap p).ParentBB = (s.heap p).ParentBB := by
  induction l generalizing s with
  | nil => simp only [mergeCPSUs] at hok; cases hok; rfl
  | cons U rest ih =>
    obtain ⟨s1, h1, h2⟩ := mergeCPSUs_cons hok
    rw [ih h2, (mergeCPStep_fields h1).2.1 p]

theorem mergeCPSUs_frame {k : SUIdxConsts} {X T TS B : Nat} {l : List Nat}
    {s s2 : MergeLoop} (hok : mergeCPSUs k X T TS B l s = .ok s2) (p : Nat)
    (hp : p ∈ l → p = X) :
    (s2.heap p).InstIdx = (s.heap p).InstIdx ∧ (s2.heap p).SchedSlot = (s.heap p).SchedSlot ∧
    (p ≠ T → (s2.heap p).Deps = (s.heap p).Deps ∧ (s2.heap p).UseList = (s.heap p).UseList) := by
  induction l generalizing s with
  | nil => simp only [mergeCPSUs] at hok; cases hok; exact ⟨rfl, rfl, fun _ => ⟨rfl, rfl⟩⟩
  | cons U rest ih =>
    obtain ⟨s1, h1, h2⟩ := mergeCPSUs_cons hok
    have ih1 := ih h2 (fun hm => hp (List.mem_cons_of_mem _ hm))
    by_cases hX : U = X
    · have := mergeCPStep_exit hX h1
      subst this
      exact ih1
    · have hpU : p ≠ U := by
        intro e
        subst e
        exact hX (hp (List.mem_cons_self _ _))
      have hf := mergeCPStep_fields h1
      have ha := hf.1 p hpU
      refine ⟨by rw [ih1.1, ha.1], by rw [ih1.2.1, ha.2], fun hT => ?_⟩
      have hd := hf.2.2.2.1 p hpU hT
      have := ih1.2.2 hT
      exact ⟨by rw [this.1, hd.1], by rw [this.2, hd.2]⟩

theorem mergeCPSUs_slot_zero {k : SUIdxConsts} {X T TS B : Nat} {l : List Nat}
    {s s2 : MergeLoop} (hok : mergeCPSUs k X T TS B l s = .ok s2) (p : Nat)
    (hp : p ∈ l) (hX : p ≠ X) : (s2.heap p).SchedSlot = 0 := by
  induction l generalizing s with
  | nil => cases hp
  | cons U rest ih =>
    obtain ⟨s1, h1, h2⟩ := mergeCPSUs_cons hok
    by_cases hm : p ∈ rest
    · exact ih h2 hm
    · have hpU : p = U := by
        rcases List.mem_cons.1 hp with e | e
        · exact e
        · exact absurd e hm
      subst hpU
      rw [(mergeCPSUs_frame h2 p (fun e => absurd e hm)).2.1]
      exact ((mergeCPStep_fields h1).2.2.1 hX).1

theorem mergeCPSUs_scheduled {k : SUIdxConsts} {X T TS B : Nat} {l : List Nat}
    {s s2 : MergeLoop} (hok : mergeCPSUs k X T TS B l s = .ok s2) (U : Nat)
    (hU : U ∈ l) (hX : U ≠ X) (hT : U ≠ T) : (s.heap U).SchedSlot ≠ 0 := by
  induction l generalizing s with
  | nil => cases hU
  | cons V rest ih =>
    obtain ⟨s1, h1, h2⟩ := mergeCPSUs_cons hok
    have hf := mergeCPStep_fields h1
    by_cases hUV : U = V
    · subst hUV
      exact hf.2.2.2.2.2 hX hT
    · have hm : U ∈ rest := by
        rcases List.mem_cons.1 hU with e | e
        · exact absurd e hUV
        · exact e
      rw [← (hf.1 U hUV).2]
      exact ih h2 hm

theorem mergeCPSUs_not_again {k : SUIdxConsts} {X T TS B : Nat} {rest : List Nat}
    {s s1 s2 : MergeLoop} {V : Nat} (h1 : mergeCPStep k X T TS B s V = .ok s1)
    (h2 : mergeCPSUs k X T TS B rest s1 = .ok s2) (hX : V ≠ X) (hT : V ≠ T) : V ∉ rest := by
  intro hm
  exact mergeCPSUs_scheduled h2 V hm hX hT (((mergeCPStep_fields h1).2.2.1 hX).1)

theorem mergeCPSUs_index {k : SUIdxConsts} {X T TS B : Nat} {l : List Nat}
    {s s2 : MergeLoop} (hok : mergeCPSUs k X T TS B l s = .ok s2) (p : Nat)
    (hc : l.count p = 1) (hX : p ≠ X) :
    (s2.heap p).InstIdx =
      wrap16 (wrap32 ((B : Int) + ((s.heap p).InstIdx : Int) - (k.FirstSUIdx : Int))) := by
  induction l generalizing s with
  | nil => simp at hc
  | cons U rest ih =>
    obtain ⟨s1, h1, h2⟩ := mergeCPSUs_cons hok
    have hf := mergeCPStep_fields h1
    by_cases hpU : p = U
    · subst hpU
      have hn : p ∉ rest := by
        rw [List.count_cons_self] at hc
        exact List.count_eq_zero.1 (by omega)
      rw [(mergeCPSUs_frame h2 p (fun e => absurd e hn)).1]
      exact (hf.2.2.1 hX).2
    · rw [List.count_cons_of_ne hpU] at hc
      rw [ih h2 hc, (hf.1 p hpU).1]

theorem mergeCPStep_inv {k : SUIdxConsts} {X T TS B : Nat} {s s1 : MergeLoop} {V : Nat}
    (h1 : mergeCPStep k X T TS B s V = .ok s1)
    (hinv : ∀ W ∈ (s.heap T).Deps.map Prod.fst, (s.heap W).SchedSlot = 0) :
    ∀ W ∈ (s1.heap T).Deps.map Prod.fst, (s1.heap W).SchedSlot = 0 := by
  have hf := mergeCPStep_fields h1
  by_cases hX : V = X
  · have := mergeCPStep_exit hX h1
    subst this
    exact hinv
  by_cases hT : V = T
  · intro W hW
    rw [hf.2.2.2.2.1 (Or.inr hT)] at hW
    by_cases hWV : W = V
    · subst hWV; exact (hf.2.2.1 hX).1
    · rw [(hf.1 W hWV).2]; exact hinv W hW
  · have hslot := hf.2.2.2.2.2 hX hT
    have hnew : V ∉ (s.heap T).Deps.map Prod.fst := fun hm => hslot (hinv V hm)
    intro W hW
    rw [(mergeCPStep_new h1 hX hT hnew).1] at hW
    by_cases hWV : W = V
    · subst hWV; exact (hf.2.2.1 hX).1
    · rw [(hf.1 W hWV).2]
      refine hinv W ?_
      simp only [List.map_append, List.mem_append, List.map_cons, List.map_nil,
        List.mem_singleton, mergedDep] at hW
      rcases hW with hW | hW
      · exact hW
      · exact absurd hW hWV

theorem mergeCPSUs_termDeps {k : SUIdxConsts} {X T TS B : Nat} {l : List Nat}
    {s s2 : MergeLoop} (hok : mergeCPSUs k X T TS B l s = .ok s2)
    (hinv : ∀ W ∈ (s.heap T).Deps.map Prod.fst, (s.heap W).SchedSlot = 0) :
    (s2.heap T).Deps = (s.heap T).Deps ++
      (l.filter (fun U => decide (U ≠ X ∧ U ≠ T))).map (mergedDep s.heap T TS) := by
  induction l generalizing s with
  | nil => simp only [mergeCPSUs] at hok; cases hok; simp
  | cons V rest ih =>
    obtain ⟨s1, h1, h2⟩ := mergeCPSUs_cons hok
    have hf := mergeCPStep_fields h1
    have ih1 := ih h2 (mergeCPStep_inv h1 hinv)
    have hmap : (rest.filter (fun U => decide (U ≠ X ∧ U ≠ T))).map (mergedDep s1.heap T TS) =
        (rest.filter (fun U => decide (U ≠ X ∧ U ≠ T))).map (mergedDep s.heap T TS) := by
      apply List.map_congr_left
      intro U hU
      obtain ⟨hUr, hUc⟩ := List.mem_filter.1 hU
      have hUc2 : U ≠ X ∧ U ≠ T := of_decide_eq_true hUc
      have hUV : U ≠ V := by
        intro e
        subst e
        exact mergeCPSUs_not_again h1 h2 hUc2.1 hUc2.2 hUr
      unfold mergedDep
      rw [(hf.1 U hUV).2, hf.2.1 U, hf.2.1 T]
    rw [hmap] at ih1
    by_cases hXT : V = X ∨ V = T
    · have hfc : (V :: rest).filter (fun U => decide (U ≠ X ∧ U ≠ T)) =
          rest.filter (fun U => decide (U ≠ X ∧ U ≠ T)) := by
        rw [List.filter_cons]
        have : decide (V ≠ X ∧ V ≠ T) = false := by
          apply decide_eq_false
          tauto
        simp [this]
      rw [hfc, ih1, hf.2.2.2.2.1 hXT]
    · have hX : V ≠ X := fun e => hXT (Or.inl e)
      have hT : V ≠ T := fun e => hXT (Or.inr e)
      have hslot := hf.2.2.2.2.2 hX hT
      have hnew : V ∉ (s.heap T).Deps.map Prod.fst := fun hm => hslot (hinv V hm)
      have hfc : (V :: rest).filter (fun U => decide (U ≠ X ∧ U ≠ T)) =
          V :: rest.filter (fun U => decide (U ≠ X ∧ U ≠ T)) := by
        rw [List.filter_cons]
        have : decide (V ≠ X ∧ V ≠ T) = true := decide_eq_true ⟨hX, hT⟩
        simp [this]
      rw [hfc, ih1, (mergeCPStep_new h1 hX hT hnew).1]
      simp

theorem mergeCPSUs_unit_deps {k : SUIdxConsts} {X T TS B : Nat} {l : List Nat}
    {s s2 : MergeLoop} (hok : mergeCPSUs k X T TS B l s = .ok s2)
    (hinv : ∀ W ∈ (s.heap T).Deps.map Prod.fst, (s.heap W).SchedSlot = 0)
    (U : Nat) (hU : U ∈ l) (hX : U ≠ X) (hT : U ≠ T) :
    (s2.heap U).Deps = [] ∧ (s2.heap U).UseList = [T] := by
  induction l generalizing s with
  | nil => cases hU
  | cons V rest ih =>
    obtain ⟨s1, h1, h2⟩ := mergeCPSUs_cons hok
    have hf := mergeCPStep_fields h1
    by_cases hUV : U = V
    · subst hUV
      have hslot := hf.2.2.2.2.2 hX hT
      have hnew : U ∉ (s.heap T).Deps.map Prod.fst := fun hm => hslot (hinv U hm)
      have hn := mergeCPSUs_not_again h1 h2 hX hT
      have hfr := (mergeCPSUs_frame h2 U (fun e => absurd e hn)).2.2 hT
      have hst := mergeCPStep_new h1 hX hT hnew
      exact ⟨by rw [hfr.1, hst.2.1], by rw [hfr.2, hst.2.2]⟩
    · have hm : U ∈ rest := by
        rcases List.mem_cons.1 hU with e | e
        · exact absurd e hUV
        · exact e
      exact ih h2 (mergeCPStep_inv h1 hinv) hm

/-! ## Graph composition: the data-path loop -/

theorem mergeDPSUs_cons {k : SUIdxConsts} {B : Nat} {U : Nat} {rest : List Nat}
    {s s2 : MergeLoop} (hok : mergeDPSUs k B (U :: rest) s = .ok s2) :
    ∃ s1, mergeDPStep k B s U = .ok s1 ∧ mergeDPSUs k B rest s1 = .ok s2 := by
  simp only [mergeDPSUs] at hok
  split at hok
  · cases hok
  · next s1 h1 => exact ⟨s1, h1, hok⟩

theorem mergeDPSUs_lists {k : SUIdxConsts} {B : Nat} {l : List Nat}
    {s s2 : MergeLoop} (hok : mergeDPSUs k B l s = .ok s2) :
    s2.SUs = s.SUs ++ l ∧ s2.NextSUIdx = s.NextSUIdx + l.length := by
  induction l generalizing s with
  | nil => simp only [mergeDPSUs] at hok; cases hok; simp
  | cons U rest ih =>
    obtain ⟨s1, h1, h2⟩ := mergeDPSUs_cons hok
    obtain ⟨hs, hn, _⟩ := mergeDPStep_ok h1
    have := ih h2
    rw [this.1, this.2, hs, hn]
    refine ⟨by simp, by simp only [List.length_cons]; omega⟩

theorem mergeDPSUs_frame {k : SUIdxConsts} {B : Nat} {l : List Nat}
    {s s2 : MergeLoop} (hok : mergeDPSUs k B l s = .ok s2) (p : Nat) :
    (s2.heap p).SchedSlot = (s.heap p).SchedSlot ∧ (s2.heap p).Deps = (s.heap p).Deps ∧
    (s2.heap p).UseList = (s.heap p).UseList ∧ (s2.heap p).ParentBB = (s.heap p).ParentBB ∧
    (p ∉ l → (s2.heap p).InstIdx = (s.heap p).InstIdx) := by
  induction l generalizing s with
  | nil =>
    simp only [mergeDPSUs] at hok; cases hok
    exact ⟨rfl, rfl, rfl, rfl, fun _ => rfl⟩
  | cons U rest ih =>
    obtain ⟨s1, h1, h2⟩ := mergeDPSUs_cons hok
    obtain ⟨_, _, hh⟩ := mergeDPStep_ok h1
    have ih1 := ih h2
    have hst : (s1.heap p).SchedSlot = (s.heap p).SchedSlot ∧
        (s1.heap p).Deps = (s.heap p).Deps ∧
        (s1.heap p).UseList = (s.heap p).UseList ∧
        (s1.heap p).ParentBB = (s.heap p).ParentBB ∧
        (p ≠ U → (s1.heap p).InstIdx = (s.heap p).InstIdx) := by
      rw [hh]
      by_cases hp : p = U
      · subst hp
        simp
      · rw [Heap.set_other _ _ hp]
        exact ⟨rfl, rfl, rfl, rfl, fun _ => rfl⟩
    refine ⟨by rw [ih1.1, hst.1], by rw [ih1.2.1, hst.2.1], by rw [ih1.2.2.1, hst.2.2.1],
      by rw [ih1.2.2.2.1, hst.2.2.2.1], fun hn => ?_⟩
    rw [ih1.2.2.2.2 (fun e => hn (List.mem_cons_of_mem _ e)),
      hst.2.2.2.2 (fun e => hn (e ▸ List.mem_cons_self _ _))]

theorem mergeDPSUs_index {k : SUIdxConsts} {B : Nat} {l : List Nat}
    {s s2 : MergeLoop} (hok : mergeDPSUs k B l s = .ok s2) (p : Nat)
    (hc : l.count p = 1) :
    (s2.heap p).InstIdx =
      wrap16 (wrap32 ((B : Int) + ((s.heap p).InstIdx : Int) - (k.FirstSUIdx : Int))) := by
  induction l generalizing s with
  | nil => simp at hc
  | cons U rest ih =>
    obtain ⟨s1, h1, h2⟩ := mergeDPSUs_cons hok
    obtain ⟨_, _, hh⟩ := mergeDPStep_ok h1
    by_cases hpU : p = U
    · subst hpU
      have hn : p ∉ rest := by
        rw [List.count_cons_self] at hc
        exact List.count_eq_zero.1 (by omega)
      rw [(mergeDPSUs_frame h2 p).2.2.2.2 hn, hh]
      simp
    · rw [List.count_cons_of_ne hpU] at hc
      rw [ih h2 hc, hh, Heap.set_other _ _ hpU]

/-! ## Graph composition: the whole merge -/

theorem VDEdge.addEdge_error {C N : VDEdge} {v : Violation} (h : C.addEdge N = .error v) :
    v ≠ .indexMismatched := by
  unfold VDEdge.addEdge at h
  split_ifs at h <;> cases h <;> decide

theorem addDep_error {h : Heap} {This Src : Nat} {E : VDEdge} {v : Violation}
    (herr : addDep h This Src E = .error v) : v ≠ .indexMismatched := by
  unfold addDep at herr
  split_ifs at herr
  · cases herr; decide
  · split at herr
    · cases herr
    · next b _ =>
      unfold EdgeBundle.addEdge at herr
      split at herr
      · cases herr
      · next v1 hv1 =>
        split at hv1
        · cases hv1
        · next v2 hv2 =>
          cases hv1
          cases herr
          exact VDEdge.addEdge_error hv2

theorem mergeCPStep_error {k : SUIdxConsts} {X T TS B : Nat} {s : MergeLoop} {U : Nat}
    {v : Violation} (herr : mergeCPStep k X T TS B s U = .error v) :
    v ≠ .indexMismatched := by
  unfold mergeCPStep at herr
  by_cases hX : U = X
  · rw [if_pos hX] at herr; cases herr
  rw [if_neg hX] at herr
  unfold updateIdx at herr
  by_cases hidx : wrap16 (wrap32 ((B : Int) + ((s.heap U).InstIdx : Int) -
      (k.FirstSUIdx : Int))) > k.NullSUIdx
  · rw [if_neg (not_not.2 hidx)] at herr
    simp only [resetSchedule, setHasFixedTiming, cleanDepAndUse, Heap.set_set,
      Heap.set_same] at herr
    by_cases hT : U = T
    · rw [if_pos hT] at herr; cases herr
    · rw [if_neg hT] at herr
      by_cases hslot : (s.heap U).SchedSlot = 0
      · rw [if_pos hslot] at herr; cases herr; decide
      · rw [if_neg hslot] at herr
        split at herr
        · next v1 hv1 => cases herr; exact addDep_error hv1
        · cases herr
  · rw [if_pos hidx] at herr; cases herr; decide

theorem mergeCPSUs_error {k : SUIdxConsts} {X T TS B : Nat} {l : List Nat} {s : MergeLoop}
    {v : Violation} (herr : mergeCPSUs k X T TS B l s = .error v) :
    v ≠ .indexMismatched := by
  induction l generalizing s with
  | nil => simp only [mergeCPSUs] at herr; cases herr
  | cons U rest ih =>
    simp only [mergeCPSUs] at herr
    split at herr
    · next v1 hv1 => cases herr; exact mergeCPStep_error hv1
    · exact ih herr

theorem mergeDPSUs_error {k : SUIdxConsts} {B : Nat} {l : List Nat} {s : MergeLoop}
    {v : Violation} (herr : mergeDPSUs k B l s = .error v) :
    v ≠ .indexMismatched := by
  induction l generalizing s with
  | nil => simp only [mergeDPSUs] at herr; cases herr
  | cons U rest ih =>
    simp only [mergeDPSUs] at herr
    split at herr
    · next v1 hv1 =>
      cases herr
      unfold mergeDPStep updateIdx at hv1
      by_cases hidx : wrap16 (wrap32 ((B : Int) + ((s.heap U).InstIdx : Int) -
          (k.FirstSUIdx : Int))) > k.NullSUIdx
      · rw [if_neg (not_not.2 hidx)] at hv1; cases hv1
      · rw [if_pos hidx] at hv1; cases hv1; decide
    · exact ih herr

/-- The merge once its entry check, the terminator lookup and both loops have passed. -/
theorem mergeSUsInSubGraph_run {k : SUIdxConsts} {h : Heap} {G SubGraph : VSchedGraph}
    {T : Nat} {s1 s2 : MergeLoop}
    (hentry : G.num_sus = wrap32 ((G.NextSUIdx : Int) - (k.FirstSUIdx : Int)))
    (hT : SubGraph.lookUpTerminator SubGraph.EntryBB = some T)
    (hcp : mergeCPSUs k SubGraph.Exit T (h T).SchedSlot G.NextSUIdx SubGraph.CPSUs
      ⟨cleanDepAndUse h T, G.CPSUs, G.NextSUIdx⟩ = .ok s1)
    (hdp : mergeDPSUs k G.NextSUIdx SubGraph.DPSUs ⟨s1.heap, G.DPSUs, s1.NextSUIdx⟩ = .ok s2) :
    mergeSUsInSubGraph k h G SubGraph =
      if s2.NextSUIdx = (s2.heap T).InstIdx + 1 then
        .ok ⟨s2.heap,
          { G with
            InstToSUnits := mapInsertAll G.InstToSUnits
              (mapErase (h SubGraph.Exit).RepresentativePtr SubGraph.InstToSUnits),
            CPSUs := s1.SUs, DPSUs := s2.SUs, NextSUIdx := s2.NextSUIdx,
            IIMap := mapInsertAll G.IIMap SubGraph.IIMap,
            Terminators := mapInsertAll G.Terminators SubGraph.Terminators },
          { SubGraph with
            InstToSUnits := mapErase (h SubGraph.Exit).RepresentativePtr SubGraph.InstToSUnits,
            CPSUs := [G.Exit], DPSUs := [] },
          G.num_cps + 1⟩
      else .error .indexMismatched := by
  have hslot : (cleanDepAndUse h T T).SchedSlot = (h T).SchedSlot := by
    simp [cleanDepAndUse]
  unfold mergeSUsInSubGraph
  simp only [hentry.symm ▸ hentry, hT, hslot, hcp, hdp, not_true_eq_false, if_false]
  split_ifs <;> rfl

/-- The stages of a merge that either succeeds or fails only at its final index check. -/
theorem mergeSUsInSubGraph_stages {k : SUIdxConsts} {h : Heap} {G SubGraph : VSchedGraph}
    (hpre : ∀ v, mergeSUsInSubGraph k h G SubGraph = .error v → v = .indexMismatched) :
    G.num_sus = wrap32 ((G.NextSUIdx : Int) - (k.FirstSUIdx : Int)) ∧
    ∃ T s1 s2, SubGraph.lookUpTerminator SubGraph.EntryBB = some T ∧
      mergeCPSUs k SubGraph.Exit T (h T).SchedSlot G.NextSUIdx SubGraph.CPSUs
        ⟨cleanDepAndUse h T, G.CPSUs, G.NextSUIdx⟩ = .ok s1 ∧
      mergeDPSUs k G.NextSUIdx SubGraph.DPSUs ⟨s1.heap, G.DPSUs, s1.NextSUIdx⟩ = .ok s2 := by
  by_cases hentry : G.num_sus = wrap32 ((G.NextSUIdx : Int) - (k.FirstSUIdx : Int))
  swap
  · have := hpre .indexMismatchedOnEntry (by simp [mergeSUsInSubGraph, hentry])
    cases this
  refine ⟨hentry, ?_⟩
  cases hT : SubGraph.lookUpTerminator SubGraph.EntryBB with
  | none =>
    have := hpre .terminatorNotFound (by simp [mergeSUsInSubGraph, hentry, hT])
    cases this
  | some T =>
    have hslot : (cleanDepAndUse h T T).SchedSlot = (h T).SchedSlot := by
      simp [cleanDepAndUse]
    cases hcp : mergeCPSUs k SubGraph.Exit T (h T).SchedSlot G.NextSUIdx SubGraph.CPSUs
        ⟨cleanDepAndUse h T, G.CPSUs, G.NextSUIdx⟩ with
    | error v =>
      have := hpre v (by simp [mergeSUsInSubGraph, hentry, hT, hslot, hcp])
      exact absurd this (mergeCPSUs_error hcp)
    | ok s1 =>
      cases hdp : mergeDPSUs k G.NextSUIdx SubGraph.DPSUs
          ⟨s1.heap, G.DPSUs, s1.NextSUIdx⟩ with
      | error v =>
        have := hpre v (by simp [mergeSUsInSubGraph, hentry, hT, hslot, hcp, hdp])
        exact absurd this (mergeDPSUs_error hdp)
      | ok s2 => exact ⟨T, s1, s2, rfl, hcp, hdp⟩

/-- The stages and the outcome of a successful merge. -/
theorem mergeSUsInSubGraph_ok {k : SUIdxConsts} {h : Heap} {G SubGraph : VSchedGraph}
    {m : Merged} (hok : mergeSUsInSubGraph k h G SubGraph = .ok m) :
    ∃ T s1 s2, SubGraph.lookUpTerminator SubGraph.EntryBB = some T ∧
      mergeCPSUs k SubGraph.Exit T (h T).SchedSlot G.NextSUIdx SubGraph.CPSUs
        ⟨cleanDepAndUse h T, G.CPSUs, G.NextSUIdx⟩ = .ok s1 ∧
      mergeDPSUs k G.NextSUIdx SubGraph.DPSUs ⟨s1.heap, G.DPSUs, s1.NextSUIdx⟩ = .ok s2 ∧
      s2.NextSUIdx = (s2.heap T).InstIdx + 1 ∧
      m.heap = s2.heap ∧ m.G.CPSUs = s1.SUs ∧ m.G.DPSUs = s2.SUs ∧
      m.G.NextSUIdx = s2.NextSUIdx := by
  obtain ⟨hentry, T, s1, s2, hT, hcp, hdp⟩ :=
    @mergeSUsInSubGraph_stages k h G SubGraph
      (fun v hv => by rw [hok] at hv; cases hv)
  rw [mergeSUsInSubGraph_run hentry hT hcp hdp] at hok
  by_cases hfin : s2.NextSUIdx = (s2.heap T).InstIdx + 1
  · rw [if_pos hfin] at hok
    have hm := Except.ok.inj hok
    subst hm
    exact ⟨T, s1, s2, hT, hcp, hdp, hfin, rfl, rfl, rfl, rfl⟩
  · rw [if_neg hfin] at hok; cases hok

theorem filter_ne_length (X : Nat) (l : List Nat) :
    (l.filter (fun U => decide (U ≠ X))).length + l.count X = l.length := by
  induction l with
  | nil => rfl
  | cons a r ih =>
    by_cases ha : a = X
    · subst ha
      have hd : decide (a ≠ a) = false := decide_eq_false (fun hc => hc rfl)
      rw [List.filter_cons, hd, List.count_cons_self]
      simp only [Bool.false_eq_true, if_false, List.length_cons]
      omega
    · have hXa : X ≠ a := fun e => ha e.symm
      have hd : decide (a ≠ X) = true := decide_eq_true ha
      rw [List.filter_cons, hd, List.count_cons_of_ne hXa]
      simp only [if_true, List.length_cons]
      omega

theorem filter_ne2_length {X T : Nat} (hXT : X ≠ T) (l : List Nat) :
    (l.filter (fun U => decide (U ≠ X ∧ U ≠ T))).length + l.count X + l.count T =
      l.length := by
  induction l with
  | nil => rfl
  | cons a r ih =>
    by_cases haX : a = X
    · subst haX
      have hd : decide (a ≠ a ∧ a ≠ T) = false := decide_eq_false (fun hc => hc.1 rfl)
      have hTa : T ≠ a := fun e => hXT e.symm
      rw [List.filter_cons, hd, List.count_cons_self, List.count_cons_of_ne hTa]
      simp only [Bool.false_eq_true, if_false, List.length_cons]
      omega
    · have hXa : X ≠ a := fun e => haX e.symm
      by_cases haT : a = T
      · subst haT
        have hd : decide (a ≠ X ∧ a ≠ a) = false := decide_eq_false (fun hc => hc.2 rfl)
        rw [List.filter_cons, hd, List.count_cons_self, List.count_cons_of_ne hXa]
        simp only [Bool.false_eq_true, if_false, List.length_cons]
        omega
      · have hTa : T ≠ a := fun e => haT e.symm
        have hd : decide (a ≠ X ∧ a ≠ T) = true := decide_eq_true ⟨haX, haT⟩
        rw [List.filter_cons, hd, List.count_cons_of_ne hXa, List.count_cons_of_ne hTa]
        simp only [if_true, List.length_cons]
        omega

theorem map_filter_key {β : Type} (f : Nat → Nat × β) (hf : ∀ V, (f V).1 = V)
    (L : List Nat) (hnd : L.Nodup) (U : Nat) (hU : U ∈ L) :
    (L.map f).filter (fun e => decide (e.1 = U)) = [f U] := by
  induction L with
  | nil => cases hU
  | cons a r ih =>
    have hnd2 := List.nodup_cons.1 hnd
    by_cases haU : a = U
    · subst haU
      have hd : decide ((f a).1 = a) = true := decide_eq_true (hf a)
      rw [List.map_cons, List.filter_cons, hd]
      simp only [if_true, List.cons.injEq, true_and]
      rw [List.filter_eq_nil_iff]
      intro e he
      obtain ⟨V, hV, rfl⟩ := List.mem_map.1 he
      rw [hf V]
      have : V ≠ a := fun e => hnd2.1 (e ▸ hV)
      simpa using this
    · have hd : decide ((f a).1 = U) = false := decide_eq_false (by rw [hf a]; exact haU)
      rw [List.map_cons, List.filter_cons, hd]
      simp only [Bool.false_eq_true, if_false]
      refine ih hnd2.2 ?_
      rcases List.mem_cons.1 hU with e | e
      · exact absurd e.symm haU
      · exact e

theorem mergeCPSUs_nodup {k : SUIdxConsts} {X T TS B : Nat} {l : List Nat}
    {s s2 : MergeLoop} (hok : mergeCPSUs k X T TS B l s = .ok s2) :
    (l.filter (fun U => decide (U ≠ X ∧ U ≠ T))).Nodup := by
  induction l generalizing s with
  | nil => simp
  | cons V rest ih =>
    obtain ⟨s1, h1, h2⟩ := mergeCPSUs_cons hok
    rw [List.filter_cons]
    split_ifs with hd
    · have hV : V ≠ X ∧ V ≠ T := of_decide_eq_true hd
      refine List.nodup_cons.2 ⟨fun hm => ?_, ih h2⟩
      exact mergeCPSUs_not_again h1 h2 hV.1 hV.2 (List.mem_filter.1 hm).1
    · exact ih h2

theorem sum_map_single (g : Nat → Nat) (T : Nat) (L : List Nat)
    (hz : ∀ p ∈ L, p ≠ T → g p = 0) : (L.map g).sum = L.count T * g T := by
  induction L with
  | nil => simp
  | cons a r ih =>
    have ih1 := ih (fun p hp => hz p (List.mem_cons_of_mem _ hp))
    by_cases ha : a = T
    · subst ha
      rw [List.map_cons, List.sum_cons, ih1, List.count_cons_self]
      ring
    · have hTa : T ≠ a := fun e => ha e.symm
      rw [List.map_cons, List.sum_cons, ih1, List.count_cons_of_ne hTa,
        hz a (List.mem_cons_self _ _) ha]
      omega

theorem wrap32_sub {a b : Nat} (hb : b ≤ a) (ha : a < 4294967296) :
    wrap32 ((a : Int) - (b : Int)) = a - b := by
  unfold wrap32
  omega

theorem cleanDepAndUse_inv (h : Heap) (T : Nat) :
    ∀ W ∈ ((cleanDepAndUse h T) T).Deps.map Prod.fst, ((cleanDepAndUse h T) W).SchedSlot = 0 := by
  intro W hW
  simp [cleanDepAndUse] at hW

theorem cleanDepAndUse_other (h : Heap) {T p : Nat} (hp : p ≠ T) :
    (cleanDepAndUse h T) p = h p := by
  simp [cleanDepAndUse, Heap.set_other _ _ hp]

theorem cleanDepAndUse_slot (h : Heap) (T p : Nat) :
    ((cleanDepAndUse h T) p).SchedSlot = (h p).SchedSlot ∧
    ((cleanDepAndUse h T) p).InstIdx = (h p).InstIdx ∧
    ((cleanDepAndUse h T) p).ParentBB = (h p).ParentBB := by
  by_cases hp : p = T
  · subst hp; simp [cleanDepAndUse]
  · rw [cleanDepAndUse_other h hp]; exact ⟨rfl, rfl, rfl⟩

/-- C7 (counterexample): in the example the operation 11 (slot 2) is a control-path unit of
the subgraph other than the terminator 12 (slot 4) and the exit root 13, yet after the merge
its dependency map holds no edge whose source is the terminator. -/
theorem merge_no_edge_from_terminator :
    ¬ (∀ (k : SUIdxConsts) (h : Heap) (G SubGraph : VSchedGraph) (T : Nat) (m : Merged),
        SubGraph.lookUpTerminator SubGraph.EntryBB = some T →
        mergeSUsInSubGraph k h G SubGraph = .ok m →
        ∀ U ∈ SubGraph.CPSUs, U ≠ SubGraph.Exit → U ≠ T →
          (h U).SchedSlot ≤ (h T).SchedSlot →
          ∃ b, mapFind T (m.heap U).Deps = some b ∧
            b.Edge = ⟨.FixedTiming, (h T).SchedSlot - (h U).SchedSlot, 0⟩) := by
  intro hall
  obtain ⟨b, hb, _⟩ := hall exConsts exHeap exG exSub 12 exMerged rfl rfl 11
    (by decide) (by decide) (by decide) (by decide)
  have hnone : mapFind 12 (exMerged.heap 11).Deps = none := by decide
  rw [hnone] at hb
  cases hb

/-- C7 (amended): after a successful mergeSUsInSubGraph, for every control-path unit U of the
subgraph other than the terminator and the virtual exit root (scheduled at a slot <= the slot
of the terminator), the dependency map of U is empty, its use set holds the terminator only,
and the dependency map of the terminator holds exactly one entry for U: a FixedTiming edge
whose source is U and whose destination is the terminator, with
latency = terminatorSlot - unitSlot; an unscheduled such unit (slot 0) makes the merge fail. -/
theorem mergeSUsInSubGraph_fixed_timing_edges (k : SUIdxConsts) (h : Heap)
    (G SubGraph : VSchedGraph) (T : Nat)
    (hT : SubGraph.lookUpTerminator SubGraph.EntryBB = some T) :
    (∀ m, mergeSUsInSubGraph k h G SubGraph = .ok m →
      ∀ U ∈ SubGraph.CPSUs, U ≠ SubGraph.Exit → U ≠ T →
        (h U).SchedSlot ≤ (h T).SchedSlot → (h T).SchedSlot < 4294967296 →
        (m.heap U).Deps = [] ∧ (m.heap U).UseList = [T] ∧
        (m.heap T).Deps.filter (fun e => decide (e.1 = U)) =
          [(U, ⟨⟨.FixedTiming, (h T).SchedSlot - (h U).SchedSlot, 0⟩,
            decide ((h U).ParentBB ≠ (h T).ParentBB)⟩)]) ∧
    ((∃ U ∈ SubGraph.CPSUs, U ≠ SubGraph.Exit ∧ U ≠ T ∧ (h U).SchedSlot = 0) →
      ∃ v, mergeSUsInSubGraph k h G SubGraph = .error v) := by
  constructor
  · intro m hok U hU hX hUT hle hlt
    obtain ⟨T1, s1, s2, hT1, hcp, hdp, _, hheap, _, _, _⟩ := mergeSUsInSubGraph_ok hok
    rw [hT] at hT1
    cases hT1
    have hinv := cleanDepAndUse_inv h T
    have hud := mergeCPSUs_unit_deps hcp hinv U hU hX hUT
    have htd := mergeCPSUs_termDeps hcp hinv
    have hfU := mergeDPSUs_frame hdp U
    have hfT := mergeDPSUs_frame hdp T
    simp only at hfU hfT hud htd
    rw [hheap]
    refine ⟨by rw [hfU.2.1, hud.1], by rw [hfU.2.2.1, hud.2], ?_⟩
    rw [hfT.2.1, htd]
    have hnil : ((cleanDepAndUse h T) T).Deps = [] := by simp [cleanDepAndUse]
    rw [hnil, List.nil_append]
    have hmem : U ∈ SubGraph.CPSUs.filter (fun U => decide (U ≠ SubGraph.Exit ∧ U ≠ T)) :=
      List.mem_filter.2 ⟨hU, decide_eq_true ⟨hX, hUT⟩⟩
    rw [map_filter_key _ (fun V => rfl) _ (mergeCPSUs_nodup hcp) U hmem]
    unfold mergedDep VDEdge.CreateFixTimingConstraint
    rw [cleanDepAndUse_other h hUT, (cleanDepAndUse_slot h T T).2.2, wrap32_sub hle hlt]
  · rintro ⟨U, hU, hX, hUT, hzero⟩
    cases hres : mergeSUsInSubGraph k h G SubGraph with
    | error v => exact ⟨v, rfl⟩
    | ok m =>
      exfalso
      obtain ⟨T1, s1, s2, hT1, hcp, _⟩ := mergeSUsInSubGraph_ok hres
      rw [hT] at hT1
      cases hT1
      have := mergeCPSUs_scheduled hcp U hU hX hUT
      simp only [cleanDepAndUse_other h hUT] at this
      exact this hzero

/-- C7 (amended, witness): in the example the operation 11 (slot 2) gets the edge of latency
2 into the terminator 12 (slot 4); with 11 unscheduled the merge fails. -/
theorem mergeSUsInSubGraph_fixed_timing_edges_witness :
    ((exMerged.heap 11).Deps = [] ∧ (exMerged.heap 11).UseList = [12] ∧
      (exMerged.heap 12).Deps.filter (fun e => decide (e.1 = 11)) =
        [(11, ⟨⟨.FixedTiming, (exHeap 12).SchedSlot - (exHeap 11).SchedSlot, 0⟩,
          decide ((exHeap 11).ParentBB ≠ (exHeap 12).ParentBB)⟩)]) ∧
    ∃ v, mergeSUsInSubGraph exConsts exHeapUnscheduled exG exSub = .error v :=
  ⟨(mergeSUsInSubGraph_fixed_timing_edges exConsts exHeap exG exSub 12 rfl).1 exMerged rfl 11
      (by decide) (by decide) (by decide) (by decide) (by decide),
    (mergeSUsInSubGraph_fixed_timing_edges exConsts exHeapUnscheduled exG exSub 12 rfl).2
      ⟨11, by decide, by decide, by decide, by decide⟩⟩

/-- C8 (counterexample): in the example the data-path unit 14 is moved into the enclosing
graph and keeps its slot 3. -/
theorem merge_keeps_datapath_slot :
    ¬ (∀ (k : SUIdxConsts) (h : Heap) (G SubGraph : VSchedGraph) (m : Merged),
        mergeSUsInSubGraph k h G SubGraph = .ok m →
        ∀ U ∈ migrated SubGraph, (m.heap U).SchedSlot = 0) := by
  intro hall
  have h0 := hall exConsts exHeap exG exSub exMerged rfl 14 (by decide)
  have h3 : (exMerged.heap 14).SchedSlot = 3 := by decide
  omega

/-- C8 (amended): after a successful mergeSUsInSubGraph every control-path unit moved from
the subgraph into the enclosing graph has its slot reset to unscheduled, and every unit that
is not such a control-path unit, in particular every data-path unit moved by the merge,
keeps the slot it had before. -/
theorem mergeSUsInSubGraph_unschedules_control_path (k : SUIdxConsts) (h : Heap)
    (G SubGraph : VSchedGraph) (m : Merged)
    (hok : mergeSUsInSubGraph k h G SubGraph = .ok m) :
    (∀ U ∈ SubGraph.CPSUs, U ≠ SubGraph.Exit → (m.heap U).SchedSlot = 0) ∧
    (∀ p, (p ∈ SubGraph.CPSUs → p = SubGraph.Exit) →
      (m.heap p).SchedSlot = (h p).SchedSlot) := by
  obtain ⟨T, s1, s2, hT, hcp, hdp, _, hheap, _, _, _⟩ := mergeSUsInSubGraph_ok hok
  rw [hheap]
  constructor
  · intro U hU hX
    rw [(mergeDPSUs_frame hdp U).1]
    exact mergeCPSUs_slot_zero hcp U hU hX
  · intro p hp
    rw [(mergeDPSUs_frame hdp p).1, (mergeCPSUs_frame hcp p hp).2.1]
    exact (cleanDepAndUse_slot h T p).1

/-- C8 (amended, witness): in the example the control-path units 10, 11, 12 are unscheduled
by the merge and the data-path unit 14 keeps its slot. -/
theorem mergeSUsInSubGraph_unschedules_control_path_witness :
    (∀ U ∈ exSub.CPSUs, U ≠ exSub.Exit → (exMerged.heap U).SchedSlot = 0) ∧
    (∀ p, (p ∈ exSub.CPSUs → p = exSub.Exit) →
      (exMerged.heap p).SchedSlot = (exHeap p).SchedSlot) :=
  mergeSUsInSubGraph_unschedules_control_path exConsts exHeap exG exSub exMerged rfl

/-- The index of a unit that occurs exactly once among the migrated units, after both
loops. -/
theorem merge_loops_index {k : SUIdxConsts} {h0 : Heap} {X T TS B : Nat}
    {CP DP L0 L1 : List Nat} {n0 : Nat} {s1 s2 : MergeLoop}
    (hcp : mergeCPSUs k X T TS B CP ⟨h0, L0, n0⟩ = .ok s1)
    (hdp : mergeDPSUs k B DP ⟨s1.heap, L1, s1.NextSUIdx⟩ = .ok s2) (p : Nat)
    (hc : (CP.filter (fun U => decide (U ≠ X)) ++ DP).count p = 1) :
    (s2.heap p).InstIdx =
      wrap16 (wrap32 ((B : Int) + ((h0 p).InstIdx : Int) - (k.FirstSUIdx : Int))) := by
  rw [List.count_append] at hc
  by_cases hX : p = X
  · have hz : (CP.filter (fun U => decide (U ≠ X))).count p = 0 := by
      apply List.count_eq_zero.2
      intro hm
      exact (of_decide_eq_true (List.mem_filter.1 hm).2) hX
    have hfr := mergeCPSUs_frame hcp p (fun _ => hX)
    simp only at hfr
    rw [mergeDPSUs_index hdp p (by omega)]
    simp only
    rw [hfr.1]
  · have hcf : (CP.filter (fun U => decide (U ≠ X))).count p = CP.count p :=
      List.count_filter (decide_eq_true hX)
    rw [hcf] at hc
    by_cases hcp1 : CP.count p = 1
    · have hn : p ∉ DP := List.count_eq_zero.1 (by omega)
      rw [(mergeDPSUs_frame hdp p).2.2.2.2 hn]
      exact mergeCPSUs_index hcp p hcp1 hX
    · have hn : p ∉ CP := List.count_eq_zero.1 (by omega)
      have hfr := mergeCPSUs_frame hcp p (fun e => absurd e hn)
      simp only at hfr
      rw [mergeDPSUs_index hdp p (by omega)]
      simp only
      rw [hfr.1]

/-- C9: when the terminator T of the subgraph occurs exactly once among the migrated units
and all indices fit an unsigned short, a mergeSUsInSubGraph that passed its earlier checks
(any failure is the final index mismatch) succeeds if and only if the old index of the
terminator minus FirstSUIdx plus one equals the number of migrated units; on success the
index counter of the enclosing graph equals the new index of the terminator plus one and
has grown by exactly the number of migrated units. -/
theorem mergeSUsInSubGraph_index_postcondition (k : SUIdxConsts) (h : Heap)
    (G SubGraph : VSchedGraph) (T : Nat)
    (hT : SubGraph.lookUpTerminator SubGraph.EntryBB = some T)
    (hcount : (migrated SubGraph).count T = 1)
    (hfirst : k.FirstSUIdx ≤ G.NextSUIdx)
    (hfit : G.NextSUIdx + (migrated SubGraph).length ≤ 65536)
    (hidx : (h T).InstIdx < 65536)
    (hpre : ∀ v, mergeSUsInSubGraph k h G SubGraph = .error v → v = .indexMismatched) :
    ((∃ m, mergeSUsInSubGraph k h G SubGraph = .ok m) ↔
      ((h T).InstIdx : Int) - (k.FirstSUIdx : Int) + 1 = ((migrated SubGraph).length : Int)) ∧
    (∀ m, mergeSUsInSubGraph k h G SubGraph = .ok m →
      m.G.NextSUIdx = (m.heap T).InstIdx + 1 ∧
      m.G.NextSUIdx = G.NextSUIdx + (migrated SubGraph).length) := by
  obtain ⟨hentry, T1, s1, s2, hT1, hcp, hdp⟩ := mergeSUsInSubGraph_stages hpre
  rw [hT] at hT1
  cases hT1
  have hrun := mergeSUsInSubGraph_run hentry hT hcp hdp
  have hidxT := merge_loops_index hcp hdp T hcount
  rw [(cleanDepAndUse_slot h T T).2.1] at hidxT
  have hn1 := (mergeCPSUs_lists hcp).2
  have hn2 := (mergeDPSUs_lists hdp).2
  simp only at hn1 hn2
  have hlen : (migrated SubGraph).length =
      (SubGraph.CPSUs.filter (fun U => decide (U ≠ SubGraph.Exit))).length +
        SubGraph.DPSUs.length := by
    simp [migrated]
  have hnext : s2.NextSUIdx = G.NextSUIdx + (migrated SubGraph).length := by
    rw [hn2, hn1, hlen]; omega
  have hpos : 1 ≤ (migrated SubGraph).length := by
    have := List.count_le_length T (migrated SubGraph)
    omega
  have hiff : s2.NextSUIdx = (s2.heap T).InstIdx + 1 ↔
      ((h T).InstIdx : Int) - (k.FirstSUIdx : Int) + 1 =
        ((migrated SubGraph).length : Int) := by
    rw [hidxT, hnext]
    unfold wrap16 wrap32
    omega
  constructor
  · rw [hrun]
    constructor
    · rintro ⟨m, hm⟩
      by_cases hfin : s2.NextSUIdx = (s2.heap T).InstIdx + 1
      · exact hiff.1 hfin
      · rw [if_neg hfin] at hm; cases hm
    · intro hc
      rw [if_pos (hiff.2 hc)]
      exact ⟨_, rfl⟩
  · intro m hm
    obtain ⟨T2, t1, t2, hT2, hcp2, hdp2, hfin, hheap, _, _, hnx⟩ := mergeSUsInSubGraph_ok hm
    rw [hT] at hT2
    cases hT2
    rw [hcp] at hcp2
    cases hcp2
    rw [hdp] at hdp2
    cases hdp2
    rw [hnx, hheap]
    exact ⟨hfin, hnext⟩

/-- C9 (witness): in the example the terminator 12 has old index 4, FirstSUIdx is 1 and four
units are migrated; the counter grows from 3 to 7 and the terminator gets index 6. -/
theorem mergeSUsInSubGraph_index_postcondition_witness :
    ((∃ m, mergeSUsInSubGraph exConsts exHeap exG exSub = .ok m) ↔
      ((exHeap 12).InstIdx : Int) - (exConsts.FirstSUIdx : Int) + 1 =
        ((migrated exSub).length : Int)) ∧
    (∀ m, mergeSUsInSubGraph exConsts exHeap exG exSub = .ok m →
      m.G.NextSUIdx = (m.heap 12).InstIdx + 1 ∧
      m.G.NextSUIdx = exG.NextSUIdx + (migrated exSub).length) :=
  mergeSUsInSubGraph_index_postcondition exConsts exHeap exG exSub 12 rfl (by decide)
    (by decide) (by decide) (by decide)
    (fun v hv => by
      rw [show mergeSUsInSubGraph exConsts exHeap exG exSub = .ok exMerged from rfl] at hv
      cases hv)

/-- C10 (counterexample): the subgraph of the example has 5 units (4 on the control path,
the virtual exit root included), all scheduled; the merge succeeds and creates 2
fixed-timing edges, neither 5 - 1 nor 4 - 1. -/
theorem merge_fixed_timing_count :
    mergeSUsInSubGraph exConsts exHeap exG exSub = .ok exMerged ∧
    (∀ U ∈ exSub.CPSUs ++ exSub.DPSUs, (exHeap U).SchedSlot ≠ 0) ∧
    exSub.num_sus = 5 ∧ exSub.num_cps = 4 ∧
    countFixedTiming exMerged.heap (migrated exSub) = 2 ∧
    countFixedTiming exMerged.heap (exG.CPSUs ++ exG.DPSUs ++ migrated exSub) = 2 :=
  ⟨rfl, by decide, by decide, by decide, by decide, by decide⟩

/-- C10 (amended): for a subgraph whose control-path list holds its virtual exit root and its
terminator exactly once each, a successful mergeSUsInSubGraph creates exactly one
fixed-timing edge for each control-path unit other than the exit root and the terminator
(number of control-path units minus two, all of them into the terminator), and the unit count
of the enclosing graph (control-path plus data-path list lengths) increases by exactly N - 1,
where N is the number of units of the subgraph, its virtual exit root included. -/
theorem mergeSUsInSubGraph_counts (k : SUIdxConsts) (h : Heap) (G SubGraph : VSchedGraph)
    (T : Nat) (m : Merged)
    (hT : SubGraph.lookUpTerminator SubGraph.EntryBB = some T)
    (hok : mergeSUsInSubGraph k h G SubGraph = .ok m)
    (hX1 : SubGraph.CPSUs.count SubGraph.Exit = 1)
    (hT1 : SubGraph.CPSUs.count T = 1) (hTX : T ≠ SubGraph.Exit) :
    countFixedTiming m.heap (SubGraph.CPSUs.filter (fun U => decide (U ≠ SubGraph.Exit))) =
      SubGraph.CPSUs.length - 2 ∧
    (fixedTimingDeps m.heap T).length = SubGraph.CPSUs.length - 2 ∧
    m.G.num_sus = G.num_sus + (SubGraph.num_sus - 1) := by
  obtain ⟨T2, s1, s2, hT2, hcp, hdp, _, hheap, hcps, hdps, _⟩ := mergeSUsInSubGraph_ok hok
  rw [hT] at hT2
  cases hT2
  have hinv := cleanDepAndUse_inv h T
  have htd := mergeCPSUs_termDeps hcp hinv
  have hnil : ((cleanDepAndUse h T) T).Deps = [] := by simp [cleanDepAndUse]
  simp only at htd
  rw [hnil, List.nil_append] at htd
  have hXT : SubGraph.Exit ≠ T := fun e => hTX e.symm
  have hlen2 := filter_ne2_length hXT SubGraph.CPSUs
  have hlen1 := filter_ne_length SubGraph.Exit SubGraph.CPSUs
  have hft : (fixedTimingDeps m.heap T).length = SubGraph.CPSUs.length - 2 := by
    unfold fixedTimingDeps
    rw [hheap, (mergeDPSUs_frame hdp T).2.1]
    simp only
    rw [htd, List.filter_eq_self.2, List.length_map]
    · omega
    · intro e he
      obtain ⟨V, _, rfl⟩ := List.mem_map.1 he
      simp [mergedDep, VDEdge.CreateFixTimingConstraint]
  refine ⟨?_, hft, ?_⟩
  · unfold countFixedTiming
    rw [sum_map_single (fun p => (fixedTimingDeps m.heap p).length) T]
    · have hcf : (SubGraph.CPSUs.filter (fun U => decide (U ≠ SubGraph.Exit))).count T =
          SubGraph.CPSUs.count T := List.count_filter (decide_eq_true hTX)
      rw [hcf, hT1, hft]
      omega
    · intro p hp hpT
      obtain ⟨hpm, hpd⟩ := List.mem_filter.1 hp
      have hpX : p ≠ SubGraph.Exit := of_decide_eq_true hpd
      have hud := mergeCPSUs_unit_deps hcp hinv p hpm hpX hpT
      simp only [fixedTimingDeps]
      rw [hheap, (mergeDPSUs_frame hdp p).2.1]
      simp only
      rw [hud.1]
      rfl
  · have hl1 := (mergeCPSUs_lists hcp).1
    have hl2 := (mergeDPSUs_lists hdp).1
    simp only at hl1 hl2
    unfold VSchedGraph.num_sus
    rw [hcps, hdps, hl1, hl2, List.length_append, List.length_append]
    omega

/-- C10 (amended, witness): in the example 2 = 4 - 2 edges are created and the enclosing
graph grows from 2 to 6 = 2 + (5 - 1) units. -/
theorem mergeSUsInSubGraph_counts_witness :
    countFixedTiming exMerged.heap (exSub.CPSUs.filter (fun U => decide (U ≠ exSub.Exit))) =
      exSub.CPSUs.length - 2 ∧
    (fixedTimingDeps exMerged.heap 12).length = exSub.CPSUs.length - 2 ∧
    exMerged.G.num_sus = exG.num_sus + (exSub.num_sus - 1) :=
  mergeSUsInSubGraph_counts exConsts exHeap exG exSub 12 exMerged rfl rfl
    (by decide) (by decide) (by decide)

/-! ## Graph composition: the tables -/

theorem mapFind_append {β : Type} (k : Nat) (m n : List (Nat × β)) :
    mapFind k (m ++ n) = (mapFind k m).or (mapFind k n) := by
  induction m with
  | nil => simp [mapFind]
  | cons a r ih =>
    obtain ⟨a1, a2⟩ := a
    simp only [List.cons_append, mapFind]
    split_ifs
    · rfl
    · exact ih

theorem mapFind_mapInsert {β : Type} (k : Nat) (m : List (Nat × β)) (kv : Nat × β) :
    mapFind k (mapInsert m kv) = (mapFind k m).or (mapFind k [kv]) := by
  unfold mapInsert
  split
  · exact mapFind_append k m [kv]
  · next v hv =>
    obtain ⟨a, b⟩ := kv
    simp only [mapFind]
    split_ifs with hak
    · subst hak
      simp only at hv
      rw [hv]; rfl
    · cases mapFind k m <;> rfl

theorem mapFind_mapInsertAll {β : Type} (k : Nat) (m src : List (Nat × β)) :
    mapFind k (mapInsertAll m src) = (mapFind k m).or (mapFind k src) := by
  unfold mapInsertAll
  induction src generalizing m with
  | nil =>
    rw [List.foldl_nil]
    cases hm : mapFind k m <;> rfl
  | cons a r ih =>
    rw [List.foldl_cons, ih, mapFind_mapInsert]
    obtain ⟨a1, a2⟩ := a
    simp only [mapFind]
    cases mapFind k m with
    | some v => rfl
    | none =>
      split_ifs <;> rfl

/-- The tables of the enclosing graph after a successful merge. -/
theorem mergeSUsInSubGraph_ok_tables {k : SUIdxConsts} {h : Heap} {G SubGraph : VSchedGraph}
    {m : Merged} (hok : mergeSUsInSubGraph k h G SubGraph = .ok m) :
    m.G.IIMap = mapInsertAll G.IIMap SubGraph.IIMap ∧
    m.G.Terminators = mapInsertAll G.Terminators SubGraph.Terminators := by
  obtain ⟨hentry, T, s1, s2, hT, hcp, hdp⟩ :=
    @mergeSUsInSubGraph_stages k h G SubGraph
      (fun v hv => by rw [hok] at hv; cases hv)
  rw [mergeSUsInSubGraph_run hentry hT hcp hdp] at hok
  by_cases hfin : s2.NextSUIdx = (s2.heap T).InstIdx + 1
  · rw [if_pos hfin] at hok
    have hm := Except.ok.inj hok
    subst hm
    exact ⟨rfl, rfl⟩
  · rw [if_neg hfin] at hok; cases hok

/-- C11 (counterexample): in the example with tables the subgraph records the initiation
interval 3 for block 1, the enclosing graph already records 5 for it, and after the merge
the enclosing graph still maps block 1 to 5. -/
theorem merge_keeps_recorded_interval :
    ¬ (∀ (k : SUIdxConsts) (h : Heap) (G SubGraph : VSchedGraph) (m : Merged),
        mergeSUsInSubGraph k h G SubGraph = .ok m →
        ∀ b v, mapFind b SubGraph.IIMap = some v → mapFind b m.G.IIMap = some v) := by
  intro hall
  have h3 := hall exConsts exHeap exGTables exSubTables exMergedTables rfl 1 3 (by decide)
  have h5 : mapFind 1 exMergedTables.G.IIMap = some 5 := by decide
  rw [h5] at h3
  cases h3

/-- C11 (amended): after a successful mergeSUsInSubGraph, for every block in the initiation
interval table (respectively terminator table) of the subgraph that has no entry in the
table of the enclosing graph, the enclosing graph maps that block to exactly the value of
the subgraph; every entry that the enclosing graph had before is unchanged, also for a block
that is in the table of the subgraph; and a block in neither table has no entry. -/
theorem mergeSUsInSubGraph_tables (k : SUIdxConsts) (h : Heap) (G SubGraph : VSchedGraph)
    (m : Merged) (hok : mergeSUsInSubGraph k h G SubGraph = .ok m) :
    ((∀ b v, mapFind b G.IIMap = none → mapFind b SubGraph.IIMap = some v →
        mapFind b m.G.IIMap = some v) ∧
      (∀ b v, mapFind b G.IIMap = some v → mapFind b m.G.IIMap = some v) ∧
      (∀ b, mapFind b G.IIMap = none → mapFind b SubGraph.IIMap = none →
        mapFind b m.G.IIMap = none)) ∧
    ((∀ b v, mapFind b G.Terminators = none → mapFind b SubGraph.Terminators = some v →
        mapFind b m.G.Terminators = some v) ∧
      (∀ b v, mapFind b G.Terminators = some v → mapFind b m.G.Terminators = some v) ∧
      (∀ b, mapFind b G.Terminators = none → mapFind b SubGraph.Terminators = none →
        mapFind b m.G.Terminators = none)) := by
  obtain ⟨hII, hTm⟩ := mergeSUsInSubGraph_ok_tables hok
  rw [hII, hTm]
  refine ⟨⟨?_, ?_, ?_⟩, ?_, ?_, ?_⟩
  · intro b v h1 h2; rw [mapFind_mapInsertAll, h1, h2]; rfl
  · intro b v h1; rw [mapFind_mapInsertAll, h1]; rfl
  · intro b h1 h2; rw [mapFind_mapInsertAll, h1, h2]; rfl
  · intro b v h1 h2; rw [mapFind_mapInsertAll, h1, h2]; rfl
  · intro b v h1; rw [mapFind_mapInsertAll, h1]; rfl
  · intro b h1 h2; rw [mapFind_mapInsertAll, h1, h2]; rfl

/-- C11 (amended, witness): in the example with tables block 2 enters the table of the
enclosing graph with the value 7 of the subgraph, and block 1 keeps the value 5. -/
theorem mergeSUsInSubGraph_tables_witness :
    mapFind 2 exMergedTables.G.IIMap = some 7 ∧ mapFind 1 exMergedTables.G.IIMap = some 5 ∧
    mapFind 1 exMergedTables.G.Terminators = some 12 :=
  ⟨(mergeSUsInSubGraph_tables exConsts exHeap exGTables exSubTables exMergedTables rfl).1.1
      2 7 (by decide) (by decide),
    (mergeSUsInSubGraph_tables exConsts exHeap exGTables exSubTables exMergedTables rfl).1.2.1
      1 5 (by decide),
    (mergeSUsInSubGraph_tables exConsts exHeap exGTables exSubTables exMergedTables rfl).2.1
      1 12 (by decide) (by decide)⟩

/-! ## Verification of a unit: theorems -/

theorem verifyDeps_ok {h : Heap} {SU : Nat} {E : Bool} {l : List (Nat × EdgeBundle)}
    {A r : Bool} (hok : verifyDeps h SU E l A = .ok r) :
    (r = true → A = true ∨ ∃ e ∈ l, (h e.1).ParentBB = (h SU).ParentBB) ∧
    (∀ e ∈ l, e.2.Edge.EdgeType ≠ .MemDep → (h e.1).InstIdx < (h SU).InstIdx) := by
  induction l generalizing A with
  | nil =>
    simp only [verifyDeps] at hok
    cases hok
    exact ⟨fun hr => Or.inl hr, fun e he => by cases he⟩
  | cons a rest ih =>
    obtain ⟨Dep, b⟩ := a
    simp only [verifyDeps] at hok
    by_cases h1 : b.Edge.EdgeType = .MemDep ∨ (h SU).InstIdx > (h Dep).InstIdx
    · rw [if_neg (not_not.2 h1)] at hok
      by_cases h2 : E = false ∨ ((h Dep).IsTerminator = true ∧ b.Edge.Latency = 0)
      · rw [if_neg (not_not.2 h2)] at hok
        obtain ⟨ih1, ih2⟩ := ih hok
        constructor
        · intro hr
          rcases ih1 hr with hA | ⟨e, he, hbb⟩
          · rcases Bool.or_eq_true _ _ ▸ hA with hA1 | hA2
            · exact Or.inl hA1
            · exact Or.inr ⟨(Dep, b), List.mem_cons_self _ _, of_decide_eq_true hA2⟩
          · exact Or.inr ⟨e, List.mem_cons_of_mem _ he, hbb⟩
        · intro e he hne
          rcases List.mem_cons.1 he with rfl | he
          · rcases h1 with h1 | h1
            · exact absurd h1 hne
            · exact h1
          · exact ih2 e he hne
      · rw [if_pos h2] at hok; cases hok
    · rw [if_pos h1] at hok; cases hok

theorem verifyDeps_badValueDep {h : Heap} {SU : Nat} {E : Bool} {l : List (Nat × EdgeBundle)}
    {A : Bool} (herr : verifyDeps h SU E l A = .error .badValueDep) :
    ∃ e ∈ l, e.2.Edge.EdgeType ≠ .MemDep ∧ (h SU).InstIdx ≤ (h e.1).InstIdx := by
  induction l generalizing A with
  | nil => simp only [verifyDeps] at herr; cases herr
  | cons a rest ih =>
    obtain ⟨Dep, b⟩ := a
    simp only [verifyDeps] at herr
    by_cases h1 : b.Edge.EdgeType = .MemDep ∨ (h SU).InstIdx > (h Dep).InstIdx
    · rw [if_neg (not_not.2 h1)] at herr
      by_cases h2 : E = false ∨ ((h Dep).IsTerminator = true ∧ b.Edge.Latency = 0)
      · rw [if_neg (not_not.2 h2)] at herr
        obtain ⟨e, he, hne, hle⟩ := ih herr
        exact ⟨e, List.mem_cons_of_mem _ he, hne, hle⟩
      · rw [if_pos h2] at herr; cases herr
    · refine ⟨(Dep, b), List.mem_cons_self _ _, fun hc => h1 (Or.inl hc), ?_⟩
      have : ¬ (h SU).InstIdx > (h Dep).InstIdx := fun hc => h1 (Or.inr hc)
      simp only
      omega

theorem verifySU_ok {h : Heap} {G : VSchedGraph} {SU : Nat}
    (hok : verifySU h G SU = .ok ()) :
    ∃ A, verifyDeps h SU (h SU).IsBBEntry (h SU).Deps (h SU).IsBBEntry = .ok A ∧
      ((h SU).SchedSlot ≠ 0 ∨ (h SU).HasFixedTiming = true ∨ A = true) := by
  unfold verifySU at hok
  simp only at hok
  split at hok
  · cases hok
  · next A hA =>
    refine ⟨A, hA, ?_⟩
    by_cases h1 : isScheduled h SU = true ∨ (h SU).UseList ≠ [] ∨ SU = G.Exit
    · rw [if_neg (not_not.2 h1)] at hok
      by_cases h2 : isScheduled h SU = true ∨ (h SU).HasFixedTiming = true ∨ A = true
      · rcases h2 with h2 | h2 | h2
        · exact Or.inl (of_decide_eq_true h2)
        · exact Or.inr (Or.inl h2)
        · exact Or.inr (Or.inr h2)
      · rw [if_pos h2] at hok; cases hok
    · rw [if_pos h1] at hok; cases hok

/-- C12 (counterexample): in the verification example the entry unit 20 of block 2 is
unscheduled, has no fixed timing and no dependency at all, and verifySU accepts it. -/
theorem verifySU_accepts_floating_entry :
    ¬ (∀ (h : Heap) (G : VSchedGraph) (SU : Nat), verifySU h G SU = .ok () →
        (h SU).SchedSlot ≠ 0 ∨ (h SU).HasFixedTiming = true ∨
          ∃ e ∈ (h SU).Deps, (h e.1).ParentBB = (h SU).ParentBB) := by
  intro hall
  have := hall exHeapVerify exGVerify 20 (by decide)
  revert this
  decide

/-- C12 (amended): verifySU accepts a unit only if the unit is already scheduled, or has
hasFixedTiming set, or is a basic-block entry unit (its representative is the block), or has
at least one dependency whose source belongs to the same basic block as the unit. -/
theorem verifySU_constrained (h : Heap) (G : VSchedGraph) (SU : Nat)
    (hok : verifySU h G SU = .ok ()) :
    (h SU).SchedSlot ≠ 0 ∨ (h SU).HasFixedTiming = true ∨ (h SU).IsBBEntry = true ∨
      ∃ e ∈ (h SU).Deps, (h e.1).ParentBB = (h SU).ParentBB := by
  obtain ⟨A, hA, hcase⟩ := verifySU_ok hok
  rcases hcase with hc | hc | hc
  · exact Or.inl hc
  · exact Or.inr (Or.inl hc)
  · rcases (verifyDeps_ok hA).1 hc with hE | hdep
    · exact Or.inr (Or.inr (Or.inl hE))
    · exact Or.inr (Or.inr (Or.inr hdep))

/-- C12 (amended, witness): the unscheduled operation 21 is accepted; it depends on the
entry unit 20 of its own block. -/
theorem verifySU_constrained_witness :
    (exHeapVerify 21).SchedSlot ≠ 0 ∨ (exHeapVerify 21).HasFixedTiming = true ∨
      (exHeapVerify 21).IsBBEntry = true ∨
      ∃ e ∈ (exHeapVerify 21).Deps, (exHeapVerify e.1).ParentBB = (exHeapVerify 21).ParentBB :=
  verifySU_constrained exHeapVerify exGVerify 21 (by decide)

/-- C13 (counterexample): in the verification example the only edge into the operation 22
of block 3 is a value edge from the operation 23 of block 2, whose index 9 is larger than
the index 3 of the operation 22, and verifySU rejects the operation 22 with the index check:
a value edge across a basic-block boundary is not exempt. -/
theorem verifySU_checks_cross_block_edge :
    ¬ (∀ (h : Heap) (G : VSchedGraph) (SU : Nat),
        (∀ e ∈ (h SU).Deps, e.2.Edge.EdgeType = .ValDep →
          (h e.1).ParentBB = (h SU).ParentBB → (h e.1).InstIdx < (h SU).InstIdx) →
        verifySU h G SU ≠ .error .badValueDep) := by
  intro hall
  exact hall exHeapVerify exGVerify 22 (by decide) (by decide)

/-- C13 (amended): verifySU accepts a unit only if every edge into it that is not a
MemoryDependency edge (a ValueDependency edge within a basic block or across a basic-block
boundary, and an edge of the other kinds) has source index < the index of the unit; only
MemoryDependency edges are exempt: the index check fails only because of an edge that is
not a MemoryDependency edge. -/
theorem verifySU_index_order (h : Heap) (G : VSchedGraph) (SU : Nat) :
    (verifySU h G SU = .ok () →
      ∀ e ∈ (h SU).Deps, e.2.Edge.EdgeType ≠ .MemDep → (h e.1).InstIdx < (h SU).InstIdx) ∧
    (verifySU h G SU = .error .badValueDep →
      ∃ e ∈ (h SU).Deps, e.2.Edge.EdgeType ≠ .MemDep ∧
        (h SU).InstIdx ≤ (h e.1).InstIdx) := by
  constructor
  · intro hok
    obtain ⟨A, hA, _⟩ := verifySU_ok hok
    exact (verifyDeps_ok hA).2
  · intro herr
    unfold verifySU at herr
    simp only at herr
    split at herr
    · next v hv =>
      cases herr
      exact verifyDeps_badValueDep hv
    · next A hA =>
      by_cases h1 : isScheduled h SU = true ∨ (h SU).UseList ≠ [] ∨ SU = G.Exit
      · rw [if_neg (not_not.2 h1)] at herr
        by_cases h2 : isScheduled h SU = true ∨ (h SU).HasFixedTiming = true ∨ A = true
        · rw [if_neg (not_not.2 h2)] at herr; cases herr
        · rw [if_pos h2] at herr; cases herr
      · rw [if_pos h1] at herr; cases herr

/-- C13 (amended, witness): the operation 24 is accepted although its memory edge comes
from the operation 23 of larger index, and the rejected operation 22 has a value edge from
a source of larger index. -/
theorem verifySU_index_order_witness :
    (∀ e ∈ (exHeapVerify 24).Deps, e.2.Edge.EdgeType ≠ .MemDep →
      (exHeapVerify e.1).InstIdx < (exHeapVerify 24).InstIdx) ∧
    (∃ e ∈ (exHeapVerify 22).Deps, e.2.Edge.EdgeType ≠ .MemDep ∧
      (exHeapVerify 22).InstIdx ≤ (exHeapVerify e.1).InstIdx) :=
  ⟨(verifySU_index_order exHeapVerify exGVerify 24).1 (by decide),
    (verifySU_index_order exHeapVerify exGVerify 22).2 (by decide)⟩

/-! ## Resetting the control-path schedule: theorems -/

theorem foldl_resetSchedule (l : List Nat) (h : Heap) (p : Nat) :
    ((l.foldl resetSchedule h) p).SchedSlot = (if p ∈ l then 0 else (h p).SchedSlot) ∧
    ((l.foldl resetSchedule h) p).Deps = (h p).Deps ∧
    ((l.foldl resetSchedule h) p).IsPHI = (h p).IsPHI := by
  induction l generalizing h with
  | nil => simp
  | cons a r ih =>
    rw [List.foldl_cons]
    obtain ⟨i1, i2, i3⟩ := ih (resetSchedule h a)
    rw [i1, i2, i3]
    by_cases hpa : p = a
    · subst hpa
      simp [resetSchedule]
    · have hap : ¬ a = p := fun e => hpa e.symm
      simp only [resetSchedule, Heap.set_other _ _ hpa, List.mem_cons, hpa, false_or]
      exact ⟨trivial, trivial, trivial⟩

theorem scheduledTo_ok {h h1 : Heap} {U slot : Nat} (hok : scheduledTo h U slot = .ok h1) :
    slot ≠ 0 ∧ h1 = h.set U { h U with SchedSlot := slot } := by
  unfold scheduledTo at hok
  by_cases hs : slot = 0
  · rw [if_pos hs] at hok; cases hok
  · rw [if_neg hs] at hok
    exact ⟨hs, (Except.ok.inj hok).symm⟩

/-- The stages of a successful `resetCPSchedule`. -/
theorem resetCPSchedule_ok {h h1 : Heap} {G : VSchedGraph} {MII : Nat}
    (hok : resetCPSchedule h G MII = .ok h1) :
    ∃ h3 : Heap, (∀ p, (h1 p).SchedSlot = (h3 p).SchedSlot) ∧ G.EntrySlot ≠ 0 ∧
      ((MII = 0 ∧
          h3 = (G.CPSUs.foldl resetSchedule h).set G.Entry
            { (G.CPSUs.foldl resetSchedule h) G.Entry with SchedSlot := G.EntrySlot }) ∨
        (MII ≠ 0 ∧ ∃ L, G.LoopOp = some L ∧
          wrap32 ((G.EntrySlot : Int) + (MII : Int)) ≠ 0 ∧
          h3 = ((G.CPSUs.foldl resetSchedule h).set G.Entry
              { (G.CPSUs.foldl resetSchedule h) G.Entry with SchedSlot := G.EntrySlot }).set L
            { ((G.CPSUs.foldl resetSchedule h).set G.Entry
                { (G.CPSUs.foldl resetSchedule h) G.Entry with
                  SchedSlot := G.EntrySlot }) L with
              SchedSlot := wrap32 ((G.EntrySlot : Int) + (MII : Int)) })) := by
  unfold resetCPSchedule at hok
  simp only at hok
  split at hok
  · cases hok
  · next h2 hh2 =>
    obtain ⟨hne, hh2e⟩ := scheduledTo_ok hh2
    split at hok
    · cases hok
    · next h3 hh3 =>
      have hh1 := (Except.ok.inj hok).symm
      refine ⟨h3, ?_, hne, ?_⟩
      · intro p
        rw [hh1]
        by_cases hp : p = G.Exit
        · subst hp; simp
        · rw [Heap.set_other _ _ hp]
      · by_cases hM : MII = 0
        · left
          rw [if_neg (not_not.2 hM)] at hh3
          exact ⟨hM, by rw [← Except.ok.inj hh3, hh2e]⟩
        · right
          rw [if_pos hM] at hh3
          refine ⟨hM, ?_⟩
          split at hh3
          · cases hh3
          · next L hL =>
            obtain ⟨hne2, hh3e⟩ := scheduledTo_ok hh3
            exact ⟨L, hL, hne2, by rw [hh3e, hh2e]⟩

/-- C14 (counterexample): `prepareForDatapathSched` puts the data-path unit 34 of the loop
example on the control-path list; `resetCPSchedule(2)` on that graph returns and changes the
slot of the data-path unit 34 from 2 to 0. -/
theorem resetCPSchedule_resets_datapath :
    prepareForDatapathSched exHeapLoop exGLoop = .ok exPrepared ∧
    exPrepared.2.CPSUs = [30, 31, 32, 33, 34] ∧
    resetCPSchedule exPrepared.1 exPrepared.2 2 = .ok exPreparedReset ∧
    (exPrepared.1 34).IsDatapath = true ∧ (exPrepared.1 34).SchedSlot = 2 ∧
    (exPreparedReset 34).SchedSlot = 0 :=
  ⟨rfl, by decide, rfl, by decide, by decide, by decide⟩

/-- C14 (amended): whenever resetCPSchedule(MII) returns, the slot of the entry root equals
the entry slot of the graph (unless MII > 0 and the entry root is the loop terminator); if
MII > 0 the slot of the loop terminator unit equals entry slot + MII (the sum being an
unsigned 32-bit value), and the call fails if MII > 0 but the graph has no loop terminator;
every other unit of the control-path list is unscheduled, data-path units on that list
included; every unit outside the control-path list other than these two keeps its slot, so
that no data-path unit has its slot changed in a graph whose control-path list, entry root
and loop terminator are control-path units. -/
theorem resetCPSchedule_post (h : Heap) (G : VSchedGraph) (MII : Nat) :
    (∀ h1, resetCPSchedule h G MII = .ok h1 →
      ((MII = 0 ∨ G.LoopOp ≠ some G.Entry) → (h1 G.Entry).SchedSlot = G.EntrySlot) ∧
      (MII ≠ 0 → G.EntrySlot + MII < 4294967296 →
        ∃ L, G.LoopOp = some L ∧ (h1 L).SchedSlot = G.EntrySlot + MII) ∧
      (∀ U ∈ G.CPSUs, U ≠ G.Entry → (MII = 0 ∨ G.LoopOp ≠ some U) →
        (h1 U).SchedSlot = 0) ∧
      (∀ p, p ∉ G.CPSUs → p ≠ G.Entry → (MII = 0 ∨ G.LoopOp ≠ some p) →
        (h1 p).SchedSlot = (h p).SchedSlot) ∧
      ((∀ U ∈ G.CPSUs, (h U).IsDatapath = false) → (h G.Entry).IsDatapath = false →
        (∀ L, G.LoopOp = some L → (h L).IsDatapath = false) →
        ∀ p, (h p).IsDatapath = true → (h1 p).SchedSlot = (h p).SchedSlot)) ∧
    (MII ≠ 0 → G.LoopOp = none → ∃ v, resetCPSchedule h G MII = .error v) := by
  constructor
  · intro h1 hok
    obtain ⟨h3, hslot, hE, hcase⟩ := resetCPSchedule_ok hok
    have key : ∀ p, (h1 p).SchedSlot =
        if MII ≠ 0 ∧ G.LoopOp = some p then wrap32 ((G.EntrySlot : Int) + (MII : Int))
        else if p = G.Entry then G.EntrySlot
        else if p ∈ G.CPSUs then 0 else (h p).SchedSlot := by
      intro p
      rw [hslot p]
      rcases hcase with ⟨hM, hh3⟩ | ⟨hM, L, hL, _, hh3⟩
      · rw [hh3, if_neg (fun hc => hc.1 hM)]
        by_cases hp : p = G.Entry
        · subst hp; simp
        · rw [Heap.set_other _ _ hp, if_neg hp]
          exact (foldl_resetSchedule G.CPSUs h p).1
      · rw [hh3]
        by_cases hpL : p = L
        · subst hpL
          rw [if_pos ⟨hM, hL⟩]
          simp
        · have hnL : ¬ (MII ≠ 0 ∧ G.LoopOp = some p) := by
            rintro ⟨_, hc⟩
            rw [hL] at hc
            exact hpL (Option.some.inj hc).symm
          rw [Heap.set_other _ _ hpL, if_neg hnL]
          by_cases hp : p = G.Entry
          · subst hp; simp
          · rw [Heap.set_other _ _ hp, if_neg hp]
            exact (foldl_resetSchedule G.CPSUs h p).1
    have hno : ∀ p, (MII = 0 ∨ G.LoopOp ≠ some p) → ¬ (MII ≠ 0 ∧ G.LoopOp = some p) := by
      rintro p (hc | hc) ⟨h1, h2⟩
      · exact h1 hc
      · exact hc h2
    have houter : ∀ p, p ∉ G.CPSUs → p ≠ G.Entry → (MII = 0 ∨ G.LoopOp ≠ some p) →
        (h1 p).SchedSlot = (h p).SchedSlot := by
      intro p hp hpE hpL
      rw [key p, if_neg (hno p hpL), if_neg hpE, if_neg hp]
    refine ⟨?_, ?_, ?_, houter, ?_⟩
    · intro hc
      rw [key G.Entry, if_neg (hno _ hc), if_pos rfl]
    · intro hM hsum
      rcases hcase with ⟨hM0, _⟩ | ⟨_, L, hL, _, _⟩
      · exact absurd hM0 hM
      · refine ⟨L, hL, ?_⟩
        rw [key L, if_pos ⟨hM, hL⟩]
        unfold wrap32
        omega
    · intro U hU hUE hUL
      rw [key U, if_neg (hno U hUL), if_neg hUE, if_pos hU]
    · intro hcp hentry hloop p hp
      refine houter p ?_ ?_ ?_
      · intro hm
        rw [hcp p hm] at hp
        cases hp
      · intro e
        rw [e, hentry] at hp
        cases hp
      · by_cases hM : MII = 0
        · exact Or.inl hM
        · right
          intro hc
          rw [hloop p hc] at hp
          cases hp
  · intro hM hL
    cases hres : resetCPSchedule h G MII with
    | error v => exact ⟨v, rfl⟩
    | ok h1 =>
      exfalso
      obtain ⟨h3, _, _, hcase⟩ := resetCPSchedule_ok hres
      rcases hcase with ⟨hM0, _⟩ | ⟨_, L, hL2, _⟩
      · exact hM hM0
      · rw [hL] at hL2; cases hL2

/-- C14 (amended, witness): in the loop example, whose control-path list holds no data-path
unit, resetCPSchedule(2) puts the entry root 30 at slot 1, the loop operation 32 at slot 3,
unschedules the units 31 and 33 and leaves the data-path unit 34 at its slot; in the
prepared loop example the data-path unit 34 is on the control-path list and is
unscheduled. -/
theorem resetCPSchedule_post_witness :
    (exHeapReset 30).SchedSlot = exGLoop.EntrySlot ∧
    (∃ L, exGLoop.LoopOp = some L ∧ (exHeapReset L).SchedSlot = exGLoop.EntrySlot + 2) ∧
    (exHeapReset 31).SchedSlot = 0 ∧
    (exHeapReset 34).SchedSlot = (exHeapLoop 34).SchedSlot ∧
    (∀ p, (exHeapLoop p).IsDatapath = true →
      (exHeapReset p).SchedSlot = (exHeapLoop p).SchedSlot) ∧
    (exPreparedReset 34).SchedSlot = 0 :=
  ⟨((resetCPSchedule_post exHeapLoop exGLoop 2).1 exHeapReset rfl).1 (by decide),
    ((resetCPSchedule_post exHeapLoop exGLoop 2).1 exHeapReset rfl).2.1 (by decide)
      (by decide),
    ((resetCPSchedule_post exHeapLoop exGLoop 2).1 exHeapReset rfl).2.2.1 31 (by decide)
      (by decide) (by decide),
    ((resetCPSchedule_post exHeapLoop exGLoop 2).1 exHeapReset rfl).2.2.2.1 34 (by decide)
      (by decide) (by decide),
    ((resetCPSchedule_post exHeapLoop exGLoop 2).1 exHeapReset rfl).2.2.2.2 (by decide)
      (by decide) (by decide),
    ((resetCPSchedule_post exPrepared.1 exPrepared.2 2).1 exPreparedReset rfl).2.2.1 34
      (by decide) (by decide) (by decide)⟩

/-! ## PHI schedules: theorems -/

theorem fixPHIStep_ok {getII getEndSlot : Nat → Nat} {h h1 : Heap} {U : Nat}
    (hok : fixPHIStep getII getEndSlot h U = .ok h1) :
    ((h U).IsPHI = false ∧ h1 = h) ∨
    ((h U).IsPHI = true ∧
      wrap32 (((h U).SchedSlot : Int) + (getII (h U).ParentBB : Int)) ≤
        getEndSlot (h U).ParentBB ∧
      h1 = h.set U { h U with
        SchedSlot := wrap32 (((h U).SchedSlot : Int) + (getII (h U).ParentBB : Int)) }) := by
  unfold fixPHIStep at hok
  by_cases hphi : (h U).IsPHI = false
  · rw [if_pos hphi] at hok
    exact Or.inl ⟨hphi, (Except.ok.inj hok).symm⟩
  · rw [if_neg hphi] at hok
    simp only at hok
    split at hok
    · cases hok
    · next h2 hh2 =>
      obtain ⟨_, hh2e⟩ := scheduledTo_ok hh2
      rw [hh2e] at hok
      simp only [Heap.set_same] at hok
      by_cases hle : wrap32 (((h U).SchedSlot : Int) + (getII (h U).ParentBB : Int)) ≤
          getEndSlot (h U).ParentBB
      · rw [if_neg (not_not.2 hle)] at hok
        refine Or.inr ⟨by simpa using hphi, hle, (Except.ok.inj hok).symm⟩
      · rw [if_pos hle] at hok; cases hok

theorem fixPHIStep_frame {getII getEndSlot : Nat → Nat} {h h1 : Heap} {U : Nat}
    (hok : fixPHIStep getII getEndSlot h U = .ok h1) (p : Nat) :
    (h1 p).IsPHI = (h p).IsPHI ∧ (h1 p).ParentBB = (h p).ParentBB ∧
    (p ≠ U → h1 p = h p) ∧ ((h p).IsPHI = false → h1 p = h p) := by
  rcases fixPHIStep_ok hok with ⟨_, he⟩ | ⟨hphi, _, he⟩
  · subst he
    exact ⟨rfl, rfl, fun _ => rfl, fun _ => rfl⟩
  · subst he
    by_cases hp : p = U
    · subst hp
      refine ⟨by simp, by simp, fun hc => absurd rfl hc, fun hc => ?_⟩
      rw [hphi] at hc
      cases hc
    · rw [Heap.set_other _ _ hp]
      exact ⟨rfl, rfl, fun _ => rfl, fun _ => rfl⟩

theorem fixPHISchedules_cons {getII getEndSlot : Nat → Nat} {U : Nat} {rest : List Nat}
    {h h2 : Heap} (hok : fixPHISchedules getII getEndSlot (U :: rest) h = .ok h2) :
    ∃ h1, fixPHIStep getII getEndSlot h U = .ok h1 ∧
      fixPHISchedules getII getEndSlot rest h1 = .ok h2 := by
  simp only [fixPHISchedules] at hok
  split at hok
  · cases hok
  · next h1 hh1 => exact ⟨h1, hh1, hok⟩

theorem fixPHISchedules_frame {getII getEndSlot : Nat → Nat} {l : List Nat} {h h2 : Heap}
    (hok : fixPHISchedules getII getEndSlot l h = .ok h2) (p : Nat) :
    (h2 p).IsPHI = (h p).IsPHI ∧ (h2 p).ParentBB = (h p).ParentBB ∧
    (p ∉ l → h2 p = h p) ∧ ((h p).IsPHI = false → h2 p = h p) := by
  induction l generalizing h with
  | nil =>
    simp only [fixPHISchedules] at hok
    cases hok
    exact ⟨rfl, rfl, fun _ => rfl, fun _ => rfl⟩
  | cons U rest ih =>
    obtain ⟨h1, hs, hr⟩ := fixPHISchedules_cons hok
    obtain ⟨s1, s2, s3, s4⟩ := fixPHIStep_frame hs p
    obtain ⟨r1, r2, r3, r4⟩ := ih hr
    refine ⟨by rw [r1, s1], by rw [r2, s2], fun hn => ?_, fun hphi => ?_⟩
    · rw [r3 (fun e => hn (List.mem_cons_of_mem _ e)),
        s3 (fun e => hn (e ▸ List.mem_cons_self _ _))]
    · rw [r4 (by rw [s1]; exact hphi), s4 hphi]

theorem fixPHISchedules_advance {getII getEndSlot : Nat → Nat} {l : List Nat} {h h2 : Heap}
    (hok : fixPHISchedules getII getEndSlot l h = .ok h2) (hnd : l.Nodup) (U : Nat)
    (hU : U ∈ l) (hphi : (h U).IsPHI = true)
    (hsum : (h U).SchedSlot + getII (h U).ParentBB < 4294967296) :
    (h2 U).SchedSlot = (h U).SchedSlot + getII (h U).ParentBB := by
  induction l generalizing h with
  | nil => cases hU
  | cons V rest ih =>
    obtain ⟨h1, hs, hr⟩ := fixPHISchedules_cons hok
    have hnd2 := List.nodup_cons.1 hnd
    by_cases hUV : U = V
    · subst hUV
      rw [(fixPHISchedules_frame hr U).2.2.1 hnd2.1]
      rcases fixPHIStep_ok hs with ⟨hc, _⟩ | ⟨_, _, he⟩
      · rw [hphi] at hc; cases hc
      · rw [he]
        simp only [Heap.set_same]
        unfold wrap32
        omega
    · have hm : U ∈ rest := by
        rcases List.mem_cons.1 hU with e | e
        · exact absurd e hUV
        · exact e
      have hsame := (fixPHIStep_frame hs U).2.2.1 hUV
      have := ih hr hnd2.2 hm (by rw [hsame]; exact hphi) (by rw [hsame]; exact hsum)
      rw [this, hsame]

/-- C19: for a range of distinct units, after a successful fixPHISchedules the slot of each
PHI unit of the range equals its previous slot plus the initiation interval recorded for its
own parent block (the sum being an unsigned 32-bit value), every non-PHI unit and every unit
outside the range is unchanged, and the call fails if an advanced PHI slot exceeds the end
slot of its block. -/
theorem fixPHISchedules_post (getII getEndSlot : Nat → Nat) (l : List Nat) (h : Heap) :
    (∀ h2, fixPHISchedules getII getEndSlot l h = .ok h2 → l.Nodup →
      (∀ U ∈ l, (h U).IsPHI = true →
        (h U).SchedSlot + getII (h U).ParentBB < 4294967296 →
        (h2 U).SchedSlot = (h U).SchedSlot + getII (h U).ParentBB) ∧
      (∀ p, (h p).IsPHI = false → h2 p = h p) ∧
      (∀ p, p ∉ l → h2 p = h p)) ∧
    ((∃ U ∈ l, (h U).IsPHI = true ∧
        (h U).SchedSlot + getII (h U).ParentBB < 4294967296 ∧
        getEndSlot (h U).ParentBB < (h U).SchedSlot + getII (h U).ParentBB) →
      ∃ v, fixPHISchedules getII getEndSlot l h = .error v) := by
  constructor
  · intro h2 hok hnd
    exact ⟨fun U hU hphi hsum => fixPHISchedules_advance hok hnd U hU hphi hsum,
      fun p hp => (fixPHISchedules_frame hok p).2.2.2 hp,
      fun p hp => (fixPHISchedules_frame hok p).2.2.1 hp⟩
  · rintro ⟨U, hU, hphi, hsum, hgt⟩
    cases hres : fixPHISchedules getII getEndSlot l h with
    | error v => exact ⟨v, rfl⟩
    | ok h2 =>
      exfalso
      induction l generalizing h with
      | nil => cases hU
      | cons V rest ih =>
        obtain ⟨h1, hs, hr⟩ := fixPHISchedules_cons hres
        by_cases hUV : U = V
        · subst hUV
          rcases fixPHIStep_ok hs with ⟨hc, _⟩ | ⟨_, hle, _⟩
          · rw [hphi] at hc; cases hc
          · unfold wrap32 at hle
            omega
        · have hm : U ∈ rest := by
            rcases List.mem_cons.1 hU with e | e
            · exact absurd e hUV
            · exact e
          have hsame := (fixPHIStep_frame hs U).2.2.1 hUV
          exact ih h1 hm (by rw [hsame]; exact hphi) (by rw [hsame]; exact hsum)
            (by rw [hsame]; exact hgt) hr

/-- C19 (witness): in the loop example, with the initiation interval 2 and the end slot 10,
the PHI unit 31 moves from slot 2 to slot 4 and the loop operation 32 is unchanged; with the
end slot 3 the call fails. -/
theorem fixPHISchedules_post_witness :
    ((exHeapFixed 31).SchedSlot = (exHeapLoop 31).SchedSlot + 2 ∧
      exHeapFixed 32 = exHeapLoop 32) ∧
    ∃ v, fixPHISchedules (fun _ => 2) (fun _ => 3) exGLoop.CPSUs exHeapLoop = .error v :=
  ⟨⟨((fixPHISchedules_post (fun _ => 2) (fun _ => 10) exGLoop.CPSUs exHeapLoop).1
        exHeapFixed rfl (by decide)).1 31 (by decide) (by decide) (by decide),
      ((fixPHISchedules_post (fun _ => 2) (fun _ => 10) exGLoop.CPSUs exHeapLoop).1
        exHeapFixed rfl (by decide)).2.1 32 (by decide)⟩,
    (fixPHISchedules_post (fun _ => 2) (fun _ => 3) exGLoop.CPSUs exHeapLoop).2
      ⟨31, by decide, by decide, by decide, by decide⟩⟩

/-! ## The modulo-scheduling driver: theorems -/

theorem retryLoop_succ {attempt : Driver → Heap → Bool × (Nat → Nat)}
    {retry : Driver → Driver} {fuel : Nat} {d : Driver} {h : Heap} {x : Driver × Heap}
    (hok : retryLoop attempt retry (fuel + 1) d h = some x) :
    ((attempt d h).1 = true ∧
      x = ({ d with Attempts := d.Attempts + 1 }, h.withSlots (attempt d h).2)) ∨
    ((attempt d h).1 = false ∧
      retryLoop attempt retry fuel (retry { d with Attempts := d.Attempts + 1 })
        (h.withSlots (attempt d h).2) = some x) := by
  simp only [retryLoop] at hok
  by_cases hs : (attempt d h).1 = true
  · rw [if_pos hs] at hok
    exact Or.inl ⟨hs, (Option.some.inj hok).symm⟩
  · rw [if_neg hs] at hok
    exact Or.inr ⟨by simpa using hs, hok⟩

theorem retryLoop_attempts {attempt : Driver → Heap → Bool × (Nat → Nat)}
    {retry : Driver → Driver} (hretry : ∀ d, (retry d).Attempts = d.Attempts)
    {fuel : Nat} {d d1 : Driver} {h h1 : Heap}
    (hok : retryLoop attempt retry fuel d h = some (d1, h1)) :
    d.Attempts < d1.Attempts := by
  induction fuel generalizing d h with
  | zero => simp [retryLoop] at hok
  | succ n ih =>
    rcases retryLoop_succ hok with ⟨_, hx⟩ | ⟨_, hrec⟩
    · have := (Prod.mk.inj hx).1
      subst this
      simp
    · have := ih hrec
      rw [hretry] at this
      simp only at this
      omega

theorem retryLoop_inv {attempt : Driver → Heap → Bool × (Nat → Nat)}
    {retry : Driver → Driver} (P : Driver → Prop)
    (hattempt : ∀ d, P d → P { d with Attempts := d.Attempts + 1 })
    (hretry : ∀ d, P d → P (retry d))
    {fuel : Nat} {d d1 : Driver} {h h1 : Heap}
    (hok : retryLoop attempt retry fuel d h = some (d1, h1)) (hP : P d) : P d1 := by
  induction fuel generalizing d h with
  | zero => simp [retryLoop] at hok
  | succ n ih =>
    rcases retryLoop_succ hok with ⟨_, hx⟩ | ⟨_, hrec⟩
    · have := (Prod.mk.inj hx).1
      subst this
      exact hattempt d hP
    · exact ih hrec (hretry _ (hattempt d hP))

theorem retryLoop_static {attempt : Driver → Heap → Bool × (Nat → Nat)}
    {retry : Driver → Driver} {fuel : Nat} {d d1 : Driver} {h h1 : Heap}
    (hok : retryLoop attempt retry fuel d h = some (d1, h1)) (p : Nat) :
    (h1 p).IsPHI = (h p).IsPHI ∧ (h1 p).ParentBB = (h p).ParentBB := by
  induction fuel generalizing d h with
  | zero => simp [retryLoop] at hok
  | succ n ih =>
    rcases retryLoop_succ hok with ⟨_, hx⟩ | ⟨_, hrec⟩
    · have := (Prod.mk.inj hx).2
      subst this
      exact ⟨rfl, rfl⟩
    · have := ih hrec
      exact ⟨this.1, this.2⟩

theorem retryLoop_mii_lower {attempt : Driver → Heap → Bool × (Nat → Nat)}
    {retry : Driver → Driver} (M : Nat)
    (hretry : ∀ d, (retry d).Attempts = d.Attempts ∧
      ((retry d).MII = d.MII ∨ (retry d).MII = wrap32 ((d.MII : Int) + 1)))
    {fuel : Nat} {d d1 : Driver} {h h1 : Heap}
    (hok : retryLoop attempt retry fuel d h = some (d1, h1))
    (hfit : M + d1.Attempts < 4294967296)
    (hQ : M ≤ d.MII ∧ d.MII ≤ M + d.Attempts) :
    M ≤ d1.MII ∧ d1.MII ≤ M + d1.Attempts := by
  induction fuel generalizing d h with
  | zero => simp [retryLoop] at hok
  | succ n ih =>
    rcases retryLoop_succ hok with ⟨_, hx⟩ | ⟨_, hrec⟩
    · have := (Prod.mk.inj hx).1
      subst this
      simp only
      omega
    · have hlt := retryLoop_attempts (fun d => (hretry d).1) hrec
      rw [(hretry _).1] at hlt
      simp only at hlt
      refine ih hrec ?_
      obtain ⟨ha, hm⟩ := hretry { d with Attempts := d.Attempts + 1 }
      rw [ha]
      simp only at hm ⊢
      rcases hm with hm | hm
      · rw [hm]; omega
      · rw [hm]
        unfold wrap32
        omega

theorem retry_steps (d : Driver) :
    (d.lengthenCriticalPath.Attempts = d.Attempts ∧ d.lengthenCriticalPath.MII = d.MII) ∧
    (d.increaseMII.Attempts = d.Attempts ∧
      d.increaseMII.MII = wrap32 ((d.MII : Int) + 1) ∧
      d.increaseMII.CriticalPathEnd = d.CriticalPathEnd) ∧
    ((retryCriticalPath d).Attempts = d.Attempts ∧
      ((retryCriticalPath d).MII = d.MII ∨
        (retryCriticalPath d).MII = wrap32 ((d.MII : Int) + 1))) ∧
    ((retryState d).Attempts = d.Attempts ∧
      ((retryState d).MII = d.MII ∨ (retryState d).MII = wrap32 ((d.MII : Int) + 1))) := by
  refine ⟨⟨rfl, rfl⟩, ⟨rfl, rfl, rfl⟩, ?_, ?_⟩
  · unfold retryCriticalPath
    split_ifs
    · exact ⟨rfl, Or.inr rfl⟩
    · exact ⟨rfl, Or.inl rfl⟩
  · unfold retryState
    split_ifs
    · exact ⟨rfl, Or.inr rfl⟩
    · exact ⟨rfl, Or.inl rfl⟩

/-- The stages of a normal return of `scheduleLoop`. -/
theorem scheduleLoop_ok {S : ModuloScheduler} {unrecorded getEndSlot : Nat → Nat}
    {fuel : Nat} {h : Heap} {G : VSchedGraph} {d0 : Driver} {r : LoopScheduled}
    (hok : scheduleLoop S unrecorded getEndSlot fuel h G d0 = some (.ok r)) :
    ∃ d1 h1 d3 h3 h4 L,
      retryLoop S.scheduleCriticalPath Driver.lengthenCriticalPath fuel d0 h =
        some (d1, h1) ∧
      r.computedMII = wrap32 (S.computeMII d1 h1 : Int) ∧
      retryLoop S.scheduleCriticalPath retryCriticalPath fuel
        { d1 with MII := r.computedMII } h1 = some (d3, h3) ∧
      d3.MII ≤ d3.getCriticalPathLength ∧
      retryLoop S.scheduleState retryState fuel d3 h3 = some (r.driver, h4) ∧
      G.LoopOp = some L ∧
      wrap32 (((h4 L).SchedSlot : Int) - (G.EntrySlot : Int)) = r.driver.MII ∧
      (h4 L).SchedSlot ≤ getEndSlot G.EntryBB ∧
      mapFind G.EntryBB G.IIMap = none ∧
      r.G = { G with IIMap := mapInsert G.IIMap (G.EntryBB, r.driver.MII) } ∧
      fixPHISchedules (r.G.getII unrecorded) getEndSlot G.CPSUs h4 = .ok r.heap := by
  unfold scheduleLoop at hok
  split at hok
  · cases hok
  · next d1 h1 hl1 =>
    simp only at hok
    split at hok
    · cases hok
    · next d3 h3 hl2 =>
      by_cases hle : d3.MII ≤ d3.getCriticalPathLength
      · rw [if_neg (not_not.2 hle)] at hok
        split at hok
        · cases hok
        · next d4 h4 hl3 =>
          split at hok
          · cases hok
          · next L hL =>
            by_cases hs : wrap32 (((h4 L).SchedSlot : Int) - (G.EntrySlot : Int)) = d4.MII
            · rw [if_neg (not_not.2 hs)] at hok
              by_cases he : (h4 L).SchedSlot ≤ getEndSlot G.EntryBB
              · rw [if_neg (not_not.2 he)] at hok
                by_cases hsucc : (mapFind G.EntryBB G.IIMap).isNone = false
                · rw [if_pos hsucc] at hok; cases hok
                · rw [if_neg hsucc] at hok
                  split at hok
                  · cases hok
                  · next h5 hfix =>
                    have hr := Except.ok.inj (Option.some.inj hok)
                    subst hr
                    refine ⟨d1, h1, d3, h3, h4, L, hl1, rfl, hl2, hle, hl3, hL, hs, he, ?_,
                      rfl, hfix⟩
                    cases hfind : mapFind G.EntryBB G.IIMap with
                    | none => rfl
                    | some v => rw [hfind] at hsucc; simp at hsucc
              · rw [if_pos he] at hok; cases hok
            · rw [if_pos hs] at hok; cases hok
      · rw [if_pos hle] at hok; cases hok

theorem scheduleLoop_recorded {S : ModuloScheduler} {unrecorded getEndSlot : Nat → Nat}
    {fuel : Nat} {h : Heap} {G : VSchedGraph} {d0 : Driver} {r : LoopScheduled}
    (hok : scheduleLoop S unrecorded getEndSlot fuel h G d0 = some (.ok r)) :
    mapFind G.EntryBB r.G.IIMap = some r.driver.MII := by
  obtain ⟨d1, h1, d3, h3, h4, L, _, _, _, _, _, _, _, _, hnone, hG, _⟩ := scheduleLoop_ok hok
  rw [hG]
  simp only
  rw [mapFind_mapInsert, hnone]
  simp [mapFind]

/-- C15: whenever scheduleLoop returns normally, the initiation-interval table maps the entry
block to the final MII of the driver, and the slot of the loop terminator unit L (a unit that
is not a PHI unit) equals entry slot + MII (both being unsigned 32-bit values) and does not
exceed the end slot of the block; if an interval was already recorded for the block the call
does not return normally. -/
theorem scheduleLoop_post (S : ModuloScheduler) (unrecorded getEndSlot : Nat → Nat)
    (fuel : Nat) (h : Heap) (G : VSchedGraph) (d0 : Driver) (L : Nat)
    (hL : G.LoopOp = some L) (hphi : (h L).IsPHI = false) :
    (∀ r, scheduleLoop S unrecorded getEndSlot fuel h G d0 = some (.ok r) →
      mapFind G.EntryBB r.G.IIMap = some r.driver.MII ∧
      ((r.heap L).SchedSlot < 4294967296 → G.EntrySlot + r.driver.MII < 4294967296 →
        (r.heap L).SchedSlot = G.EntrySlot + r.driver.MII) ∧
      (r.heap L).SchedSlot ≤ getEndSlot G.EntryBB) ∧
    (mapFind G.EntryBB G.IIMap ≠ none →
      ∀ r, scheduleLoop S unrecorded getEndSlot fuel h G d0 ≠ some (.ok r)) := by
  constructor
  · intro r hok
    refine ⟨scheduleLoop_recorded hok, ?_⟩
    obtain ⟨d1, h1, d3, h3, h4, L1, hl1, _, hl2, _, hl3, hL1, hs, he, _, _, hfix⟩ :=
      scheduleLoop_ok hok
    rw [hL] at hL1
    cases hL1
    have hphi4 : (h4 L).IsPHI = (h L).IsPHI := by
      rw [(retryLoop_static hl3 L).1, (retryLoop_static hl2 L).1, (retryLoop_static hl1 L).1]
    have hsame := (fixPHISchedules_frame hfix L).2.2.2 (by rw [hphi4]; exact hphi)
    rw [hsame]
    refine ⟨?_, he⟩
    intro hlt hsum
    unfold wrap32 at hs
    omega
  · intro hrec r hok
    obtain ⟨d1, h1, d3, h3, h4, L1, _, _, _, _, _, _, _, _, hnone, _, _⟩ :=
      scheduleLoop_ok hok
    exact hrec hnone

/-- C15 (witness): the loop example returns normally with the interval 2 recorded for block
4 and the loop operation 32 at slot 1 + 2, below the end slot 10; with an interval already
recorded for block 4 it does not return normally. -/
theorem scheduleLoop_post_witness :
    (mapFind exGLoop.EntryBB exLoopScheduled.G.IIMap = some exLoopScheduled.driver.MII ∧
      (exLoopScheduled.heap 32).SchedSlot =
        exGLoop.EntrySlot + exLoopScheduled.driver.MII ∧
      (exLoopScheduled.heap 32).SchedSlot ≤ 10) ∧
    ∀ r, scheduleLoop exScheduler (fun _ => 0) (fun _ => 10) 5 exHeapLoop
      { exGLoop with IIMap := [(4, 7)] } { CriticalPathEnd := 1 } ≠ some (.ok r) :=
  ⟨⟨((scheduleLoop_post exScheduler (fun _ => 0) (fun _ => 10) 5 exHeapLoop exGLoop
        { CriticalPathEnd := 1 } 32 rfl rfl).1 exLoopScheduled rfl).1,
      ((scheduleLoop_post exScheduler (fun _ => 0) (fun _ => 10) 5 exHeapLoop exGLoop
        { CriticalPathEnd := 1 } 32 rfl rfl).1 exLoopScheduled rfl).2.1 (by decide)
        (by decide),
      ((scheduleLoop_post exScheduler (fun _ => 0) (fun _ => 10) 5 exHeapLoop exGLoop
        { CriticalPathEnd := 1 } 32 rfl rfl).1 exLoopScheduled rfl).2.2⟩,
    (scheduleLoop_post exScheduler (fun _ => 0) (fun _ => 10) 5 exHeapLoop
      { exGLoop with IIMap := [(4, 7)] } { CriticalPathEnd := 1 } 32 rfl rfl).2
      (by decide)⟩

/-- C16: whenever scheduleLoop returns normally with a recorded interval below the largest
unsigned value, the recorded interval is <= the critical-path length of the driver, whatever
the feasibility attempts and computeMII answered; and a failed attempt of the third retry
loop preserves MII <= critical-path length (the critical-path bound being below the largest
unsigned value). -/
theorem scheduleLoop_II_le_critical_path (S : ModuloScheduler)
    (unrecorded getEndSlot : Nat → Nat) (fuel : Nat) (h : Heap) (G : VSchedGraph)
    (d0 : Driver) :
    (∀ r, scheduleLoop S unrecorded getEndSlot fuel h G d0 = some (.ok r) →
      r.driver.MII + 1 < 4294967296 →
      mapFind G.EntryBB r.G.IIMap = some r.driver.MII ∧
      r.driver.MII ≤ r.driver.getCriticalPathLength) ∧
    (∀ d : Driver, d.MII ≤ d.getCriticalPathLength → d.CriticalPathEnd + 1 < 4294967296 →
      (retryState { d with Attempts := d.Attempts + 1 }).MII ≤
        (retryState { d with Attempts := d.Attempts + 1 }).getCriticalPathLength) := by
  constructor
  · intro r hok hfit
    refine ⟨scheduleLoop_recorded hok, ?_⟩
    obtain ⟨d1, h1, d3, h3, h4, L, _, _, _, hle, hl3, _⟩ := scheduleLoop_ok hok
    have hinv := retryLoop_inv
      (fun d : Driver => d.MII ≤ d.CriticalPathEnd ∨ 4294967295 ≤ d.MII)
      (fun d hd => hd)
      (fun d hd => by
        unfold retryState Driver.getCriticalPathLength Driver.increaseMII
          Driver.lengthenCriticalPath wrap32
        split_ifs with hc
        · simp only
          unfold Driver.getCriticalPathLength at hc
          omega
        · simp only
          unfold Driver.getCriticalPathLength at hc
          omega)
      hl3 (Or.inl hle)
    unfold Driver.getCriticalPathLength
    simp only at hinv
    omega
  · intro d hle hfit
    unfold retryState Driver.getCriticalPathLength Driver.increaseMII
      Driver.lengthenCriticalPath wrap32
    unfold Driver.getCriticalPathLength at hle
    split_ifs with hc
    · simp only at hc ⊢
      omega
    · simp only at hc ⊢
      omega

/-- C16 (witness): the loop example records the interval 2 with the critical-path length 3,
and a failed attempt at MII = 3 with critical-path length 3 lengthens the critical path. -/
theorem scheduleLoop_II_le_critical_path_witness :
    (mapFind exGLoop.EntryBB exLoopScheduled.G.IIMap = some exLoopScheduled.driver.MII ∧
      exLoopScheduled.driver.MII ≤ exLoopScheduled.driver.getCriticalPathLength) ∧
    (retryState { ({ MII := 3, CriticalPathEnd := 3 } : Driver) with
        Attempts := ({ MII := 3, CriticalPathEnd := 3 } : Driver).Attempts + 1 }).MII ≤
      (retryState { ({ MII := 3, CriticalPathEnd := 3 } : Driver) with
        Attempts := ({ MII := 3, CriticalPathEnd := 3 } : Driver).Attempts + 1
          }).getCriticalPathLength :=
  ⟨(scheduleLoop_II_le_critical_path exScheduler (fun _ => 0) (fun _ => 10) 5 exHeapLoop
      exGLoop { CriticalPathEnd := 1 }).1 exLoopScheduled rfl (by decide),
    (scheduleLoop_II_le_critical_path exScheduler (fun _ => 0) (fun _ => 10) 5 exHeapLoop
      exGLoop { CriticalPathEnd := 1 }).2 { MII := 3, CriticalPathEnd := 3 } (by decide)
      (by decide)⟩

theorem failedAttempts_succ (attempt : Driver → Heap → Bool × (Nat → Nat))
    (retry : Driver → Driver) (n : Nat) (d : Driver) (h : Heap) :
    failedAttempts attempt retry (n + 1) d h =
      (retry { (failedAttempts attempt retry n d h).1 with
          Attempts := (failedAttempts attempt retry n d h).1.Attempts + 1 },
        (failedAttempts attempt retry n d h).2.withSlots
          (attempt (failedAttempts attempt retry n d h).1
            (failedAttempts attempt retry n d h).2).2) := by
  induction n generalizing d h with
  | zero => rfl
  | succ n ih =>
    have hdef : ∀ m (d : Driver) (h : Heap), failedAttempts attempt retry (m + 1) d h =
        failedAttempts attempt retry m (retry { d with Attempts := d.Attempts + 1 })
          (h.withSlots (attempt d h).2) := fun _ _ _ => rfl
    rw [hdef (n + 1) d h, ih, hdef n d h]

/-- A retry loop that ends has made a number of failed attempts, each followed by the body
of the loop, and then one attempt that succeeded. -/
theorem retryLoop_trace {attempt : Driver → Heap → Bool × (Nat → Nat)}
    {retry : Driver → Driver} {fuel : Nat} {d : Driver} {h : Heap} {x : Driver × Heap}
    (hok : retryLoop attempt retry fuel d h = some x) :
    ∃ n, n < fuel ∧
      (∀ k, k < n → (attempt (failedAttempts attempt retry k d h).1
        (failedAttempts attempt retry k d h).2).1 = false) ∧
      (attempt (failedAttempts attempt retry n d h).1
        (failedAttempts attempt retry n d h).2).1 = true ∧
      x = ({ (failedAttempts attempt retry n d h).1 with
            Attempts := (failedAttempts attempt retry n d h).1.Attempts + 1 },
          (failedAttempts attempt retry n d h).2.withSlots
            (attempt (failedAttempts attempt retry n d h).1
              (failedAttempts attempt retry n d h).2).2) := by
  induction fuel generalizing d h with
  | zero => simp [retryLoop] at hok
  | succ m ih =>
    rcases retryLoop_succ hok with ⟨hs, hx⟩ | ⟨hf, hrec⟩
    · exact ⟨0, Nat.succ_pos _, fun k hk => absurd hk (Nat.not_lt_zero k), hs, hx⟩
    · obtain ⟨n, hn, hfail, hsucc, hx⟩ := ih hrec
      refine ⟨n + 1, Nat.succ_lt_succ hn, ?_, hsucc, hx⟩
      intro k hk
      cases k with
      | zero => exact hf
      | succ j => exact hfail j (Nat.lt_of_succ_lt_succ hk)

theorem failedAttempts_bounds {attempt : Driver → Heap → Bool × (Nat → Nat)}
    {retry : Driver → Driver}
    (hretry : ∀ d : Driver, d.MII + 1 < 4294967296 → d.CriticalPathEnd + 1 < 4294967296 →
      oneBoundUp d (retry d))
    (n : Nat) (d : Driver) (h : Heap) (hM : d.MII + n < 4294967296)
    (hC : d.CriticalPathEnd + n < 4294967296) :
    d.MII ≤ (failedAttempts attempt retry n d h).1.MII ∧
    d.CriticalPathEnd ≤ (failedAttempts attempt retry n d h).1.CriticalPathEnd ∧
    (failedAttempts attempt retry n d h).1.MII +
      (failedAttempts attempt retry n d h).1.CriticalPathEnd =
        d.MII + d.CriticalPathEnd + n := by
  induction n generalizing d h with
  | zero => exact ⟨le_refl _, le_refl _, rfl⟩
  | succ n ih =>
    have hdef : failedAttempts attempt retry (n + 1) d h =
        failedAttempts attempt retry n (retry { d with Attempts := d.Attempts + 1 })
          (h.withSlots (attempt d h).2) := rfl
    rw [hdef]
    have hstep := hretry { d with Attempts := d.Attempts + 1 } (by simp only; omega)
      (by simp only; omega)
    unfold oneBoundUp at hstep
    simp only at hstep
    have := ih (retry { d with Attempts := d.Attempts + 1 }) (h.withSlots (attempt d h).2)
      (by omega) (by omega)
    omega

theorem failedAttempts_step {attempt : Driver → Heap → Bool × (Nat → Nat)}
    {retry : Driver → Driver}
    (hretry : ∀ d : Driver, d.MII + 1 < 4294967296 → d.CriticalPathEnd + 1 < 4294967296 →
      oneBoundUp d (retry d))
    (n : Nat) (d : Driver) (h : Heap) (hM : d.MII + n < 4294967296)
    (hC : d.CriticalPathEnd + n < 4294967296) (k : Nat) (hk : k < n) :
    oneBoundUp (failedAttempts attempt retry k d h).1
      (failedAttempts attempt retry (k + 1) d h).1 := by
  have hb := @failedAttempts_bounds attempt retry hretry k d h (by omega) (by omega)
  rw [failedAttempts_succ]
  have hstep := hretry { (failedAttempts attempt retry k d h).1 with
      Attempts := (failedAttempts attempt retry k d h).1.Attempts + 1 }
    (by simp only; omega) (by simp only; omega)
  exact hstep

theorem retry_bodies (d : Driver) (hM : d.MII + 1 < 4294967296)
    (hC : d.CriticalPathEnd + 1 < 4294967296) :
    oneBoundUp d d.lengthenCriticalPath ∧ oneBoundUp d (retryCriticalPath d) ∧
      oneBoundUp d (retryState d) := by
  have e1 : wrap32 ((d.MII : Int) + 1) = d.MII + 1 := by unfold wrap32; omega
  have e2 : wrap32 ((d.CriticalPathEnd : Int) + 1) = d.CriticalPathEnd + 1 := by
    unfold wrap32; omega
  refine ⟨Or.inr ⟨rfl, e2⟩, ?_, ?_⟩
  · unfold retryCriticalPath
    split_ifs
    · exact Or.inl ⟨e1, rfl⟩
    · exact Or.inr ⟨rfl, e2⟩
  · unfold retryState
    split_ifs
    · exact Or.inl ⟨e1, rfl⟩
    · exact Or.inr ⟨rfl, e2⟩

/-- C17: in each of the three loops of scheduleLoop a failed feasibility attempt is followed
by the body of the loop and a further attempt; as long as the unsigned counters do not wrap
around, the body increases exactly one of the two bounds (MII or the critical-path bound) by
one and leaves the other unchanged.  Whenever scheduleLoop returns normally, the second loop
has made n2 and the third loop n3 failed attempts before the attempt that succeeded; as long
as the value of computeMII and the critical-path bound at computeMII, each plus n2 + n3, are
unsigned 32-bit values, every one of these failed attempts moved exactly one bound up by
one, neither bound is below its value at computeMII, the two bounds together have grown by
n2 + n3, and the recorded interval is the final MII, which is >= the MII that computeMII
produced. -/
theorem scheduleLoop_retry_monotone (S : ModuloScheduler) (unrecorded getEndSlot : Nat → Nat)
    (fuel : Nat) (h : Heap) (G : VSchedGraph) (d0 : Driver) :
    (∀ (k : Nat) (d : Driver) (hc : Heap),
      ((S.scheduleCriticalPath d hc).1 = false →
        retryLoop S.scheduleCriticalPath Driver.lengthenCriticalPath (k + 1) d hc =
          retryLoop S.scheduleCriticalPath Driver.lengthenCriticalPath k
            (Driver.lengthenCriticalPath { d with Attempts := d.Attempts + 1 })
            (hc.withSlots (S.scheduleCriticalPath d hc).2) ∧
        retryLoop S.scheduleCriticalPath retryCriticalPath (k + 1) d hc =
          retryLoop S.scheduleCriticalPath retryCriticalPath k
            (retryCriticalPath { d with Attempts := d.Attempts + 1 })
            (hc.withSlots (S.scheduleCriticalPath d hc).2)) ∧
      ((S.scheduleState d hc).1 = false →
        retryLoop S.scheduleState retryState (k + 1) d hc =
          retryLoop S.scheduleState retryState k
            (retryState { d with Attempts := d.Attempts + 1 })
            (hc.withSlots (S.scheduleState d hc).2))) ∧
    (∀ d : Driver, d.MII + 1 < 4294967296 → d.CriticalPathEnd + 1 < 4294967296 →
      (d.lengthenCriticalPath.MII = d.MII ∧
        d.lengthenCriticalPath.CriticalPathEnd = d.CriticalPathEnd + 1) ∧
      (((retryCriticalPath d).MII = d.MII + 1 ∧
          (retryCriticalPath d).CriticalPathEnd = d.CriticalPathEnd) ∨
        ((retryCriticalPath d).MII = d.MII ∧
          (retryCriticalPath d).CriticalPathEnd = d.CriticalPathEnd + 1)) ∧
      (((retryState d).MII = d.MII + 1 ∧
          (retryState d).CriticalPathEnd = d.CriticalPathEnd) ∨
        ((retryState d).MII = d.MII ∧
          (retryState d).CriticalPathEnd = d.CriticalPathEnd + 1))) ∧
    (∀ r, scheduleLoop S unrecorded getEndSlot fuel h G d0 = some (.ok r) →
      ∃ d1 h1 n2 d3 h3 n3,
        retryLoop S.scheduleCriticalPath Driver.lengthenCriticalPath fuel d0 h =
          some (d1, h1) ∧
        r.computedMII = wrap32 (S.computeMII d1 h1 : Int) ∧
        (∀ k, k < n2 → (S.scheduleCriticalPath
          (failedAttempts S.scheduleCriticalPath retryCriticalPath k
            { d1 with MII := r.computedMII } h1).1
          (failedAttempts S.scheduleCriticalPath retryCriticalPath k
            { d1 with MII := r.computedMII } h1).2).1 = false) ∧
        d3.MII = (failedAttempts S.scheduleCriticalPath retryCriticalPath n2
            { d1 with MII := r.computedMII } h1).1.MII ∧
        d3.CriticalPathEnd = (failedAttempts S.scheduleCriticalPath retryCriticalPath n2
            { d1 with MII := r.computedMII } h1).1.CriticalPathEnd ∧
        (∀ k, k < n3 → (S.scheduleState
          (failedAttempts S.scheduleState retryState k d3 h3).1
          (failedAttempts S.scheduleState retryState k d3 h3).2).1 = false) ∧
        r.driver.MII = (failedAttempts S.scheduleState retryState n3 d3 h3).1.MII ∧
        r.driver.CriticalPathEnd =
          (failedAttempts S.scheduleState retryState n3 d3 h3).1.CriticalPathEnd ∧
        mapFind G.EntryBB r.G.IIMap = some r.driver.MII ∧
        (r.computedMII + n2 + n3 < 4294967296 →
          d1.CriticalPathEnd + n2 + n3 < 4294967296 →
          (∀ k, k < n2 → oneBoundUp
            (failedAttempts S.scheduleCriticalPath retryCriticalPath k
              { d1 with MII := r.computedMII } h1).1
            (failedAttempts S.scheduleCriticalPath retryCriticalPath (k + 1)
              { d1 with MII := r.computedMII } h1).1) ∧
          (∀ k, k < n3 → oneBoundUp (failedAttempts S.scheduleState retryState k d3 h3).1
            (failedAttempts S.scheduleState retryState (k + 1) d3 h3).1) ∧
          r.computedMII ≤ d3.MII ∧ d3.MII ≤ r.driver.MII ∧
          d1.CriticalPathEnd ≤ d3.CriticalPathEnd ∧
          d3.CriticalPathEnd ≤ r.driver.CriticalPathEnd ∧
          r.driver.MII + r.driver.CriticalPathEnd =
            r.computedMII + d1.CriticalPathEnd + n2 + n3)) ∧
    (∀ r, scheduleLoop S unrecorded getEndSlot fuel h G d0 = some (.ok r) →
      r.computedMII + r.driver.Attempts < 4294967296 →
      mapFind G.EntryBB r.G.IIMap = some r.driver.MII ∧ r.computedMII ≤ r.driver.MII) := by
  refine ⟨?_, ?_, ?_, ?_⟩
  · intro k d hc
    constructor
    · intro hf
      constructor
      · simp only [retryLoop, hf, Bool.false_eq_true, if_false]
      · simp only [retryLoop, hf, Bool.false_eq_true, if_false]
    · intro hf
      simp only [retryLoop, hf, Bool.false_eq_true, if_false]
  · intro d hM hC
    have e1 : wrap32 ((d.MII : Int) + 1) = d.MII + 1 := by unfold wrap32; omega
    have e2 : wrap32 ((d.CriticalPathEnd : Int) + 1) = d.CriticalPathEnd + 1 := by
      unfold wrap32; omega
    refine ⟨⟨rfl, e2⟩, ?_, ?_⟩
    · unfold retryCriticalPath
      split_ifs
      · exact Or.inl ⟨e1, rfl⟩
      · exact Or.inr ⟨rfl, e2⟩
    · unfold retryState
      split_ifs
      · exact Or.inl ⟨e1, rfl⟩
      · exact Or.inr ⟨rfl, e2⟩
  · intro r hok
    obtain ⟨d1, h1, d3, h3, h4, L, hl1, hcomp, hl2, _, hl3, _⟩ := scheduleLoop_ok hok
    obtain ⟨n2, _, hfail2, _, hx2⟩ := retryLoop_trace hl2
    obtain ⟨n3, _, hfail3, _, hx3⟩ := retryLoop_trace hl3
    have hd3 := (Prod.mk.inj hx2).1
    have hh3 := (Prod.mk.inj hx2).2
    have hd4 := (Prod.mk.inj hx3).1
    have hd3M : d3.MII = (failedAttempts S.scheduleCriticalPath retryCriticalPath n2
        { d1 with MII := r.computedMII } h1).1.MII := by rw [hd3]
    have hd3C : d3.CriticalPathEnd = (failedAttempts S.scheduleCriticalPath
        retryCriticalPath n2 { d1 with MII := r.computedMII } h1).1.CriticalPathEnd := by
      rw [hd3]
    have hd4M : r.driver.MII = (failedAttempts S.scheduleState retryState n3 d3 h3).1.MII := by
      rw [hd4]
    have hd4C : r.driver.CriticalPathEnd =
        (failedAttempts S.scheduleState retryState n3 d3 h3).1.CriticalPathEnd := by
      rw [hd4]
    refine ⟨d1, h1, n2, d3, h3, n3, hl1, hcomp, hfail2, hd3M, hd3C, hfail3, hd4M, hd4C,
      scheduleLoop_recorded hok, ?_⟩
    intro hfitM hfitC
    have hb2 := @failedAttempts_bounds S.scheduleCriticalPath retryCriticalPath
      (fun d hM hC => (retry_bodies d hM hC).2.1) n2 { d1 with MII := r.computedMII } h1
      (by simp only; omega) (by simp only; omega)
    simp only at hb2
    rw [← hd3M, ← hd3C] at hb2
    have hb3 := @failedAttempts_bounds S.scheduleState retryState
      (fun d hM hC => (retry_bodies d hM hC).2.2) n3 d3 h3 (by omega) (by omega)
    rw [← hd4M, ← hd4C] at hb3
    refine ⟨?_, ?_, hb2.1, hb3.1, hb2.2.1, hb3.2.1, by omega⟩
    · intro k hk
      exact failedAttempts_step (fun d hM hC => (retry_bodies d hM hC).2.1) n2 _ h1
        (by simp only; omega) (by simp only; omega) k hk
    · intro k hk
      exact failedAttempts_step (fun d hM hC => (retry_bodies d hM hC).2.2) n3 d3 h3
        (by omega) (by omega) k hk
  · intro r hok hfit
    refine ⟨scheduleLoop_recorded hok, ?_⟩
    obtain ⟨d1, h1, d3, h3, h4, L, _, _, hl2, _, hl3, _⟩ := scheduleLoop_ok hok
    have hlt3 := retryLoop_attempts (fun d => (retry_steps d).2.2.2.1) hl3
    have hQ3 := retryLoop_mii_lower r.computedMII (fun d => (retry_steps d).2.2.1) hl2
      (by omega) ⟨le_refl _, by simp⟩
    exact (retryLoop_mii_lower r.computedMII (fun d => (retry_steps d).2.2.2) hl3 hfit hQ3).1

/-- C17 (witness): in the third loop a failed attempt at MII = 1 and critical-path bound 3
is followed by the body, which increases MII; the loop example returns normally after failed
attempts that each moved one bound up by one, and records the interval 2 >= the computed
MII 1. -/
theorem scheduleLoop_retry_monotone_witness :
    retryLoop exScheduler.scheduleState retryState (4 + 1) { MII := 1, CriticalPathEnd := 3 }
        exHeapLoop =
      retryLoop exScheduler.scheduleState retryState 4
        (retryState { ({ MII := 1, CriticalPathEnd := 3 } : Driver) with
          Attempts := ({ MII := 1, CriticalPathEnd := 3 } : Driver).Attempts + 1 })
        (exHeapLoop.withSlots
          (exScheduler.scheduleState { MII := 1, CriticalPathEnd := 3 } exHeapLoop).2) ∧
    (((retryState { MII := 1, CriticalPathEnd := 3 }).MII = 1 + 1 ∧
        (retryState { MII := 1, CriticalPathEnd := 3 }).CriticalPathEnd = 3) ∨
      ((retryState { MII := 1, CriticalPathEnd := 3 }).MII = 1 ∧
        (retryState { MII := 1, CriticalPathEnd := 3 }).CriticalPathEnd = 3 + 1)) ∧
    (∃ d1 h1 n2 d3 h3 n3,
      retryLoop exScheduler.scheduleCriticalPath Driver.lengthenCriticalPath 5
          { CriticalPathEnd := 1 } exHeapLoop = some (d1, h1) ∧
      exLoopScheduled.computedMII = wrap32 (exScheduler.computeMII d1 h1 : Int) ∧
      (∀ k, k < n2 → (exScheduler.scheduleCriticalPath
        (failedAttempts exScheduler.scheduleCriticalPath retryCriticalPath k
          { d1 with MII := exLoopScheduled.computedMII } h1).1
        (failedAttempts exScheduler.scheduleCriticalPath retryCriticalPath k
          { d1 with MII := exLoopScheduled.computedMII } h1).2).1 = false) ∧
      d3.MII = (failedAttempts exScheduler.scheduleCriticalPath retryCriticalPath n2
          { d1 with MII := exLoopScheduled.computedMII } h1).1.MII ∧
      d3.CriticalPathEnd = (failedAttempts exScheduler.scheduleCriticalPath
          retryCriticalPath n2
          { d1 with MII := exLoopScheduled.computedMII } h1).1.CriticalPathEnd ∧
      (∀ k, k < n3 → (exScheduler.scheduleState
        (failedAttempts exScheduler.scheduleState retryState k d3 h3).1
        (failedAttempts exScheduler.scheduleState retryState k d3 h3).2).1 = false) ∧
      exLoopScheduled.driver.MII =
        (failedAttempts exScheduler.scheduleState retryState n3 d3 h3).1.MII ∧
      exLoopScheduled.driver.CriticalPathEnd =
        (failedAttempts exScheduler.scheduleState retryState n3 d3 h3).1.CriticalPathEnd ∧
      mapFind exGLoop.EntryBB exLoopScheduled.G.IIMap = some exLoopScheduled.driver.MII ∧
      (exLoopScheduled.computedMII + n2 + n3 < 4294967296 →
        d1.CriticalPathEnd + n2 + n3 < 4294967296 →
        (∀ k, k < n2 → oneBoundUp
          (failedAttempts exScheduler.scheduleCriticalPath retryCriticalPath k
            { d1 with MII := exLoopScheduled.computedMII } h1).1
          (failedAttempts exScheduler.scheduleCriticalPath retryCriticalPath (k + 1)
            { d1 with MII := exLoopScheduled.computedMII } h1).1) ∧
        (∀ k, k < n3 → oneBoundUp
          (failedAttempts exScheduler.scheduleState retryState k d3 h3).1
          (failedAttempts exScheduler.scheduleState retryState (k + 1) d3 h3).1) ∧
        exLoopScheduled.computedMII ≤ d3.MII ∧ d3.MII ≤ exLoopScheduled.driver.MII ∧
        d1.CriticalPathEnd ≤ d3.CriticalPathEnd ∧
        d3.CriticalPathEnd ≤ exLoopScheduled.driver.CriticalPathEnd ∧
        exLoopScheduled.driver.MII + exLoopScheduled.driver.CriticalPathEnd =
          exLoopScheduled.computedMII + d1.CriticalPathEnd + n2 + n3)) ∧
    (mapFind exGLoop.EntryBB exLoopScheduled.G.IIMap = some exLoopScheduled.driver.MII ∧
      exLoopScheduled.computedMII ≤ exLoopScheduled.driver.MII) ∧
    exLoopScheduled.computedMII = 1 ∧ exLoopScheduled.driver.MII = 2 ∧
    exLoopScheduled.driver.CriticalPathEnd = 3 :=
  ⟨((scheduleLoop_retry_monotone exScheduler (fun _ => 0) (fun _ => 10) 5 exHeapLoop
      exGLoop { CriticalPathEnd := 1 }).1 4 { MII := 1, CriticalPathEnd := 3 }
      exHeapLoop).2 rfl,
    ((scheduleLoop_retry_monotone exScheduler (fun _ => 0) (fun _ => 10) 5 exHeapLoop
      exGLoop { CriticalPathEnd := 1 }).2.1 { MII := 1, CriticalPathEnd := 3 } (by decide)
      (by decide)).2.2,
    (scheduleLoop_retry_monotone exScheduler (fun _ => 0) (fun _ => 10) 5 exHeapLoop
      exGLoop { CriticalPathEnd := 1 }).2.2.1 exLoopScheduled rfl,
    (scheduleLoop_retry_monotone exScheduler (fun _ => 0) (fun _ => 10) 5 exHeapLoop
      exGLoop { CriticalPathEnd := 1 }).2.2.2 exLoopScheduled rfl (by decide),
    by decide, by decide, by decide⟩

theorem filter_length_mono {l : List Nat} {q0 q1 : Nat → Bool}
    (himp : ∀ p, q1 p = true → q0 p = true) :
    (l.filter q1).length ≤ (l.filter q0).length ∧
    (∀ x ∈ l, q0 x = true → q1 x = false →
      (l.filter q1).length + 1 ≤ (l.filter q0).length) := by
  induction l with
  | nil => exact ⟨le_refl _, fun x hx => by cases hx⟩
  | cons a r ih =>
    obtain ⟨ih1, ih2⟩ := ih
    cases h1 : q1 a with
    | true =>
      have h0 := himp a h1
      rw [List.filter_cons, List.filter_cons, h1, h0]
      simp only [if_true, List.length_cons]
      refine ⟨by omega, fun x hx hx0 hx1 => ?_⟩
      rcases List.mem_cons.1 hx with rfl | hx
      · rw [h1] at hx1; cases hx1
      · have := ih2 x hx hx0 hx1
        omega
    | false =>
      cases h0 : q0 a with
      | true =>
        rw [List.filter_cons, List.filter_cons, h1, h0]
        simp only [if_true, Bool.false_eq_true, if_false, List.length_cons]
        exact ⟨by omega, fun x hx hx0 hx1 => by omega⟩
      | false =>
        rw [List.filter_cons, List.filter_cons, h1, h0]
        simp only [Bool.false_eq_true, if_false]
        refine ⟨ih1, fun x hx hx0 hx1 => ?_⟩
        rcases List.mem_cons.1 hx with rfl | hx
        · rw [h0] at hx0; cases hx0
        · exact ih2 x hx hx0 hx1

theorem mem_le_sum_map (f : Nat → Nat) (l : List Nat) (x : Nat) (hx : x ∈ l) :
    f x ≤ (l.map f).sum := by
  induction l with
  | nil => cases hx
  | cons a r ih =>
    rw [List.map_cons, List.sum_cons]
    rcases List.mem_cons.1 hx with rfl | hx
    · omega
    · have := ih hx
      omega

theorem workSize_cons (U : Nat) (it : List Nat) (st : List (Nat × List Nat)) :
    workSize ((U, it) :: st) = it.length + 1 + workSize st := by
  simp [workSize]

theorem clearDanglingLoop_correct (h : Heap) (Root : Nat) (Us : List Nat) (D : Nat)
    (hclosed : ∀ u ∈ Us, ∀ d ∈ (h u).Deps.map Prod.fst, d ∈ Us)
    (hD : ∀ u ∈ Us, ((h u).Deps.map Prod.fst).length ≤ D) :
    ∀ (fuel : Nat) (hc : Heap) (stack : List (Nat × List Nat)),
      SameGraph h hc →
      (∀ f ∈ stack, f.1 ∈ Us ∧ (hc f.1).IsDangling = false ∧
        (h f.1).ParentBB = (h Root).ParentBB ∧ DepChain h Root f.1 ∧
        ∀ d ∈ f.2, d ∈ (h f.1).Deps.map Prod.fst) →
      (∀ c, (hc c).IsDangling = false → ClosedAt h hc c ∨
        ∃ f ∈ stack, f.1 = c ∧ ∀ d ∈ (h c).Deps.map Prod.fst,
          (h d).ParentBB = (h c).ParentBB → (hc d).IsDangling = false ∨ d ∈ f.2) →
      danglingCount Us hc * (D + 1) + workSize stack < fuel →
      ∃ h1, clearDanglingLoop (h Root).ParentBB fuel hc stack = some h1 ∧ SameGraph h h1 ∧
        (∀ p, (hc p).IsDangling = false → (h1 p).IsDangling = false) ∧
        (∀ p, (h1 p).IsDangling = false → (hc p).IsDangling = false ∨ DepChain h Root p) ∧
        (∀ c, (h1 c).IsDangling = false → ClosedAt h h1 c) := by
  intro fuel
  induction fuel with
  | zero =>
    intro hc stack _ _ _ hlt
    omega
  | succ n ih =>
    intro hc stack hsame hstack hinv hlt
    cases stack with
    | nil =>
      refine ⟨hc, by simp [clearDanglingLoop], hsame, fun p hp => hp, fun p hp => Or.inl hp, ?_⟩
      intro c hcnd
      rcases hinv c hcnd with hcl | ⟨f, hf, _⟩
      · exact hcl
      · cases hf
    | cons fr st =>
      obtain ⟨U, it⟩ := fr
      have hU := hstack (U, it) (List.mem_cons_self _ _)
      simp only at hU
      cases it with
      | nil =>
        simp only [clearDanglingLoop]
        refine ih hc st hsame (fun f hf => hstack f (List.mem_cons_of_mem _ hf)) ?_ ?_
        · intro c hcnd
          rcases hinv c hcnd with hcl | ⟨f, hf, hfc, hpend⟩
          · exact Or.inl hcl
          · rcases List.mem_cons.1 hf with rfl | hf
            · left
              intro d hd hbb
              rcases hpend d hd hbb with hnd | hmem
              · exact hnd
              · cases hmem
            · exact Or.inr ⟨f, hf, hfc, hpend⟩
        · rw [workSize_cons] at hlt
          simp only [List.length_nil] at hlt
          omega
      | cons ch rest =>
        by_cases hskip : (hc ch).IsDangling = false ∨ (hc ch).ParentBB ≠ (h Root).ParentBB
        · simp only [clearDanglingLoop, if_pos hskip]
          refine ih hc ((U, rest) :: st) hsame ?_ ?_ ?_
          · intro f hf
            rcases List.mem_cons.1 hf with rfl | hf
            · exact ⟨hU.1, hU.2.1, hU.2.2.1, hU.2.2.2.1,
                fun d hd => hU.2.2.2.2 d (List.mem_cons_of_mem _ hd)⟩
            · exact hstack f (List.mem_cons_of_mem _ hf)
          · intro c hcnd
            rcases hinv c hcnd with hcl | ⟨f, hf, hfc, hpend⟩
            · exact Or.inl hcl
            · rcases List.mem_cons.1 hf with rfl | hf
              · right
                have hUc : U = c := hfc
                refine ⟨(U, rest), List.mem_cons_self _ _, hfc, fun d hd hbb => ?_⟩
                rcases hpend d hd hbb with hnd | hmem
                · exact Or.inl hnd
                · rcases List.mem_cons.1 hmem with rfl | hmem
                  · left
                    rcases hskip with hs | hs
                    · exact hs
                    · exfalso
                      apply hs
                      rw [(hsame d).2.1, hbb, ← hUc]
                      exact hU.2.2.1
                  · exact Or.inr hmem
              · exact Or.inr ⟨f, List.mem_cons_of_mem _ hf, hfc, hpend⟩
          · rw [workSize_cons] at hlt ⊢
            simp only [List.length_cons] at hlt
            omega
        · simp only [clearDanglingLoop, if_neg hskip]
          have hdang : (hc ch).IsDangling = true := by
            cases hd : (hc ch).IsDangling with
            | true => rfl
            | false => exact absurd (Or.inl hd) hskip
          have hbbch : (hc ch).ParentBB = (h Root).ParentBB := by
            by_contra hne
            exact hskip (Or.inr hne)
          have hchU : ch ∈ (h U).Deps.map Prod.fst := hU.2.2.2.2 ch (List.mem_cons_self _ _)
          have hchUs : ch ∈ Us := hclosed U hU.1 ch hchU
          have hother : ∀ p, p ≠ ch →
              (hc.set ch { hc ch with IsDangling := false }) p = hc p :=
            fun p hp => Heap.set_other _ _ hp
          have hmono : ∀ p, (hc p).IsDangling = false →
              ((hc.set ch { hc ch with IsDangling := false }) p).IsDangling = false := by
            intro p hp
            by_cases hpc : p = ch
            · subst hpc; simp
            · rw [hother p hpc]; exact hp
          have hsame1 : SameGraph h (hc.set ch { hc ch with IsDangling := false }) := by
            intro p
            by_cases hpc : p = ch
            · subst hpc
              simp only [Heap.set_same]
              exact hsame p
            · rw [hother p hpc]; exact hsame p
          have hchain : DepChain h Root ch :=
            DepChain.step hU.2.2.2.1 hchU (by rw [← (hsame ch).2.1]; exact hbbch)
          have hstack1 : ∀ f ∈ ((ch, ((hc.set ch { hc ch with IsDangling := false }) ch).Deps.map
                Prod.fst) :: (U, rest) :: st),
              f.1 ∈ Us ∧ ((hc.set ch { hc ch with IsDangling := false }) f.1).IsDangling = false ∧
              (h f.1).ParentBB = (h Root).ParentBB ∧ DepChain h Root f.1 ∧
              ∀ d ∈ f.2, d ∈ (h f.1).Deps.map Prod.fst := by
            intro f hf
            rcases List.mem_cons.1 hf with rfl | hf
            · refine ⟨hchUs, by simp, by rw [← (hsame ch).2.1]; exact hbbch, hchain, ?_⟩
              intro d hd
              simp only [Heap.set_same] at hd
              rw [(hsame ch).1] at hd
              exact hd
            · rcases List.mem_cons.1 hf with rfl | hf
              · exact ⟨hU.1, hmono _ hU.2.1, hU.2.2.1, hU.2.2.2.1,
                  fun d hd => hU.2.2.2.2 d (List.mem_cons_of_mem _ hd)⟩
              · have := hstack f (List.mem_cons_of_mem _ hf)
                exact ⟨this.1, hmono _ this.2.1, this.2.2⟩
          have hclmono : ∀ c, ClosedAt h hc c →
              ClosedAt h (hc.set ch { hc ch with IsDangling := false }) c :=
            fun c hcl d hd hbb => hmono d (hcl d hd hbb)
          have hinv1 : ∀ c, ((hc.set ch { hc ch with IsDangling := false }) c).IsDangling = false →
              ClosedAt h (hc.set ch { hc ch with IsDangling := false }) c ∨
              ∃ f ∈ ((ch, ((hc.set ch { hc ch with IsDangling := false }) ch).Deps.map
                  Prod.fst) :: (U, rest) :: st),
                f.1 = c ∧ ∀ d ∈ (h c).Deps.map Prod.fst, (h d).ParentBB = (h c).ParentBB →
                  ((hc.set ch { hc ch with IsDangling := false }) d).IsDangling = false ∨
                    d ∈ f.2 := by
            intro c hcnd
            by_cases hcc : c = ch
            · subst hcc
              right
              refine ⟨_, List.mem_cons_self _ _, rfl, fun d hd _ => Or.inr ?_⟩
              simp only [Heap.set_same]
              rw [(hsame c).1]
              exact hd
            · rw [hother c hcc] at hcnd
              rcases hinv c hcnd with hcl | ⟨f, hf, hfc, hpend⟩
              · exact Or.inl (hclmono c hcl)
              · right
                rcases List.mem_cons.1 hf with rfl | hf
                · refine ⟨(U, rest), List.mem_cons_of_mem _ (List.mem_cons_self _ _), hfc,
                    fun d hd hbb => ?_⟩
                  rcases hpend d hd hbb with hnd | hmem
                  · exact Or.inl (hmono d hnd)
                  · rcases List.mem_cons.1 hmem with rfl | hmem
                    · left; simp
                    · exact Or.inr hmem
                · refine ⟨f, List.mem_cons_of_mem _ (List.mem_cons_of_mem _ hf), hfc,
                    fun d hd hbb => ?_⟩
                  rcases hpend d hd hbb with hnd | hmem
                  · exact Or.inl (hmono d hnd)
                  · exact Or.inr hmem
          have hcount : danglingCount Us (hc.set ch { hc ch with IsDangling := false }) + 1 ≤
              danglingCount Us hc := by
            unfold danglingCount
            refine (filter_length_mono ?_).2 ch hchUs hdang (by simp)
            intro p hp
            by_contra hne
            have hf : (hc p).IsDangling = false := by
              cases hv : (hc p).IsDangling with
              | true => exact absurd hv hne
              | false => rfl
            rw [hmono p hf] at hp
            cases hp
          have hlen : (((hc.set ch { hc ch with IsDangling := false }) ch).Deps.map
              Prod.fst).length ≤ D := by
            simp only [Heap.set_same]
            rw [(hsame ch).1]
            exact hD ch hchUs
          have hmul := Nat.mul_le_mul_right (D + 1) hcount
          rw [Nat.add_mul, Nat.one_mul] at hmul
          have hlt1 : danglingCount Us (hc.set ch { hc ch with IsDangling := false }) * (D + 1) +
              workSize ((ch, ((hc.set ch { hc ch with IsDangling := false }) ch).Deps.map
                Prod.fst) :: (U, rest) :: st) < n := by
            rw [workSize_cons, workSize_cons]
            rw [workSize_cons] at hlt
            simp only [List.length_cons] at hlt
            generalize danglingCount Us (hc.set ch { hc ch with IsDangling := false }) * (D + 1)
              = A at hmul ⊢
            generalize danglingCount Us hc * (D + 1) = B at hmul hlt
            omega
          obtain ⟨h1, hrun, hs1, hm1, hsound1, hcl1⟩ := ih _ _ hsame1 hstack1 hinv1 hlt1
          refine ⟨h1, hrun, hs1, fun p hp => hm1 p (hmono p hp), fun p hp => ?_, hcl1⟩
          rcases hsound1 p hp with hnd | hch
          · by_cases hpc : p = ch
            · subst hpc; exact Or.inr hchain
            · rw [hother p hpc] at hnd; exact Or.inl hnd
          · exact Or.inr hch

theorem clearDanglingFlagForTree_correct (h : Heap) (Us : List Nat) (D : Nat)
    (hclosed : ∀ u ∈ Us, ∀ d ∈ (h u).Deps.map Prod.fst, d ∈ Us)
    (hD : ∀ u ∈ Us, ((h u).Deps.map Prod.fst).length ≤ D)
    (fuel : Nat) (hc : Heap) (Root : Nat) (hRoot : Root ∈ Us) (hsame : SameGraph h hc)
    (hcl : ∀ c, (hc c).IsDangling = false → ClosedAt h hc c)
    (hfuel : danglingCount Us hc * (D + 1) + D + 1 < fuel) :
    ∃ h1, clearDanglingFlagForTree fuel hc Root = some h1 ∧ SameGraph h h1 ∧
      (∀ p, (hc p).IsDangling = false → (h1 p).IsDangling = false) ∧
      (h1 Root).IsDangling = false ∧
      (∀ p, (h1 p).IsDangling = false → (hc p).IsDangling = false ∨ DepChain h Root p) ∧
      (∀ c, (h1 c).IsDangling = false → ClosedAt h h1 c) := by
  have hother : ∀ p, p ≠ Root →
      (hc.set Root { hc Root with IsDangling := false }) p = hc p :=
    fun p hp => Heap.set_other _ _ hp
  have hmono : ∀ p, (hc p).IsDangling = false →
      ((hc.set Root { hc Root with IsDangling := false }) p).IsDangling = false := by
    intro p hp
    by_cases hpc : p = Root
    · subst hpc; simp
    · rw [hother p hpc]; exact hp
  have hsame1 : SameGraph h (hc.set Root { hc Root with IsDangling := false }) := by
    intro p
    by_cases hpc : p = Root
    · subst hpc
      simp only [Heap.set_same]
      exact hsame p
    · rw [hother p hpc]; exact hsame p
  have hbb : ((hc.set Root { hc Root with IsDangling := false }) Root).ParentBB =
      (h Root).ParentBB := (hsame1 Root).2.1
  have hstack1 : ∀ f ∈ [(Root, (hc Root).Deps.map Prod.fst)],
      f.1 ∈ Us ∧ ((hc.set Root { hc Root with IsDangling := false }) f.1).IsDangling = false ∧
      (h f.1).ParentBB = (h Root).ParentBB ∧ DepChain h Root f.1 ∧
      ∀ d ∈ f.2, d ∈ (h f.1).Deps.map Prod.fst := by
    intro f hf
    rw [List.mem_singleton] at hf
    subst hf
    refine ⟨hRoot, by simp, rfl, DepChain.root, fun d hd => ?_⟩
    simp only at hd ⊢
    rw [(hsame Root).1] at hd
    exact hd
  have hinv1 : ∀ c, ((hc.set Root { hc Root with IsDangling := false }) c).IsDangling = false →
      ClosedAt h (hc.set Root { hc Root with IsDangling := false }) c ∨
      ∃ f ∈ [(Root, (hc Root).Deps.map Prod.fst)],
        f.1 = c ∧ ∀ d ∈ (h c).Deps.map Prod.fst, (h d).ParentBB = (h c).ParentBB →
          ((hc.set Root { hc Root with IsDangling := false }) d).IsDangling = false ∨
            d ∈ f.2 := by
    intro c hcnd
    by_cases hcc : c = Root
    · subst hcc
      right
      refine ⟨_, List.mem_singleton.2 rfl, rfl, fun d hd _ => Or.inr ?_⟩
      simp only
      rw [(hsame c).1]
      exact hd
    · rw [hother c hcc] at hcnd
      exact Or.inl (fun d hd hbb => hmono d (hcl c hcnd d hd hbb))
  have hcount : danglingCount Us (hc.set Root { hc Root with IsDangling := false }) ≤
      danglingCount Us hc := by
    unfold danglingCount
    refine (filter_length_mono ?_).1
    intro p hp
    by_contra hne
    have hf : (hc p).IsDangling = false := by
      cases hv : (hc p).IsDangling with
      | true => exact absurd hv hne
      | false => rfl
    rw [hmono p hf] at hp
    cases hp
  have hlen : ((hc Root).Deps.map Prod.fst).length ≤ D := by
    rw [(hsame Root).1]
    exact hD Root hRoot
  have hmul := Nat.mul_le_mul_right (D + 1) hcount
  have hlt1 : danglingCount Us (hc.set Root { hc Root with IsDangling := false }) * (D + 1) +
      workSize [(Root, (hc Root).Deps.map Prod.fst)] < fuel := by
    rw [workSize_cons]
    have : workSize [] = 0 := rfl
    rw [this]
    generalize danglingCount Us (hc.set Root { hc Root with IsDangling := false }) * (D + 1)
      = A at hmul ⊢
    generalize danglingCount Us hc * (D + 1) = B at hmul hfuel
    omega
  obtain ⟨h1, hrun, hs1, hm1, hsound1, hcl1⟩ :=
    clearDanglingLoop_correct h Root Us D hclosed hD fuel _ _ hsame1 hstack1 hinv1 hlt1
  refine ⟨h1, ?_, hs1, fun p hp => hm1 p (hmono p hp), hm1 Root (by simp), fun p hp => ?_,
    hcl1⟩
  · unfold clearDanglingFlagForTree
    simp only
    rw [hbb]
    exact hrun
  · rcases hsound1 p hp with hnd | hch
    · by_cases hpc : p = Root
      · subst hpc; exact Or.inr DepChain.root
      · rw [hother p hpc] at hnd; exact Or.inl hnd
    · exact Or.inr hch

theorem danglingCount_mono (Us : List Nat) {hc h1 : Heap}
    (hmono : ∀ p, (hc p).IsDangling = false → (h1 p).IsDangling = false) :
    danglingCount Us h1 ≤ danglingCount Us hc := by
  unfold danglingCount
  refine (filter_length_mono ?_).1
  intro p hp
  by_contra hne
  have hf : (hc p).IsDangling = false := by
    cases hv : (hc p).IsDangling with
    | true => exact absurd hv hne
    | false => rfl
  rw [hmono p hf] at hp
  cases hp

theorem clearDanglingFlags_correct (h : Heap) (Us : List Nat) (D : Nat)
    (hclosed : ∀ u ∈ Us, ∀ d ∈ (h u).Deps.map Prod.fst, d ∈ Us)
    (hD : ∀ u ∈ Us, ((h u).Deps.map Prod.fst).length ≤ D)
    (fuel : Nat) (l : List Nat) (hl : ∀ R ∈ l, R ∈ Us) (hc : Heap) (hsame : SameGraph h hc)
    (hcl : ∀ c, (hc c).IsDangling = false → ClosedAt h hc c)
    (hfuel : danglingCount Us hc * (D + 1) + D + 1 < fuel) :
    ∃ h1, clearDanglingFlags fuel l hc = some h1 ∧ SameGraph h h1 ∧
      (∀ p, (hc p).IsDangling = false → (h1 p).IsDangling = false) ∧
      (∀ R ∈ l, (h R).IsDatapath = false → (h1 R).IsDangling = false) ∧
      (∀ p, (h1 p).IsDangling = false → (hc p).IsDangling = false ∨
        ∃ R ∈ l, (h R).IsDatapath = false ∧ DepChain h R p) ∧
      (∀ c, (h1 c).IsDangling = false → ClosedAt h h1 c) := by
  induction l generalizing hc with
  | nil =>
    refine ⟨hc, rfl, hsame, fun p hp => hp, ?_, fun p hp => Or.inl hp, hcl⟩
    intro R hR
    cases hR
  | cons U rest ih =>
    have hrest : ∀ R ∈ rest, R ∈ Us := fun R hR => hl R (List.mem_cons_of_mem _ hR)
    by_cases hctl : (hc U).IsDatapath = false
    · obtain ⟨h1, hrun, hs1, hm1, hroot1, hsound1, hcl1⟩ :=
        clearDanglingFlagForTree_correct h Us D hclosed hD fuel hc U
          (hl U (List.mem_cons_self _ _)) hsame hcl hfuel
      have hfuel1 : danglingCount Us h1 * (D + 1) + D + 1 < fuel := by
        have hmul := Nat.mul_le_mul_right (D + 1) (danglingCount_mono Us hm1)
        generalize danglingCount Us h1 * (D + 1) = A at hmul ⊢
        generalize danglingCount Us hc * (D + 1) = B at hmul hfuel
        omega
      obtain ⟨h2, hrun2, hs2, hm2, hroots2, hsound2, hcl2⟩ := ih hrest h1 hs1 hcl1 hfuel1
      have hUctl : (h U).IsDatapath = false := by rw [← (hsame U).2.2]; exact hctl
      refine ⟨h2, ?_, hs2, fun p hp => hm2 p (hm1 p hp), ?_, ?_, hcl2⟩
      · simp only [clearDanglingFlags, if_pos hctl, hrun]
        exact hrun2
      · intro R hR hRctl
        rcases List.mem_cons.1 hR with rfl | hR
        · exact hm2 R hroot1
        · exact hroots2 R hR hRctl
      · intro p hp
        rcases hsound2 p hp with hnd | ⟨R, hR, hRctl, hch⟩
        · rcases hsound1 p hnd with hnd0 | hch
          · exact Or.inl hnd0
          · exact Or.inr ⟨U, List.mem_cons_self _ _, hUctl, hch⟩
        · exact Or.inr ⟨R, List.mem_cons_of_mem _ hR, hRctl, hch⟩
    · obtain ⟨h2, hrun2, hs2, hm2, hroots2, hsound2, hcl2⟩ := ih hrest hc hsame hcl hfuel
      have hUdp : (h U).IsDatapath ≠ false := by rw [← (hsame U).2.2]; exact hctl
      refine ⟨h2, ?_, hs2, hm2, ?_, ?_, hcl2⟩
      · simp only [clearDanglingFlags, if_neg hctl]
        exact hrun2
      · intro R hR hRctl
        rcases List.mem_cons.1 hR with rfl | hR
        · exact absurd hRctl hUdp
        · exact hroots2 R hR hRctl
      · intro p hp
        rcases hsound2 p hp with hnd | ⟨R, hR, hRctl, hch⟩
        · exact Or.inl hnd
        · exact Or.inr ⟨R, List.mem_cons_of_mem _ hR, hRctl, hch⟩

theorem DepChain_closed {h h1 : Heap} {R : Nat}
    (hcl : ∀ c, (h1 c).IsDangling = false → ClosedAt h h1 c)
    (hR : (h1 R).IsDangling = false) {u : Nat} (hch : DepChain h R u) :
    (h u).ParentBB = (h R).ParentBB ∧ (h1 u).IsDangling = false := by
  induction hch with
  | root => exact ⟨rfl, hR⟩
  | step _ hd hbb ih =>
    refine ⟨hbb, hcl _ ih.2 _ hd ?_⟩
    rw [hbb, ih.1]

/-- C20: on a finite dependency graph (the units Us, closed under dependencies and holding
the control-path list) in which every dangling flag is true, the run of
clearDanglingFlagForTree from every control-path unit of the list, as scheduleDatapath does
it, ends (with every fuel from some bound on), and afterwards a unit, in particular a
data-path unit, is non-dangling if and only if a chain of dependency edges leads back to it
from some control-path unit of the list, every unit of the chain belonging to the basic block
of that control-path unit. -/
theorem clearDanglingFlags_exact (h : Heap) (G : VSchedGraph) (Us : List Nat)
    (hall : ∀ p, (h p).IsDangling = true)
    (hroots : ∀ R ∈ G.CPSUs, R ∈ Us)
    (hclosed : ∀ u ∈ Us, ∀ e ∈ (h u).Deps, e.1 ∈ Us) :
    ∃ fuel0, ∀ fuel, fuel0 ≤ fuel →
      ∃ h1, clearDanglingFlags fuel G.CPSUs h = some h1 ∧
        ∀ u, ((h1 u).IsDangling = false ↔
          ∃ R ∈ G.CPSUs, (h R).IsDatapath = false ∧ DepChain h R u) := by
  have hclosed1 : ∀ u ∈ Us, ∀ d ∈ (h u).Deps.map Prod.fst, d ∈ Us := by
    intro u hu d hd
    obtain ⟨e, he, rfl⟩ := List.mem_map.1 hd
    exact hclosed u hu e he
  have hD : ∀ u ∈ Us, ((h u).Deps.map Prod.fst).length ≤
      (Us.map (fun u => ((h u).Deps.map Prod.fst).length)).sum :=
    fun u hu => mem_le_sum_map (fun u => ((h u).Deps.map Prod.fst).length) Us u hu
  refine ⟨danglingCount Us h *
      ((Us.map (fun u => ((h u).Deps.map Prod.fst).length)).sum + 1) +
      (Us.map (fun u => ((h u).Deps.map Prod.fst).length)).sum + 2, fun fuel hfuel => ?_⟩
  obtain ⟨h1, hrun, _, _, hr1, hsound, hcl1⟩ :=
    clearDanglingFlags_correct h Us _ hclosed1 hD fuel G.CPSUs hroots h
      (fun p => ⟨rfl, rfl, rfl⟩)
      (fun c hc => by rw [hall c] at hc; cases hc)
      (by omega)
  refine ⟨h1, hrun, fun u => ⟨fun hnd => ?_, fun hex => ?_⟩⟩
  · rcases hsound u hnd with h0 | hex
    · rw [hall u] at h0; cases h0
    · exact hex
  · obtain ⟨R, hR, hRctl, hch⟩ := hex
    exact (DepChain_closed hcl1 (hr1 R hR hRctl) hch).2

/-- C20 (witness): in the dangling example the run ends and the non-dangling units are
exactly those reached from the control-path units 40 and 42 within block 5. -/
theorem clearDanglingFlags_exact_witness :
    ∃ fuel0, ∀ fuel, fuel0 ≤ fuel →
      ∃ h1, clearDanglingFlags fuel exGDangling.CPSUs exHeapDangling = some h1 ∧
        ∀ u, ((h1 u).IsDangling = false ↔
          ∃ R ∈ exGDangling.CPSUs, (exHeapDangling R).IsDatapath = false ∧
            DepChain exHeapDangling R u) :=
  clearDanglingFlags_exact exHeapDangling exGDangling [40, 41, 42, 43, 44, 45]
    (fun p => by unfold exHeapDangling; split <;> rfl) (by decide) (by decide)

/-! ## The retry policy and the emptied subgraph -/

/-- The lists of the subgraph after a successful merge. -/
theorem mergeSUsInSubGraph_ok_subgraph {k : SUIdxConsts} {h : Heap} {G SubGraph : VSchedGraph}
    {m : Merged} (hok : mergeSUsInSubGraph k h G SubGraph = .ok m) :
    m.SubGraph.CPSUs = [G.Exit] ∧ m.SubGraph.DPSUs = [] := by
  obtain ⟨hentry, T, s1, s2, hT, hcp, hdp⟩ :=
    @mergeSUsInSubGraph_stages k h G SubGraph
      (fun v hv => by rw [hok] at hv; cases hv)
  rw [mergeSUsInSubGraph_run hentry hT hcp hdp] at hok
  by_cases hfin : s2.NextSUIdx = (s2.heap T).InstIdx + 1
  · rw [if_pos hfin] at hok
    have hm := Except.ok.inj hok
    subst hm
    exact ⟨rfl, rfl⟩
  · rw [if_neg hfin] at hok; cases hok

/-- C24 (the code at the failing input): the merge of the composition example succeeds; the
data-path list of the subgraph is empty, and its control-path list holds the single unit 1,
the exit root of the enclosing graph, not the exit root 13 of the subgraph. -/
theorem merge_leaves_enclosing_exit_root :
    mergeSUsInSubGraph exConsts exHeap exG exSub = .ok exMerged ∧
    exMerged.SubGraph.DPSUs = [] ∧
    exMerged.SubGraph.CPSUs = [exG.Exit] ∧ exG.Exit = 1 ∧ exSub.Exit = 13 ∧
    exSub.Exit ∉ exMerged.SubGraph.CPSUs :=
  ⟨rfl,
    (mergeSUsInSubGraph_ok_subgraph
      (show mergeSUsInSubGraph exConsts exHeap exG exSub = .ok exMerged from rfl)).2,
    (mergeSUsInSubGraph_ok_subgraph
      (show mergeSUsInSubGraph exConsts exHeap exG exSub = .ok exMerged from rfl)).1,
    rfl, rfl, by decide⟩

/-! ## Termination of the dangling search -/

theorem clearDanglingPushes_spec (h : Heap) (RootBB : Nat) (Us : List Nat) (D : Nat)
    (hclosed : ∀ u ∈ Us, ∀ d ∈ (h u).Deps.map Prod.fst, d ∈ Us)
    (hD : ∀ u ∈ Us, ((h u).Deps.map Prod.fst).length ≤ D) :
    ∀ (fuel : Nat) (hc : Heap) (stack : List (Nat × List Nat)) (Pushed : List Nat),
      (∀ p, ∃ b, hc p = { h p with IsDangling := b }) →
      (∀ f ∈ stack, f.1 ∈ Us ∧ ∀ d ∈ f.2, d ∈ (h f.1).Deps.map Prod.fst) →
      (∀ u ∈ Pushed, (hc u).IsDangling = false) → Pushed.Nodup →
      danglingCount Us hc * (D + 1) + workSize stack < fuel →
      ∃ h1 P1, clearDanglingPushes RootBB fuel hc stack Pushed = some (h1, P1) ∧
        clearDanglingLoop RootBB fuel hc stack = some h1 ∧
        (∀ p, ∃ b, h1 p = { h p with IsDangling := b }) ∧
        (∀ p, (hc p).IsDangling = false → (h1 p).IsDangling = false) ∧
        P1.Nodup ∧ (∀ u ∈ P1, u ∈ Pushed ∨ (hc u).IsDangling = true) ∧
        (∀ u ∈ P1, (h1 u).IsDangling = false) := by
  intro fuel
  induction fuel with
  | zero =>
    intro hc stack Pushed _ _ _ _ hlt
    omega
  | succ n ih =>
    intro hc stack Pushed hfr hstack hP hnd hlt
    cases stack with
    | nil =>
      exact ⟨hc, Pushed, by simp [clearDanglingPushes], by simp [clearDanglingLoop], hfr,
        fun p hp => hp, hnd, fun u hu => Or.inl hu, hP⟩
    | cons fr st =>
      obtain ⟨U, it⟩ := fr
      have hU := hstack (U, it) (List.mem_cons_self _ _)
      simp only at hU
      cases it with
      | nil =>
        simp only [clearDanglingPushes, clearDanglingLoop]
        refine ih hc st Pushed hfr (fun f hf => hstack f (List.mem_cons_of_mem _ hf)) hP hnd ?_
        rw [workSize_cons] at hlt
        simp only [List.length_nil] at hlt
        omega
      | cons ch rest =>
        by_cases hskip : (hc ch).IsDangling = false ∨ (hc ch).ParentBB ≠ RootBB
        · simp only [clearDanglingPushes, clearDanglingLoop, if_pos hskip]
          refine ih hc ((U, rest) :: st) Pushed hfr ?_ hP hnd ?_
          · intro f hf
            rcases List.mem_cons.1 hf with rfl | hf
            · exact ⟨hU.1, fun d hd => hU.2 d (List.mem_cons_of_mem _ hd)⟩
            · exact hstack f (List.mem_cons_of_mem _ hf)
          · rw [workSize_cons] at hlt ⊢
            simp only [List.length_cons] at hlt
            omega
        · simp only [clearDanglingPushes, clearDanglingLoop, if_neg hskip]
          have hdang : (hc ch).IsDangling = true := by
            cases hd : (hc ch).IsDangling with
            | true => rfl
            | false => exact absurd (Or.inl hd) hskip
          have hchU : ch ∈ (h U).Deps.map Prod.fst := hU.2 ch (List.mem_cons_self _ _)
          have hchUs : ch ∈ Us := hclosed U hU.1 ch hchU
          have hother : ∀ p, p ≠ ch →
              (hc.set ch { hc ch with IsDangling := false }) p = hc p :=
            fun p hp => Heap.set_other _ _ hp
          have hmono : ∀ p, (hc p).IsDangling = false →
              ((hc.set ch { hc ch with IsDangling := false }) p).IsDangling = false := by
            intro p hp
            by_cases hpc : p = ch
            · subst hpc; simp
            · rw [hother p hpc]; exact hp
          have hfr1 : ∀ p, ∃ b,
              (hc.set ch { hc ch with IsDangling := false }) p = { h p with IsDangling := b } := by
            intro p
            by_cases hpc : p = ch
            · subst hpc
              obtain ⟨b, hb⟩ := hfr p
              refine ⟨false, ?_⟩
              rw [Heap.set_same, hb]
            · rw [hother p hpc]; exact hfr p
          have hdeps : ((hc.set ch { hc ch with IsDangling := false }) ch).Deps = (h ch).Deps := by
            obtain ⟨b, hb⟩ := hfr1 ch
            rw [hb]
          have hstack1 : ∀ f ∈ ((ch, ((hc.set ch { hc ch with IsDangling := false }) ch).Deps.map
                Prod.fst) :: (U, rest) :: st),
              f.1 ∈ Us ∧ ∀ d ∈ f.2, d ∈ (h f.1).Deps.map Prod.fst := by
            intro f hf
            rcases List.mem_cons.1 hf with rfl | hf
            · refine ⟨hchUs, ?_⟩
              intro d hd
              simp only at hd
              rw [hdeps] at hd
              exact hd
            · rcases List.mem_cons.1 hf with rfl | hf
              · exact ⟨hU.1, fun d hd => hU.2 d (List.mem_cons_of_mem _ hd)⟩
              · exact hstack f (List.mem_cons_of_mem _ hf)
          have hP1 : ∀ u ∈ ch :: Pushed,
              ((hc.set ch { hc ch with IsDangling := false }) u).IsDangling = false := by
            intro u hu
            rcases List.mem_cons.1 hu with rfl | hu
            · simp
            · exact hmono u (hP u hu)
          have hnd1 : (ch :: Pushed).Nodup := by
            refine List.nodup_cons.2 ⟨fun hmem => ?_, hnd⟩
            rw [hP ch hmem] at hdang
            cases hdang
          have hcount : danglingCount Us (hc.set ch { hc ch with IsDangling := false }) + 1 ≤
              danglingCount Us hc := by
            unfold danglingCount
            refine (filter_length_mono ?_).2 ch hchUs hdang (by simp)
            intro p hp
            by_contra hne
            have hf : (hc p).IsDangling = false := by
              cases hv : (hc p).IsDangling with
              | true => exact absurd hv hne
              | false => rfl
            rw [hmono p hf] at hp
            cases hp
          have hlen : (((hc.set ch { hc ch with IsDangling := false }) ch).Deps.map
              Prod.fst).length ≤ D := by
            rw [hdeps]
            exact hD ch hchUs
          have hmul := Nat.mul_le_mul_right (D + 1) hcount
          rw [Nat.add_mul, Nat.one_mul] at hmul
          have hlt1 : danglingCount Us (hc.set ch { hc ch with IsDangling := false }) * (D + 1) +
              workSize ((ch, ((hc.set ch { hc ch with IsDangling := false }) ch).Deps.map
                Prod.fst) :: (U, rest) :: st) < n := by
            rw [workSize_cons, workSize_cons]
            rw [workSize_cons] at hlt
            simp only [List.length_cons] at hlt
            generalize danglingCount Us (hc.set ch { hc ch with IsDangling := false }) * (D + 1)
              = A at hmul ⊢
            generalize danglingCount Us hc * (D + 1) = B at hmul hlt
            omega
          obtain ⟨h1, P1, hrun, hrun2, hfrR, hm1, hndR, horig, hfin⟩ :=
            ih _ _ _ hfr1 hstack1 hP1 hnd1 hlt1
          refine ⟨h1, P1, hrun, hrun2, hfrR, fun p hp => hm1 p (hmono p hp), hndR, ?_, hfin⟩
          intro u hu
          rcases horig u hu with hmem | hd
          · rcases List.mem_cons.1 hmem with rfl | hmem
            · exact Or.inr hdang
            · exact Or.inl hmem
          · by_cases huc : u = ch
            · subst huc; exact Or.inr hdang
            · rw [hother u huc] at hd; exact Or.inr hd

theorem danglingCount_le (Us : List Nat) (hc : Heap) : danglingCount Us hc ≤ Us.length :=
  List.length_filter_le _ _

/-- C27: on every finite dependency graph (a list `Us` of units that holds `Root` and every
dependency of its units, with or without dependency cycles) `clearDanglingFlagForTree`
terminates for every fuel above a bound fixed by the graph; the units pushed on the work
stack after `Root` are pairwise distinct and differ from `Root`, each of them had its
dangling flag changed from true to false; no dangling flag goes from false to true, and a
unit of the resulting heap differs from the unit before the call in the dangling flag at
most, so slot, index and edges are unchanged. -/
theorem clearDanglingFlagForTree_terminates (h : Heap) (Us : List Nat) (Root : Nat)
    (hRoot : Root ∈ Us) (hclosed : ∀ u ∈ Us, ∀ d ∈ (h u).Deps.map Prod.fst, d ∈ Us)
    (fuel : Nat) (hfuel : (Us.length + 1) * (depEdgeCount Us h + 1) < fuel) :
    ∃ h1 Pushed, clearDanglingFlagForTree fuel h Root = some h1 ∧
      clearDanglingFlagForTreePushes fuel h Root = some (h1, Pushed) ∧
      Pushed.Nodup ∧ Root ∉ Pushed ∧
      (∀ u ∈ Pushed, (h u).IsDangling = true ∧ (h1 u).IsDangling = false) ∧
      (∀ p, (h p).IsDangling = false → (h1 p).IsDangling = false) ∧
      (∀ p, h1 p = { h p with IsDangling := (h1 p).IsDangling }) ∧
      (∀ p, (h1 p).SchedSlot = (h p).SchedSlot ∧ (h1 p).InstIdx = (h p).InstIdx ∧
        (h1 p).Deps = (h p).Deps ∧ (h1 p).UseList = (h p).UseList) := by
  have hD : ∀ u ∈ Us, ((h u).Deps.map Prod.fst).length ≤ depEdgeCount Us h :=
    fun u hu => mem_le_sum_map (fun u => ((h u).Deps.map Prod.fst).length) Us u hu
  have hfr0 : ∀ p, ∃ b,
      (h.set Root { h Root with IsDangling := false }) p = { h p with IsDangling := b } := by
    intro p
    by_cases hp : p = Root
    · subst hp
      exact ⟨false, by rw [Heap.set_same]⟩
    · exact ⟨(h p).IsDangling, by rw [Heap.set_other _ _ hp]⟩
  have hcnt := danglingCount_le Us (h.set Root { h Root with IsDangling := false })
  have hmul := Nat.mul_le_mul_right (depEdgeCount Us h + 1) hcnt
  have hlt : danglingCount Us (h.set Root { h Root with IsDangling := false }) *
      (depEdgeCount Us h + 1) + workSize [(Root, (h Root).Deps.map Prod.fst)] < fuel := by
    rw [workSize_cons]
    have hw : workSize [] = 0 := rfl
    rw [hw]
    have hR := hD Root hRoot
    rw [Nat.add_mul, Nat.one_mul] at hfuel
    generalize danglingCount Us (h.set Root { h Root with IsDangling := false }) *
      (depEdgeCount Us h + 1) = A at hmul ⊢
    generalize Us.length * (depEdgeCount Us h + 1) = B at hmul hfuel
    omega
  obtain ⟨h1, P1, hrun, hrun2, hfr, hmono, hnd, horig, hfin⟩ :=
    clearDanglingPushes_spec h ((h.set Root { h Root with IsDangling := false }) Root).ParentBB
      Us (depEdgeCount Us h) hclosed hD fuel (h.set Root { h Root with IsDangling := false })
      [(Root, (h Root).Deps.map Prod.fst)] [] hfr0
      (fun f hf => by
        rcases List.mem_singleton.1 hf with rfl
        exact ⟨hRoot, fun d hd => hd⟩)
      (fun u hu => by cases hu) List.nodup_nil hlt
  have hdang : ∀ u ∈ P1, (h.set Root { h Root with IsDangling := false } u).IsDangling = true := by
    intro u hu
    rcases horig u hu with hmem | hd
    · cases hmem
    · exact hd
  have hnotRoot : Root ∉ P1 := by
    intro hmem
    have := hdang Root hmem
    rw [Heap.set_same] at this
    cases this
  refine ⟨h1, P1, hrun2, hrun, hnd, hnotRoot, ?_, ?_, ?_, ?_⟩
  · intro u hu
    have hne : u ≠ Root := fun he => hnotRoot (he ▸ hu)
    have := hdang u hu
    rw [Heap.set_other _ _ hne] at this
    exact ⟨this, hfin u hu⟩
  · intro p hp
    apply hmono
    by_cases hpR : p = Root
    · subst hpR; rw [Heap.set_same]
    · rw [Heap.set_other _ _ hpR]; exact hp
  · intro p
    obtain ⟨b, hb⟩ := hfr p
    rw [hb]
  · intro p
    obtain ⟨b, hb⟩ := hfr p
    rw [hb]
    exact ⟨rfl, rfl, rfl, rfl⟩

/-- C27 (witness): the dangling example, in which the units 41 and 45 depend on each other,
searched from the control-path unit 42. -/
theorem clearDanglingFlagForTree_terminates_witness :
    ∃ h1 Pushed, clearDanglingFlagForTree 100 exHeapDangling 42 = some h1 ∧
      clearDanglingFlagForTreePushes 100 exHeapDangling 42 = some (h1, Pushed) ∧
      Pushed.Nodup ∧ 42 ∉ Pushed ∧
      (∀ u ∈ Pushed, (exHeapDangling u).IsDangling = true ∧ (h1 u).IsDangling = false) ∧
      (∀ p, (exHeapDangling p).IsDangling = false → (h1 p).IsDangling = false) ∧
      (∀ p, h1 p = { exHeapDangling p with IsDangling := (h1 p).IsDangling }) ∧
      (∀ p, (h1 p).SchedSlot = (exHeapDangling p).SchedSlot ∧
        (h1 p).InstIdx = (exHeapDangling p).InstIdx ∧
        (h1 p).Deps = (exHeapDangling p).Deps ∧
        (h1 p).UseList = (exHeapDangling p).UseList) :=
  clearDanglingFlagForTree_terminates exHeapDangling [40, 41, 42, 43, 44, 45] 42 (by decide)
    (by decide) 100 (by decide)

/-! ## Data-path scheduling: theorems -/

theorem pinDanglingSUs_spec (Disable : Bool) (DLInfo : DetialLatencyInfo)
    (getEndSlot : Nat → Nat) (G : VSchedGraph) :
    ∀ (l : List Nat) (h : Heap) (MRI : RegInfo) (r : Heap × RegInfo),
      pinDanglingSUs Disable DLInfo getEndSlot G l h MRI = .ok r →
      (∀ p, (r.1 p).IsDangling = (h p).IsDangling ∧ (r.1 p).ParentBB = (h p).ParentBB) ∧
      (∀ p, (h p).SchedSlot = getEndSlot (h p).ParentBB →
        (r.1 p).SchedSlot = getEndSlot (r.1 p).ParentBB) ∧
      (∀ p, (r.1 p).IsDangling = false → (r.1 p).SchedSlot = (h p).SchedSlot) ∧
      (∀ U ∈ l, (r.1 U).IsDangling = true →
        (r.1 U).SchedSlot = getEndSlot (r.1 U).ParentBB) := by
  intro l
  induction l with
  | nil =>
    intro h MRI r hok
    simp only [pinDanglingSUs] at hok
    have hr := Except.ok.inj hok
    subst hr
    exact ⟨fun p => ⟨rfl, rfl⟩, fun p hp => hp, fun p _ => rfl, fun U hU => by cases hU⟩
  | cons U rest ih =>
    intro h MRI r hok
    have hstep : ∃ h1, (if (h U).IsDangling then scheduledTo h U (getEndSlot (h U).ParentBB)
          else Except.ok h) = Except.ok h1 ∧
        (∃ MRI1, pinDanglingSUs Disable DLInfo getEndSlot G rest h1 MRI1 = .ok r) := by
      simp only [pinDanglingSUs] at hok
      split at hok
      · cases hok
      · next h1 hh1 =>
        split at hok
        · cases hok
        · next MRI1 _ => exact ⟨h1, hh1, MRI1, hok⟩
    obtain ⟨h1, hh1, MRI1, hrest⟩ := hstep
    obtain ⟨hfl, hkeep, hsolver, hpin⟩ := ih h1 MRI1 r hrest
    have hh1fl : ∀ p, (h1 p).IsDangling = (h p).IsDangling ∧
        (h1 p).ParentBB = (h p).ParentBB ∧
        ((h p).SchedSlot = getEndSlot (h p).ParentBB →
          (h1 p).SchedSlot = getEndSlot (h1 p).ParentBB) ∧
        ((h p).IsDangling = false → (h1 p).SchedSlot = (h p).SchedSlot) ∧
        (p = U → (h p).IsDangling = true →
          (h1 p).SchedSlot = getEndSlot (h1 p).ParentBB) := by
      intro p
      by_cases hd : (h U).IsDangling = true
      · rw [if_pos hd] at hh1
        have hset := (scheduledTo_ok hh1).2
        subst hset
        by_cases hp : p = U
        · subst hp
          rw [Heap.set_same]
          have hnf : (h p).IsDangling = false → getEndSlot (h p).ParentBB = (h p).SchedSlot := by
            intro hf
            rw [hd] at hf
            cases hf
          exact ⟨rfl, rfl, fun _ => rfl, hnf, fun _ _ => rfl⟩
        · rw [Heap.set_other _ _ hp]
          exact ⟨rfl, rfl, fun hs => hs, fun _ => rfl, fun he => absurd he hp⟩
      · rw [if_neg hd] at hh1
        have hset := Except.ok.inj hh1
        subst hset
        have hnu : p = U → (h p).IsDangling = true →
            (h p).SchedSlot = getEndSlot (h p).ParentBB := by
          intro he hdp
          subst he
          exact absurd hdp hd
        exact ⟨rfl, rfl, fun hs => hs, fun _ => rfl, hnu⟩
    refine ⟨fun p => ⟨(hfl p).1.trans (hh1fl p).1, (hfl p).2.trans (hh1fl p).2.1⟩,
      fun p hp => hkeep p ((hh1fl p).2.2.1 hp), ?_, ?_⟩
    · intro p hp
      rw [hsolver p hp]
      exact (hh1fl p).2.2.2.1 (by rw [← (hh1fl p).1, ← (hfl p).1]; exact hp)
    · intro V hV hVd
      rcases List.mem_cons.1 hV with rfl | hV
      · apply hkeep
        exact (hh1fl V).2.2.2.2 rfl (by rw [← (hh1fl V).1, ← (hfl V).1]; exact hVd)
      · exact hpin V hV hVd

/-- C21: whatever slots the solver assigns, when `scheduleDatapath` returns, every unit of
the data-path list whose dangling flag is still set has the end slot of its own parent block
as its slot. -/
theorem scheduleDatapath_pins_dangling (Scheduler : DatapathScheduler) (Disable : Bool)
    (DLInfo : DetialLatencyInfo) (getEndSlot : Nat → Nat) (fuel : Nat) (h : Heap)
    (G : VSchedGraph) (MRI : RegInfo) (r : Heap × RegInfo)
    (hok : scheduleDatapath Scheduler Disable DLInfo getEndSlot fuel h G MRI = some (.ok r)) :
    ∀ U ∈ G.DPSUs, (r.1 U).IsDangling = true →
      (r.1 U).SchedSlot = getEndSlot (r.1 U).ParentBB := by
  unfold scheduleDatapath at hok
  split at hok
  · cases hok
  · next h1 _ =>
    split at hok
    · cases hok
    · next h2 _ =>
      have hpin := Option.some.inj hok
      exact (pinDanglingSUs_spec Disable DLInfo getEndSlot G G.DPSUs h2 MRI r hpin).2.2.2

/-- C21 (witness): in the dangling example the solver gives unit `p` the slot `p - 38` and
every block ends at slot 9; the data-path units 43 and 44 stay dangling and end at slot 9,
while the unit 41, which the control path reaches, keeps the slot 3 of the solver. -/
theorem scheduleDatapath_pins_dangling_witness :
    scheduleDatapath exDatapathScheduler false exDLInfoDangling (fun _ => 9) 100
      exHeapDangling exGDangling exMRI = some (.ok exDatapathScheduled) ∧
    (∀ U ∈ exGDangling.DPSUs, (exDatapathScheduled.1 U).IsDangling = true →
      (exDatapathScheduled.1 U).SchedSlot = (fun _ => 9) (exDatapathScheduled.1 U).ParentBB) ∧
    (exDatapathScheduled.1 43).IsDangling = true ∧
    (exDatapathScheduled.1 43).SchedSlot = 9 ∧
    (exDatapathScheduled.1 44).SchedSlot = 9 ∧
    (exDatapathScheduled.1 41).IsDangling = false ∧
    (exDatapathScheduled.1 41).SchedSlot = 3 :=
  ⟨rfl,
    scheduleDatapath_pins_dangling exDatapathScheduler false exDLInfoDangling (fun _ => 9) 100
      exHeapDangling exGDangling exMRI exDatapathScheduled rfl,
    by decide, by decide, by decide, by decide, by decide⟩

/-! ## Topological sort: theorems -/

theorem unvisitedCount_le (Us Visited : List Nat) : unvisitedCount Us Visited ≤ Us.length :=
  List.length_filter_le _ _

theorem unvisitedCount_visit (Us Visited : List Nat) (c : Nat) (hc : c ∈ Us)
    (hn : c ∉ Visited) : unvisitedCount Us (c :: Visited) + 1 ≤ unvisitedCount Us Visited := by
  unfold unvisitedCount
  have himp : ∀ p, (fun u => decide (u ∉ c :: Visited)) p = true →
      (fun u => decide (u ∉ Visited)) p = true := by
    intro p hp
    have hp1 : p ∉ c :: Visited := of_decide_eq_true hp
    exact decide_eq_true (fun hm => hp1 (List.mem_cons_of_mem _ hm))
  exact (filter_length_mono himp).2 c hc (decide_eq_true hn)
    (decide_eq_false (not_not.2 (List.mem_cons_self _ _)))

theorem getLast_top_change {α : Type} (a b : α × List Nat) (st : List (α × List Nat))
    (hab : a.1 = b.1) :
    ((b :: st).getLast?).map Prod.fst = ((a :: st).getLast?).map Prod.fst := by
  cases st with
  | nil => simp [hab]
  | cons f r => rw [List.getLast?_cons_cons, List.getLast?_cons_cons]

theorem postOrderLoop_visits (h : Heap) (Exit : Nat) (Rs : List Nat) (D : Nat)
    (hclosed : ∀ u ∈ Rs, ∀ d ∈ (h u).Deps.map Prod.fst, d ∈ Rs)
    (hD : ∀ u ∈ Rs, ((h u).Deps.map Prod.fst).length ≤ D) :
    ∀ (fuel : Nat) (Visited : List Nat) (stack : List (Nat × List Nat)) (Out : List Nat),
      (∀ v, v ∈ Visited ↔ v ∈ Out ∨ v ∈ stack.map Prod.fst) →
      Out.Nodup → (stack.map Prod.fst).Nodup → (∀ v ∈ Out, v ∉ stack.map Prod.fst) →
      (∀ f ∈ stack, f.1 ∈ Rs ∧ ∀ d ∈ f.2, d ∈ (h f.1).Deps.map Prod.fst) →
      (∀ u ∈ Out, u ∈ Rs) →
      (∀ u ∈ Out, ∀ d ∈ (h u).Deps.map Prod.fst, d ∈ Visited) →
      (∀ f ∈ stack, ∀ d ∈ (h f.1).Deps.map Prod.fst, d ∈ Visited ∨ d ∈ f.2) →
      (stack ≠ [] → (stack.getLast?).map Prod.fst = some Exit) →
      (stack = [] → Out.getLast? = some Exit) →
      unvisitedCount Rs Visited * (D + 1) + workSize stack < fuel →
      ∃ Out1, postOrderLoop h fuel Visited stack Out = some Out1 ∧ Out1.Nodup ∧
        (∀ u ∈ Out1, u ∈ Rs) ∧ (∀ u ∈ Out1, ∀ d ∈ (h u).Deps.map Prod.fst, d ∈ Out1) ∧
        Out1.getLast? = some Exit := by
  intro fuel
  induction fuel with
  | zero =>
    intro Visited stack Out _ _ _ _ _ _ _ _ _ _ hlt
    omega
  | succ n ih =>
    intro Visited stack Out hV hOnd hSnd hdisj hfr hOut hOcl hFcl hbot hlast hlt
    cases stack with
    | nil =>
      refine ⟨Out, by simp [postOrderLoop], hOnd, hOut, ?_, hlast rfl⟩
      intro u hu d hd
      rcases (hV d).1 (hOcl u hu d hd) with hdo | hds
      · exact hdo
      · cases hds
    | cons fr st =>
      obtain ⟨U, it⟩ := fr
      have hU := hfr (U, it) (List.mem_cons_self _ _)
      simp only at hU
      have hSnd1 : U ∉ st.map Prod.fst ∧ (st.map Prod.fst).Nodup := by
        rw [List.map_cons] at hSnd
        exact List.nodup_cons.1 hSnd
      cases it with
      | nil =>
        simp only [postOrderLoop]
        have hUO : U ∉ Out := fun hm =>
          hdisj U hm (by rw [List.map_cons]; exact List.mem_cons_self _ _)
        refine ih Visited st (Out ++ [U]) ?_ ?_ hSnd1.2 ?_ ?_ ?_ ?_ ?_ ?_ ?_ ?_
        · intro v
          rw [hV v, List.map_cons, List.mem_append, List.mem_singleton, List.mem_cons]
          constructor
          · rintro (ho | hu | hs)
            · exact Or.inl (Or.inl ho)
            · exact Or.inl (Or.inr hu)
            · exact Or.inr hs
          · rintro ((ho | hu) | hs)
            · exact Or.inl ho
            · exact Or.inr (Or.inl hu)
            · exact Or.inr (Or.inr hs)
        · refine List.Nodup.append hOnd (List.nodup_singleton U) ?_
          intro x hx hx1
          rw [List.mem_singleton] at hx1
          subst hx1
          exact hUO hx
        · intro v hv hvs
          rcases List.mem_append.1 hv with hv | hv
          · exact hdisj v hv (by rw [List.map_cons]; exact List.mem_cons_of_mem _ hvs)
          · rw [List.mem_singleton] at hv
            subst hv
            exact hSnd1.1 hvs
        · exact fun f hf => hfr f (List.mem_cons_of_mem _ hf)
        · intro u hu
          rcases List.mem_append.1 hu with hu | hu
          · exact hOut u hu
          · rw [List.mem_singleton] at hu
            subst hu
            exact hU.1
        · intro u hu d hd
          rcases List.mem_append.1 hu with hu | hu
          · exact hOcl u hu d hd
          · rw [List.mem_singleton] at hu
            subst hu
            rcases hFcl (u, []) (List.mem_cons_self _ _) d hd with hv | hm
            · exact hv
            · cases hm
        · exact fun f hf => hFcl f (List.mem_cons_of_mem _ hf)
        · intro hne
          have := hbot (List.cons_ne_nil _ _)
          cases st with
          | nil => exact absurd rfl hne
          | cons f r =>
            rw [List.getLast?_cons_cons] at this
            exact this
        · intro hst
          subst hst
          have := hbot (List.cons_ne_nil _ _)
          simp only [List.getLast?_singleton, Option.map_some', Option.some.injEq] at this
          subst this
          simp
        · rw [workSize_cons] at hlt
          simp only [List.length_nil] at hlt
          omega
      | cons c rest =>
        have hcU : c ∈ (h U).Deps.map Prod.fst := hU.2 c (List.mem_cons_self _ _)
        have hcRs : c ∈ Rs := hclosed U hU.1 c hcU
        by_cases hvis : c ∈ Visited
        · simp only [postOrderLoop, if_pos hvis]
          refine ih Visited ((U, rest) :: st) Out hV hOnd hSnd hdisj ?_ hOut hOcl ?_ ?_ ?_ ?_
          · intro f hf
            rcases List.mem_cons.1 hf with rfl | hf
            · exact ⟨hU.1, fun d hd => hU.2 d (List.mem_cons_of_mem _ hd)⟩
            · exact hfr f (List.mem_cons_of_mem _ hf)
          · intro f hf d hd
            rcases List.mem_cons.1 hf with rfl | hf
            · rcases hFcl (U, c :: rest) (List.mem_cons_self _ _) d hd with hv | hm
              · exact Or.inl hv
              · rcases List.mem_cons.1 hm with rfl | hm
                · exact Or.inl hvis
                · exact Or.inr hm
            · exact hFcl f (List.mem_cons_of_mem _ hf) d hd
          · intro _
            rw [getLast_top_change (U, c :: rest) (U, rest) st rfl]
            exact hbot (List.cons_ne_nil _ _)
          · intro hne
            cases hne
          · rw [workSize_cons] at hlt ⊢
            simp only [List.length_cons] at hlt
            omega
        · simp only [postOrderLoop, if_neg hvis]
          have hcO : c ∉ Out := fun hm => hvis ((hV c).2 (Or.inl hm))
          have hcS : c ∉ ((U, c :: rest) :: st).map Prod.fst :=
            fun hm => hvis ((hV c).2 (Or.inr hm))
          refine ih (c :: Visited) ((c, (h c).Deps.map Prod.fst) :: (U, rest) :: st) Out
            ?_ hOnd ?_ ?_ ?_ hOut ?_ ?_ ?_ ?_ ?_
          · intro v
            have hmap : ((c, (h c).Deps.map Prod.fst) :: (U, rest) :: st).map Prod.fst =
                c :: ((U, c :: rest) :: st).map Prod.fst := rfl
            rw [hmap, List.mem_cons, List.mem_cons, hV v]
            constructor
            · rintro (hvc | ho | hs)
              · exact Or.inr (Or.inl hvc)
              · exact Or.inl ho
              · exact Or.inr (Or.inr hs)
            · rintro (ho | hvc | hs)
              · exact Or.inr (Or.inl ho)
              · exact Or.inl hvc
              · exact Or.inr (Or.inr hs)
          · rw [List.map_cons]
            exact List.nodup_cons.2 ⟨hcS, hSnd⟩
          · intro v hv hvs
            rw [List.map_cons] at hvs
            rcases List.mem_cons.1 hvs with hvc | hvs
            · have hvc1 : v = c := hvc
              subst hvc1
              exact hcO hv
            · exact hdisj v hv hvs
          · intro f hf
            rcases List.mem_cons.1 hf with rfl | hf
            · exact ⟨hcRs, fun d hd => hd⟩
            · rcases List.mem_cons.1 hf with rfl | hf
              · exact ⟨hU.1, fun d hd => hU.2 d (List.mem_cons_of_mem _ hd)⟩
              · exact hfr f (List.mem_cons_of_mem _ hf)
          · exact fun u hu d hd => List.mem_cons_of_mem _ (hOcl u hu d hd)
          · intro f hf d hd
            rcases List.mem_cons.1 hf with rfl | hf
            · exact Or.inr hd
            · rcases List.mem_cons.1 hf with rfl | hf
              · rcases hFcl (U, c :: rest) (List.mem_cons_self _ _) d hd with hv | hm
                · exact Or.inl (List.mem_cons_of_mem _ hv)
                · rcases List.mem_cons.1 hm with rfl | hm
                  · exact Or.inl (List.mem_cons_self _ _)
                  · exact Or.inr hm
              · rcases hFcl f (List.mem_cons_of_mem _ hf) d hd with hv | hm
                · exact Or.inl (List.mem_cons_of_mem _ hv)
                · exact Or.inr hm
          · intro _
            rw [List.getLast?_cons_cons, getLast_top_change (U, c :: rest) (U, rest) st rfl]
            exact hbot (List.cons_ne_nil _ _)
          · intro hne
            cases hne
          · have hcount := unvisitedCount_visit Rs Visited c hcRs hvis
            have hlen := hD c hcRs
            have hmul := Nat.mul_le_mul_right (D + 1) hcount
            rw [Nat.add_mul, Nat.one_mul] at hmul
            rw [workSize_cons, workSize_cons]
            rw [workSize_cons] at hlt
            simp only [List.length_cons] at hlt
            generalize unvisitedCount Rs (c :: Visited) * (D + 1) = A at hmul ⊢
            generalize unvisitedCount Rs Visited * (D + 1) = B at hmul hlt
            omega

theorem framesDone_mono (h : Heap) {Out Out1 : List Nat} :
    ∀ (stack : List (Nat × List Nat)) (A A1 : List Nat),
      (∀ d, d ∈ Out ∨ d ∈ A → d ∈ Out1 ∨ d ∈ A1) →
      framesDone h Out A stack → framesDone h Out1 A1 stack := by
  intro stack
  induction stack with
  | nil => intro A A1 _ _; trivial
  | cons fr st ih =>
    obtain ⟨U, it⟩ := fr
    intro A A1 hsub hfd
    refine ⟨fun d hd => ?_, ih (U :: A) (U :: A1) ?_ hfd.2⟩
    · rcases hfd.1 d hd with hi | ho | ha
      · exact Or.inl hi
      · exact Or.inr (hsub d (Or.inl ho))
      · exact Or.inr (hsub d (Or.inr ha))
    · intro d hd
      rcases hd with ho | ha
      · rcases hsub d (Or.inl ho) with h1 | h1
        · exact Or.inl h1
        · exact Or.inr (List.mem_cons_of_mem _ h1)
      · rcases List.mem_cons.1 ha with rfl | ha
        · exact Or.inr (List.mem_cons_self _ _)
        · rcases hsub d (Or.inr ha) with h1 | h1
          · exact Or.inl h1
          · exact Or.inr (List.mem_cons_of_mem _ h1)

theorem postOrderLoop_sorted (h : Heap) (Rs : List Nat)
    (hclosed : ∀ u ∈ Rs, ∀ d ∈ (h u).Deps.map Prod.fst, d ∈ Rs)
    (hacyc : ∀ u ∈ Rs, ∀ d ∈ (h u).Deps.map Prod.fst, ¬ DepReach h d u) :
    ∀ (fuel : Nat) (Visited : List Nat) (stack : List (Nat × List Nat)) (Out Out1 : List Nat),
      (∀ v, v ∈ Visited → v ∈ Out ∨ v ∈ stack.map Prod.fst) →
      (∀ f ∈ stack, f.1 ∈ Rs ∧ ∀ d ∈ f.2, d ∈ (h f.1).Deps.map Prod.fst) →
      stack.Pairwise (fun a b => DepReach h b.1 a.1) →
      framesDone h Out [] stack → depsAfter h Out.reverse →
      postOrderLoop h fuel Visited stack Out = some Out1 → depsAfter h Out1.reverse := by
  intro fuel
  induction fuel with
  | zero =>
    intro Visited stack Out Out1 _ _ _ _ _ hrun
    simp [postOrderLoop] at hrun
  | succ n ih =>
    intro Visited stack Out Out1 hV hfr hpw hfd hsorted hrun
    cases stack with
    | nil =>
      simp only [postOrderLoop, Option.some.injEq] at hrun
      subst hrun
      exact hsorted
    | cons fr st =>
      obtain ⟨U, it⟩ := fr
      have hU := hfr (U, it) (List.mem_cons_self _ _)
      simp only at hU
      have hpw1 := List.pairwise_cons.1 hpw
      cases it with
      | nil =>
        simp only [postOrderLoop] at hrun
        refine ih Visited st (Out ++ [U]) Out1 ?_
          (fun f hf => hfr f (List.mem_cons_of_mem _ hf)) hpw1.2 ?_ ?_ hrun
        · intro v hv
          rcases hV v hv with ho | hs
          · exact Or.inl (List.mem_append_left _ ho)
          · rw [List.map_cons] at hs
            rcases List.mem_cons.1 hs with hu | hs
            · exact Or.inl (List.mem_append_right _ (List.mem_singleton.2 hu))
            · exact Or.inr hs
        · refine framesDone_mono h st [U] [] ?_ hfd.2
          intro d hd
          rcases hd with ho | hu
          · exact Or.inl (List.mem_append_left _ ho)
          · exact Or.inl (List.mem_append_right _ hu)
        · rw [List.reverse_append, List.reverse_singleton, List.singleton_append]
          refine ⟨fun d hd => ?_, hsorted⟩
          rcases hfd.1 d hd with hi | ho | ha
          · cases hi
          · exact List.mem_reverse.2 ho
          · cases ha
      | cons c rest =>
        have hcU : c ∈ (h U).Deps.map Prod.fst := hU.2 c (List.mem_cons_self _ _)
        have hcRs : c ∈ Rs := hclosed U hU.1 c hcU
        have hfrU : ∀ f ∈ (U, rest) :: st,
            f.1 ∈ Rs ∧ ∀ d ∈ f.2, d ∈ (h f.1).Deps.map Prod.fst := by
          intro f hf
          rcases List.mem_cons.1 hf with rfl | hf
          · exact ⟨hU.1, fun d hd => hU.2 d (List.mem_cons_of_mem _ hd)⟩
          · exact hfr f (List.mem_cons_of_mem _ hf)
        have hpwU : ((U, rest) :: st).Pairwise (fun a b => DepReach h b.1 a.1) :=
          List.pairwise_cons.2 ⟨fun b hb => hpw1.1 b hb, hpw1.2⟩
        by_cases hvis : c ∈ Visited
        · simp only [postOrderLoop, if_pos hvis] at hrun
          have hcOut : c ∈ Out := by
            rcases hV c hvis with ho | hs
            · exact ho
            · exfalso
              rw [List.map_cons] at hs
              rcases List.mem_cons.1 hs with hu | hs
              · have hu1 : c = U := hu
                apply hacyc U hU.1 c hcU
                rw [hu1]
                exact DepReach.refl
              · obtain ⟨f, hf, hfc⟩ := List.mem_map.1 hs
                apply hacyc U hU.1 c hcU
                rw [← hfc]
                exact hpw1.1 f hf
          refine ih Visited ((U, rest) :: st) Out Out1 hV hfrU hpwU ?_ hsorted hrun
          refine ⟨fun d hd => ?_, hfd.2⟩
          rcases hfd.1 d hd with hi | ho | ha
          · rcases List.mem_cons.1 hi with rfl | hi
            · exact Or.inr (Or.inl hcOut)
            · exact Or.inl hi
          · exact Or.inr (Or.inl ho)
          · exact Or.inr (Or.inr ha)
        · simp only [postOrderLoop, if_neg hvis] at hrun
          refine ih (c :: Visited) ((c, (h c).Deps.map Prod.fst) :: (U, rest) :: st) Out Out1
            ?_ ?_ ?_ ?_ hsorted hrun
          · intro v hv
            rcases List.mem_cons.1 hv with hvc | hv
            · exact Or.inr (by rw [List.map_cons]; exact hvc ▸ List.mem_cons_self _ _)
            · rcases hV v hv with ho | hs
              · exact Or.inl ho
              · exact Or.inr (by rw [List.map_cons]; exact List.mem_cons_of_mem _ hs)
          · intro f hf
            rcases List.mem_cons.1 hf with rfl | hf
            · exact ⟨hcRs, fun d hd => hd⟩
            · exact hfrU f hf
          · refine List.pairwise_cons.2 ⟨fun b hb => ?_, hpwU⟩
            rcases List.mem_cons.1 hb with rfl | hb
            · exact DepReach.step DepReach.refl hcU
            · exact DepReach.step (hpw1.1 b hb) hcU
          · refine ⟨fun d hd => Or.inl hd, fun d hd => ?_, ?_⟩
            · rcases hfd.1 d hd with hi | ho | ha
              · rcases List.mem_cons.1 hi with rfl | hi
                · exact Or.inr (Or.inr (List.mem_cons_self _ _))
                · exact Or.inl hi
              · exact Or.inr (Or.inl ho)
              · cases ha
            · refine framesDone_mono h st [U] [U, c] ?_ hfd.2
              intro d hd
              rcases hd with ho | hu
              · exact Or.inl ho
              · exact Or.inr (List.mem_cons.2 (Or.inl (List.mem_singleton.1 hu)))

theorem depsAfter_split (h : Heap) (u : Nat) (preR : List Nat) :
    ∀ (postR : List Nat), depsAfter h (postR ++ u :: preR) →
      ∀ d ∈ (h u).Deps.map Prod.fst, d ∈ preR := by
  intro postR
  induction postR with
  | nil => intro hs; exact hs.1
  | cons a t ih => intro hs; exact ih hs.2

theorem DepReach_closed {h : Heap} {R : Nat} {l : List Nat} (hR : R ∈ l)
    (hcl : ∀ u ∈ l, ∀ d ∈ (h u).Deps.map Prod.fst, d ∈ l) {u : Nat}
    (hreach : DepReach h R u) : u ∈ l := by
  induction hreach with
  | refl => exact hR
  | step _ hd ih => exact hcl _ ih _ hd

theorem acyclic_of_rank (h : Heap) (l : List Nat) (rank : Nat → Nat)
    (hcl : ∀ u ∈ l, ∀ d ∈ (h u).Deps.map Prod.fst, d ∈ l)
    (hrank : ∀ u ∈ l, ∀ d ∈ (h u).Deps.map Prod.fst, rank d < rank u) :
    ∀ u ∈ l, ∀ d ∈ (h u).Deps.map Prod.fst, ¬ DepReach h d u := by
  have hmono : ∀ d ∈ l, ∀ u, DepReach h d u → u ∈ l ∧ rank u ≤ rank d := by
    intro d hd u hreach
    induction hreach with
    | refl => exact ⟨hd, le_refl _⟩
    | step _ hdep ih =>
      have := hrank _ ih.1 _ hdep
      exact ⟨hcl _ ih.1 _ hdep, by omega⟩
  intro u hu d hd hreach
  have h1 := hrank u hu d hd
  have h2 := (hmono d (hcl u hu d hd) u hreach).2
  omega

theorem postOrderLoop_from_exit (h : Heap) (Exit : Nat) (Rs : List Nat) (hRs : Rs.Nodup)
    (hExit : Exit ∈ Rs) (hclosed : ∀ u ∈ Rs, ∀ d ∈ (h u).Deps.map Prod.fst, d ∈ Rs)
    (hreach : ∀ u ∈ Rs, DepReach h Exit u)
    (fuel : Nat) (hfuel : (Rs.length + 1) * (depEdgeCount Rs h + 1) < fuel) :
    ∃ Out, postOrderLoop h fuel [Exit] [(Exit, (h Exit).Deps.map Prod.fst)] [] = some Out ∧
      Out.Perm Rs ∧ Out.getLast? = some Exit ∧
      ((∀ u ∈ Rs, ∀ d ∈ (h u).Deps.map Prod.fst, ¬ DepReach h d u) →
        depsAfter h Out.reverse) := by
  have hD : ∀ u ∈ Rs, ((h u).Deps.map Prod.fst).length ≤ depEdgeCount Rs h :=
    fun u hu => mem_le_sum_map (fun u => ((h u).Deps.map Prod.fst).length) Rs u hu
  have hfr : ∀ f ∈ [(Exit, (h Exit).Deps.map Prod.fst)],
      f.1 ∈ Rs ∧ ∀ d ∈ f.2, d ∈ (h f.1).Deps.map Prod.fst := by
    intro f hf
    rcases List.mem_singleton.1 hf with rfl
    exact ⟨hExit, fun d hd => hd⟩
  have hlt : unvisitedCount Rs [Exit] * (depEdgeCount Rs h + 1) +
      workSize [(Exit, (h Exit).Deps.map Prod.fst)] < fuel := by
    have hcnt := unvisitedCount_le Rs [Exit]
    have hmul := Nat.mul_le_mul_right (depEdgeCount Rs h + 1) hcnt
    rw [workSize_cons]
    have hw : workSize [] = 0 := rfl
    rw [hw]
    have hR := hD Exit hExit
    rw [Nat.add_mul, Nat.one_mul] at hfuel
    generalize unvisitedCount Rs [Exit] * (depEdgeCount Rs h + 1) = A at hmul ⊢
    generalize Rs.length * (depEdgeCount Rs h + 1) = B at hmul hfuel
    omega
  obtain ⟨Out, hrun, hnd, hsub, hcl, hlast⟩ :=
    postOrderLoop_visits h Exit Rs (depEdgeCount Rs h) hclosed hD fuel [Exit]
      [(Exit, (h Exit).Deps.map Prod.fst)] []
      (fun v => by simp)
      List.nodup_nil (List.nodup_singleton _) (fun v hv => by cases hv) hfr
      (fun u hu => by cases hu) (fun u hu => by cases hu)
      (fun f hf d hd => by
        rcases List.mem_singleton.1 hf with rfl
        exact Or.inr hd)
      (fun _ => by simp) (fun hne => by cases hne) hlt
  have hExitOut : Exit ∈ Out := List.mem_of_getLast?_eq_some hlast
  have hperm : Out.Perm Rs :=
    (List.perm_ext_iff_of_nodup hnd hRs).2
      (fun a => ⟨hsub a, fun ha => DepReach_closed hExitOut hcl (hreach a ha)⟩)
  refine ⟨Out, hrun, hperm, hlast, fun hacyc => ?_⟩
  refine postOrderLoop_sorted h Rs hclosed hacyc fuel [Exit]
    [(Exit, (h Exit).Deps.map Prod.fst)] [] Out ?_ hfr ?_ ?_ trivial hrun
  · intro v hv
    exact Or.inr hv
  · exact List.pairwise_singleton _ _
  · exact ⟨fun d hd => Or.inl hd, trivial⟩

/-- C25: let `Rs` list, without repetition, the units that the exit root reaches backward
along dependency edges.  For every fuel above a bound fixed by the graph: when the length of
`Rs` differs from the length of the control-path list, `topologicalSortCPSUs` fails; when
the control-path list is a permutation of `Rs` and no unit is reached from one of its own
dependencies, the call succeeds, it changes the control-path list only, the new list is a
permutation of the old one, every unit in it stands behind all the units it depends on, and
the exit root is its last unit. -/
theorem topologicalSortCPSUs_sorts (h : Heap) (G : VSchedGraph) (Rs : List Nat)
    (hRs : Rs.Nodup) (hExit : G.Exit ∈ Rs)
    (hclosed : ∀ u ∈ Rs, ∀ d ∈ (h u).Deps.map Prod.fst, d ∈ Rs)
    (hreach : ∀ u ∈ Rs, DepReach h G.Exit u)
    (fuel : Nat) (hfuel : (Rs.length + 1) * (depEdgeCount Rs h + 1) < fuel) :
    (Rs.length ≠ G.num_cps →
      topologicalSortCPSUs fuel h G = some (.error .badTopologicalSort)) ∧
    (G.CPSUs.Perm Rs →
      (∀ u ∈ G.CPSUs, ∀ d ∈ (h u).Deps.map Prod.fst, ¬ DepReach h d u) →
      ∃ G1, topologicalSortCPSUs fuel h G = some (.ok G1) ∧
        G1 = { G with CPSUs := G1.CPSUs } ∧ G1.CPSUs.Perm G.CPSUs ∧
        (∀ pre u post, G1.CPSUs = pre ++ u :: post →
          ∀ d ∈ (h u).Deps.map Prod.fst, d ∈ pre) ∧
        G1.CPSUs.getLast? = some G.Exit) := by
  obtain ⟨Out, hrun, hperm, hlast, hsorted⟩ :=
    postOrderLoop_from_exit h G.Exit Rs hRs hExit hclosed hreach fuel hfuel
  have hlen : Out.length = Rs.length := hperm.length_eq
  constructor
  · intro hne
    simp only [topologicalSortCPSUs, hrun]
    by_cases hlt : G.num_cps < Out.length
    · rw [if_pos hlt]
    · rw [if_neg hlt, if_pos (by rw [hlen]; exact hne)]
  · intro hcp hacyc
    have hlenG : Out.length = G.num_cps := by
      rw [hlen]
      exact hcp.length_eq.symm
    have hdrop : G.CPSUs.drop Out.length = [] :=
      List.drop_eq_nil_of_le (by rw [hlenG]; exact le_refl _)
    have hacycRs : ∀ u ∈ Rs, ∀ d ∈ (h u).Deps.map Prod.fst, ¬ DepReach h d u :=
      fun u hu => hacyc u (hcp.mem_iff.2 hu)
    refine ⟨{ G with CPSUs := Out }, ?_, rfl, hperm.trans hcp.symm, ?_, hlast⟩
    · simp only [topologicalSortCPSUs, hrun]
      rw [if_neg (by rw [hlenG]; exact lt_irrefl _), if_neg (not_not.2 hlenG), hdrop,
        List.append_nil]
    · intro pre u post hsplit d hd
      have hs := hsorted hacycRs
      have hrev : Out.reverse = post.reverse ++ u :: pre.reverse := by
        have hO : Out = pre ++ u :: post := hsplit
        rw [hO]
        simp
      rw [hrev] at hs
      exact List.mem_reverse.1 (depsAfter_split h u pre.reverse post.reverse hs d hd)

theorem exHeapTopo_reach : ∀ u ∈ [60, 61, 62, 63], DepReach exHeapTopo 63 u := by
  have h62 : DepReach exHeapTopo 63 62 := DepReach.step DepReach.refl (by decide)
  have h61 : DepReach exHeapTopo 63 61 := DepReach.step DepReach.refl (by decide)
  have h60 : DepReach exHeapTopo 63 60 := DepReach.step h61 (by decide)
  intro u hu
  rcases List.mem_cons.1 hu with rfl | hu
  · exact h60
  · rcases List.mem_cons.1 hu with rfl | hu
    · exact h61
    · rcases List.mem_cons.1 hu with rfl | hu
      · exact h62
      · rcases List.mem_singleton.1 hu with rfl
        exact DepReach.refl

/-- C25 (witness): the topological-sort example, whose list 63, 61, 60, 62 becomes
60, 61, 62, 63; with the unit 62 missing from the list the call fails. -/
theorem topologicalSortCPSUs_sorts_witness :
    (∃ G1, topologicalSortCPSUs 100 exHeapTopo exGTopo = some (.ok G1) ∧
      G1 = { exGTopo with CPSUs := G1.CPSUs } ∧ G1.CPSUs.Perm exGTopo.CPSUs ∧
      (∀ pre u post, G1.CPSUs = pre ++ u :: post →
        ∀ d ∈ (exHeapTopo u).Deps.map Prod.fst, d ∈ pre) ∧
      G1.CPSUs.getLast? = some exGTopo.Exit) ∧
    topologicalSortCPSUs 100 exHeapTopo exGTopo =
      some (.ok { exGTopo with CPSUs := [60, 61, 62, 63] }) ∧
    topologicalSortCPSUs 100 exHeapTopo { exGTopo with CPSUs := [63, 61, 60] } =
      some (.error .badTopologicalSort) :=
  ⟨(topologicalSortCPSUs_sorts exHeapTopo exGTopo [60, 61, 62, 63] (by decide) (by decide)
      (by decide) exHeapTopo_reach 100 (by decide)).2 (by decide)
      (acyclic_of_rank exHeapTopo exGTopo.CPSUs (fun p => (exHeapTopo p).InstIdx)
        (by decide) (by decide)),
    by decide,
    (topologicalSortCPSUs_sorts exHeapTopo { exGTopo with CPSUs := [63, 61, 60] }
      [60, 61, 62, 63] (by decide) (by decide) (by decide) exHeapTopo_reach 100
      (by decide)).1 (by decide)⟩

/-! ## Scalar streamization: theorems -/

theorem mapFind_cons {β : Type} (k a : Nat) (b : β) (r : List (Nat × β)) :
    mapFind k ((a, b) :: r) = if a = k then some b else mapFind k r := rfl

theorem mapFind_retarget_other (Src New C : Nat) (hC : C ≠ Src) (hN : C ≠ New) :
    ∀ l : List (Nat × Bool),
      mapFind C (l.map (fun e => if e.1 = Src then (New, e.2) else e)) = mapFind C l := by
  intro l
  induction l with
  | nil => rfl
  | cons e r ih =>
    obtain ⟨a, b⟩ := e
    rw [List.map_cons]
    show mapFind C ((if a = Src then (New, b) else (a, b)) :: _) = _
    by_cases ha : a = Src
    · rw [if_pos ha, mapFind_cons, mapFind_cons, if_neg (Ne.symm hN), ha,
        if_neg (Ne.symm hC)]
      exact ih
    · rw [if_neg ha, mapFind_cons, mapFind_cons, ih]

theorem mapFind_retarget_new (Src New : Nat) :
    ∀ l : List (Nat × Bool), (∀ e ∈ l, e.1 ≠ New) →
      mapFind New (l.map (fun e => if e.1 = Src then (New, e.2) else e)) = mapFind Src l := by
  intro l
  induction l with
  | nil => intro _; rfl
  | cons e r ih =>
    intro hfresh
    obtain ⟨a, b⟩ := e
    have ha : a ≠ New := hfresh (a, b) (List.mem_cons_self _ _)
    have ihr := ih (fun e he => hfresh e (List.mem_cons_of_mem _ he))
    rw [List.map_cons]
    show mapFind New ((if a = Src then (New, b) else (a, b)) :: _) = _
    by_cases haS : a = Src
    · rw [if_pos haS, mapFind_cons, mapFind_cons, if_pos rfl, if_pos haS]
    · rw [if_neg haS, mapFind_cons, mapFind_cons, if_neg ha, if_neg haS]
      exact ihr

theorem mapFind_retarget_old (Src New : Nat) (hne : Src ≠ New) :
    ∀ l : List (Nat × Bool),
      mapFind Src (l.map (fun e => if e.1 = Src then (New, e.2) else e)) = none := by
  intro l
  induction l with
  | nil => rfl
  | cons e r ih =>
    obtain ⟨a, b⟩ := e
    rw [List.map_cons]
    show mapFind Src ((if a = Src then (New, b) else (a, b)) :: _) = _
    by_cases haS : a = Src
    · rw [if_pos haS, mapFind_cons, if_neg (Ne.symm hne)]
      exact ih
    · rw [if_neg haS, mapFind_cons, if_neg haS]
      exact ih

theorem retarget_Slot (Src New : Nat) (a : HWAtom) : (retarget Src New a).Slot = a.Slot := rfl

theorem antiDep_congr (HI HI1 : HWAtomInfo) (Exit II Src D : Nat)
    (hD : HI1.Atoms D = HI.Atoms D) (hS : (HI1.Atoms Src).Slot = (HI.Atoms Src).Slot) :
    HI1.antiDep Exit II Src D = HI.antiDep Exit II Src D := by
  unfold HWAtomInfo.antiDep HWAtomInfo.getEdgeFrom
  rw [hD, hS]

theorem antiDep_true {HI : HWAtomInfo} {Exit II Src D : Nat}
    (h : HI.antiDep Exit II Src D = true) :
    D ≠ Exit ∧ HI.getEdgeFrom D Src = some false ∧
      II ≤ wrap32 (((HI.Atoms D).Slot : Int) - ((HI.Atoms Src).Slot : Int)) := by
  unfold HWAtomInfo.antiDep at h
  simp only [Bool.and_eq_true, decide_eq_true_eq] at h
  exact ⟨h.1.1, h.1.2, h.2⟩

theorem antiDep_false {HI : HWAtomInfo} {Exit II Src D : Nat}
    (h : HI.antiDep Exit II Src D = false) (hne : D ≠ Exit)
    (he : HI.getEdgeFrom D Src = some false) :
    ¬ II ≤ wrap32 (((HI.Atoms D).Slot : Int) - ((HI.Atoms Src).Slot : Int)) := by
  intro hle
  have : HI.antiDep Exit II Src D = true := by
    unfold HWAtomInfo.antiDep
    simp only [Bool.and_eq_true, decide_eq_true_eq]
    exact ⟨⟨hne, he⟩, hle⟩
  rw [h] at this
  cases this

theorem streamUsers_skip (Exit II Src D : Nat) (rest : List Nat) (HI : HWAtomInfo)
    (c : Option Nat) (hedge : (HI.getEdgeFrom D Src).isSome = true)
    (hno : HI.antiDep Exit II Src D = false) :
    streamUsers Exit II Src (D :: rest) HI c = streamUsers Exit II Src rest HI c := by
  by_cases hE : D = Exit
  · simp only [streamUsers, if_pos hE]
  · cases he : HI.getEdgeFrom D Src with
    | none => rw [he] at hedge; cases hedge
    | some b =>
      cases b with
      | true => simp only [streamUsers, if_neg hE, he]
      | false =>
        have hnle := antiDep_false hno hE he
        simp only [streamUsers, if_neg hE, he, if_neg hnle]

theorem streamUsers_move (Exit II Src D n : Nat) (rest : List Nat) (HI : HWAtomInfo)
    (c : Option Nat) (hyes : HI.antiDep Exit II Src D = true)
    (hcn : c = none → HI.NextAtom = n) (hcs : ∀ N, c = some N → N = n ∧ HI.NextAtom = n + 1) :
    ∃ HIg : HWAtomInfo,
      streamUsers Exit II Src (D :: rest) HI c =
        streamUsers Exit II Src rest (HIg.replaceDep D Src n) (some n) ∧
      HIg.NextAtom = n + 1 ∧
      ∀ a, HIg.Atoms a = if a = n ∧ c = none then
          { Slot := wrap32 (((HI.Atoms Src).Slot : Int) + (II : Int)),
            Deps := [(Src, false)], IsWrReg := true }
        else HI.Atoms a := by
  obtain ⟨hE, he, hle⟩ := antiDep_true hyes
  cases c with
  | none =>
    have hn := hcn rfl
    refine ⟨(HI.getWrReg Src (wrap32 (((HI.Atoms Src).Slot : Int) + (II : Int)))).1,
      ?_, ?_, ?_⟩
    · simp only [streamUsers, if_neg hE, he, if_pos hle, HWAtomInfo.getWrReg, hn]
    · simp only [HWAtomInfo.getWrReg, hn]
    · intro a
      simp only [HWAtomInfo.getWrReg, hn, and_true]
  | some N =>
    obtain ⟨hN, hnext⟩ := hcs N rfl
    subst hN
    refine ⟨HI, ?_, hnext, ?_⟩
    · simp only [streamUsers, if_neg hE, he, if_pos hle]
    · intro a
      rw [if_neg (fun hx => Option.noConfusion hx.2)]

theorem streamUsers_spec (Exit II Src n : Nat) (hSrc : Src < n) :
    ∀ (us : List Nat) (HI : HWAtomInfo) (c : Option Nat),
      us.Nodup → (∀ D ∈ us, D < n ∧ (HI.getEdgeFrom D Src).isSome = true) →
      (c = none → HI.NextAtom = n) → (∀ N, c = some N → N = n ∧ HI.NextAtom = n + 1) →
      ∃ HI1 c1, streamUsers Exit II Src us HI c = .ok (HI1, c1) ∧
        (∀ a ∈ us, HI.antiDep Exit II Src a = true →
          HI1.Atoms a = retarget Src n (HI.Atoms a)) ∧
        (∀ a, ¬ (a ∈ us ∧ HI.antiDep Exit II Src a = true) →
          ¬ (a = n ∧ c = none ∧ ∃ D ∈ us, HI.antiDep Exit II Src D = true) →
          HI1.Atoms a = HI.Atoms a) ∧
        (c = none → (∃ D ∈ us, HI.antiDep Exit II Src D = true) →
          HI1.Atoms n = { Slot := wrap32 (((HI.Atoms Src).Slot : Int) + (II : Int)),
                          Deps := [(Src, false)], IsWrReg := true }) ∧
        ((∃ D ∈ us, HI.antiDep Exit II Src D = true) → c1 = some n ∧ HI1.NextAtom = n + 1) ∧
        ((¬ ∃ D ∈ us, HI.antiDep Exit II Src D = true) → c1 = c ∧ HI1 = HI) := by
  intro us
  induction us with
  | nil =>
    intro HI c _ _ _ _
    refine ⟨HI, c, rfl, fun a ha => absurd ha (List.not_mem_nil a), fun a _ _ => rfl, ?_, ?_,
      fun _ => ⟨rfl, rfl⟩⟩
    · rintro _ ⟨D, hD, _⟩
      cases hD
    · rintro ⟨D, hD, _⟩
      cases hD
  | cons D rest ih =>
    intro HI c hnd hus hcn hcs
    have hnd1 := List.nodup_cons.1 hnd
    have hD := hus D (List.mem_cons_self _ _)
    cases hmv : HI.antiDep Exit II Src D with
    | false =>
      obtain ⟨HI1, c1, hrun, hA1, hA2, hA3, hC1, hC2⟩ :=
        ih HI c hnd1.2 (fun a ha => hus a (List.mem_cons_of_mem _ ha)) hcn hcs
      have hex : (∃ a ∈ D :: rest, HI.antiDep Exit II Src a = true) ↔
          ∃ a ∈ rest, HI.antiDep Exit II Src a = true := by
        constructor
        · rintro ⟨a, ha, hm⟩
          rcases List.mem_cons.1 ha with rfl | ha
          · rw [hmv] at hm; cases hm
          · exact ⟨a, ha, hm⟩
        · rintro ⟨a, ha, hm⟩
          exact ⟨a, List.mem_cons_of_mem _ ha, hm⟩
      refine ⟨HI1, c1, ?_, ?_, ?_, ?_, ?_, ?_⟩
      · rw [streamUsers_skip Exit II Src D rest HI c hD.2 hmv]
        exact hrun
      · intro a ha hm
        rcases List.mem_cons.1 ha with rfl | ha
        · rw [hmv] at hm; cases hm
        · exact hA1 a ha hm
      · intro a hna hnn
        refine hA2 a (fun hx => hna ⟨List.mem_cons_of_mem _ hx.1, hx.2⟩) ?_
        rintro ⟨h1, h2, h3⟩
        exact hnn ⟨h1, h2, hex.2 h3⟩
      · intro hc hx
        exact hA3 hc (hex.1 hx)
      · intro hx
        exact hC1 (hex.1 hx)
      · intro hx
        exact hC2 (fun hy => hx (hex.2 hy))
    | true =>
      have hDn : D ≠ n := Nat.ne_of_lt hD.1
      have hSn : Src ≠ n := Nat.ne_of_lt hSrc
      obtain ⟨HIg, hstep, hgN, hgA⟩ := streamUsers_move Exit II Src D n rest HI c hmv hcn hcs
      have hA : ∀ a, (HIg.replaceDep D Src n).Atoms a =
          if a = D then retarget Src n (HI.Atoms D) else HIg.Atoms a := by
        intro a
        simp only [HWAtomInfo.replaceDep]
        by_cases haD : a = D
        · rw [if_pos haD, if_pos haD, hgA D, if_neg (fun hx => hDn hx.1)]
        · rw [if_neg haD, if_neg haD]
      have hsame : ∀ a, a ≠ D → a ≠ n → (HIg.replaceDep D Src n).Atoms a = HI.Atoms a := by
        intro a haD han
        rw [hA a, if_neg haD, hgA a, if_neg (fun hx => han hx.1)]
      have hslot : ((HIg.replaceDep D Src n).Atoms Src).Slot = (HI.Atoms Src).Slot := by
        by_cases hSD : Src = D
        · rw [hA Src, if_pos hSD, retarget_Slot, hSD]
        · rw [hsame Src hSD hSn]
      have hanti : ∀ a ∈ rest, (HIg.replaceDep D Src n).antiDep Exit II Src a =
          HI.antiDep Exit II Src a := by
        intro a ha
        have haD : a ≠ D := fun he => hnd1.1 (he ▸ ha)
        have han : a ≠ n := Nat.ne_of_lt (hus a (List.mem_cons_of_mem _ ha)).1
        exact antiDep_congr HI _ Exit II Src a (hsame a haD han) hslot
      obtain ⟨HI1, c1, hrun, hA1, hA2, _, hC1, hC2⟩ :=
        ih (HIg.replaceDep D Src n) (some n) hnd1.2
          (fun a ha => by
            have haD : a ≠ D := fun he => hnd1.1 (he ▸ ha)
            have hau := hus a (List.mem_cons_of_mem _ ha)
            refine ⟨hau.1, ?_⟩
            unfold HWAtomInfo.getEdgeFrom
            rw [hsame a haD (Nat.ne_of_lt hau.1)]
            exact hau.2)
          (fun hx => Option.noConfusion hx)
          (fun N hN => ⟨(Option.some.inj hN).symm, hgN⟩)
      have hres : c1 = some n ∧ HI1.NextAtom = n + 1 := by
        by_cases hx : ∃ a ∈ rest, (HIg.replaceDep D Src n).antiDep Exit II Src a = true
        · exact hC1 hx
        · obtain ⟨hc1, hH⟩ := hC2 hx
          rw [hH]
          exact ⟨hc1, hgN⟩
      have hkeep : ∀ a, ¬ (a ∈ rest ∧ HI.antiDep Exit II Src a = true) →
          HI1.Atoms a = (HIg.replaceDep D Src n).Atoms a := by
        intro a hna
        refine hA2 a ?_ (fun hx => Option.noConfusion hx.2.1)
        rintro ⟨ha, hm⟩
        rw [hanti a ha] at hm
        exact hna ⟨ha, hm⟩
      refine ⟨HI1, c1, ?_, ?_, ?_, ?_, fun _ => hres, ?_⟩
      · rw [hstep]
        exact hrun
      · intro a ha hm
        rcases List.mem_cons.1 ha with rfl | ha
        · rw [hkeep a (fun hx => hnd1.1 hx.1), hA a, if_pos rfl]
        · have haD : a ≠ D := fun he => hnd1.1 (he ▸ ha)
          have han : a ≠ n := Nat.ne_of_lt (hus a (List.mem_cons_of_mem _ ha)).1
          rw [hA1 a ha (by rw [hanti a ha]; exact hm), hsame a haD han]
      · intro a hna hnn
        have haD : a ≠ D := fun he => hna ⟨he ▸ List.mem_cons_self _ _, he ▸ hmv⟩
        rw [hkeep a (fun hx => hna ⟨List.mem_cons_of_mem _ hx.1, hx.2⟩), hA a, if_neg haD,
          hgA a]
        rw [if_neg (fun hx => hnn ⟨hx.1, hx.2, D, List.mem_cons_self _ _, hmv⟩)]
      · intro hc _
        have hnr : ¬ (n ∈ rest ∧ HI.antiDep Exit II Src n = true) := fun hx =>
          absurd (hus n (List.mem_cons_of_mem _ hx.1)).1 (lt_irrefl n)
        rw [hkeep n hnr, hA n, if_neg (Ne.symm hDn), hgA n, if_pos ⟨rfl, hc⟩]
      · intro hx
        exact absurd ⟨D, List.mem_cons_self _ _, hmv⟩ hx

theorem mapFind_fresh (n : Nat) (l : List (Nat × Bool)) (hk : ∀ e ∈ l, e.1 < n) :
    mapFind n l = none := by
  rw [mapFind_eq_none]
  intro hmem
  obtain ⟨e, he, hen⟩ := List.mem_map.1 hmem
  have := hk e he
  omega

theorem CopyChain_inUse {HI : HWAtomInfo} {II First S C : Nat} (hS : S < HI.NextAtom)
    (hc : CopyChain HI II First S C) : C < HI.NextAtom := by
  induction hc with
  | refl => exact hS
  | step _ _ hN _ _ _ _ => exact hN

theorem CopyChain_stable {HI HI1 : HWAtomInfo} {II First S C : Nat} (hS : S < HI.NextAtom)
    (hnext : HI.NextAtom ≤ HI1.NextAtom)
    (hcopy : ∀ N, First ≤ N → N < HI.NextAtom → HI1.Atoms N = HI.Atoms N)
    (hslot : ∀ a, a < HI.NextAtom → (HI1.Atoms a).Slot = (HI.Atoms a).Slot)
    (hc : CopyChain HI II First S C) : CopyChain HI1 II First S C := by
  induction hc with
  | refl => exact CopyChain.refl
  | step hB hF hN hdeps hwr hsl ih =>
    have hBin := CopyChain_inUse hS hB
    refine CopyChain.step ih hF (Nat.lt_of_lt_of_le hN hnext) ?_ ?_ ?_
    · rw [hcopy _ hF hN]; exact hdeps
    · rw [hcopy _ hF hN]; exact hwr
    · rw [hcopy _ hF hN, hslot _ hBin]; exact hsl

theorem streamWork_congr (HI HI1 : HWAtomInfo) (M : Nat) (l : List Nat)
    (h : ∀ S ∈ l, (HI1.Atoms S).Slot = (HI.Atoms S).Slot) :
    streamWork HI1 M l = streamWork HI M l := by
  unfold streamWork
  rw [List.map_congr_left (fun S hS => by rw [h S hS])]

theorem streamWork_cons (HI : HWAtomInfo) (M S : Nat) (l : List Nat) :
    streamWork HI M (S :: l) = (M + 2 - (HI.Atoms S).Slot) + streamWork HI M l := by
  simp [streamWork]

theorem streamWork_le (HI : HWAtomInfo) (M : Nat) (l : List Nat) :
    streamWork HI M l ≤ l.length * (M + 2) := by
  induction l with
  | nil => simp [streamWork]
  | cons a r ih =>
    rw [streamWork_cons, List.length_cons, Nat.add_mul, Nat.one_mul]
    omega

theorem uses_reverse_spec (HI : HWAtomInfo) (Src : Nat) :
    (HI.uses Src).reverse.Nodup ∧
    (∀ D, D ∈ (HI.uses Src).reverse ↔
      D < HI.NextAtom ∧ (HI.getEdgeFrom D Src).isSome = true) := by
  constructor
  · rw [List.nodup_reverse]
    exact (List.nodup_range _).filter _
  · intro D
    rw [List.mem_reverse]
    unfold HWAtomInfo.uses
    rw [List.mem_filter, List.mem_range]

theorem copy_not_user {Exit II First M : Nat} {HI0 HI : HWAtomInfo} {WL0 WL : List Nat}
    (inv : StreamInv Exit II First M HI0 WL0 HI WL) {N Src : Nat} (hF : First ≤ N)
    (hN : N < HI.NextAtom) (hSrc : Src ∈ WL) : HI.getEdgeFrom N Src = none := by
  obtain ⟨B, _, hdeps, _, _, hB⟩ := inv.copies N hF hN
  unfold HWAtomInfo.getEdgeFrom
  rw [hdeps, mapFind_cons]
  have hne : B ≠ Src := fun he => hB (he ▸ hSrc)
  rw [if_neg hne]
  rfl

theorem antiDep_iff (HI : HWAtomInfo) (Exit II Src D : Nat) :
    HI.antiDep Exit II Src D = true ↔
      D ≠ Exit ∧ HI.getEdgeFrom D Src = some false ∧
        II ≤ wrap32 (((HI.Atoms D).Slot : Int) - ((HI.Atoms Src).Slot : Int)) := by
  unfold HWAtomInfo.antiDep
  simp only [Bool.and_eq_true, decide_eq_true_eq, and_assoc]

theorem antiDep_ahead {Exit II First M : Nat} {HI0 HI : HWAtomInfo} {WL0 WL : List Nat}
    (inv : StreamInv Exit II First M HI0 WL0 HI WL) (hM : M < 4294967296) {Src D : Nat}
    (hSrc : Src ∈ WL) (hD : D < HI.NextAtom) (hE : D ≠ Exit)
    (he : HI.getEdgeFrom D Src = some false) :
    (HI.Atoms Src).Slot ≤ (HI.Atoms D).Slot ∧
    (HI.antiDep Exit II Src D = true ↔ (HI.Atoms Src).Slot + II ≤ (HI.Atoms D).Slot) := by
  have h1 := inv.ahead Src hSrc D hD hE he
  have h2 := inv.slots D hD
  have hw : wrap32 (((HI.Atoms D).Slot : Int) - ((HI.Atoms Src).Slot : Int)) =
      (HI.Atoms D).Slot - (HI.Atoms Src).Slot := by
    unfold wrap32
    omega
  refine ⟨h1, ?_⟩
  rw [antiDep_iff, hw]
  constructor
  · intro hx
    have := hx.2.2
    omega
  · intro hx
    exact ⟨hE, he, by omega⟩

theorem streamStep_idle (Exit II First M : Nat) (HI0 HI : HWAtomInfo) (WL0 : List Nat)
    (Src : Nat) (rest : List Nat) (hM : M < 4294967296)
    (inv : StreamInv Exit II First M HI0 WL0 HI (Src :: rest))
    (hno : ¬ ∃ D ∈ (HI.uses Src).reverse, HI.antiDep Exit II Src D = true) :
    StreamInv Exit II First M HI0 WL0 HI rest ∧
      streamWork HI M rest < streamWork HI M (Src :: rest) := by
  have hSrcWL : Src ∈ Src :: rest := List.mem_cons_self _ _
  have hSrc := inv.inUse Src hSrcWL
  constructor
  · refine ⟨inv.next, (List.nodup_cons.1 inv.nodup).2,
      fun S hS => inv.inUse S (List.mem_cons_of_mem _ hS), inv.keys, inv.slots, inv.old,
      ?_, fun S hS => inv.ahead S (List.mem_cons_of_mem _ hS), ?_,
      fun S hS => inv.origin S (List.mem_cons_of_mem _ hS), ?_, inv.frame⟩
    · intro N hF hN
      obtain ⟨B, hBN, hdeps, hwr, hsl, hB⟩ := inv.copies N hF hN
      exact ⟨B, hBN, hdeps, hwr, hsl, fun hm => hB (List.mem_cons_of_mem _ hm)⟩
    · intro S hS D hD hDE he
      obtain ⟨C, hCn, hchain, hedge, hle, hor⟩ := inv.served S hS D hD hDE he
      refine ⟨C, hCn, hchain, hedge, hle, ?_⟩
      rcases hor with hlt | hmem
      · exact Or.inl hlt
      · rcases List.mem_cons.1 hmem with rfl | hmem
        · left
          have hDn : D < HI.NextAtom := Nat.lt_of_lt_of_le hD inv.next
          have hiff := (antiDep_ahead inv hM hSrcWL hDn hDE hedge).2
          have hDus : D ∈ (HI.uses C).reverse :=
            ((uses_reverse_spec HI C).2 D).2 ⟨hDn, by rw [hedge]; rfl⟩
          have hnot : ¬ (HI.Atoms C).Slot + II ≤ (HI.Atoms D).Slot :=
            fun hx => hno ⟨D, hDus, hiff.2 hx⟩
          omega
        · exact Or.inr hmem
    · intro A hA hAW hAo D hD hDE he
      by_cases hAS : A = Src
      · subst hAS
        have hDn : D < HI.NextAtom := Nat.lt_of_lt_of_le hD inv.next
        have hah := antiDep_ahead inv hM hSrcWL hDn hDE he
        have hDus : D ∈ (HI.uses A).reverse :=
          ((uses_reverse_spec HI A).2 D).2 ⟨hDn, by rw [he]; rfl⟩
        have hnot : ¬ (HI.Atoms A).Slot + II ≤ (HI.Atoms D).Slot :=
          fun hx => hno ⟨D, hDus, hah.2.2 hx⟩
        exact ⟨hah.1, by omega⟩
      · refine inv.settled A hA (fun hm => ?_) hAo D hD hDE he
        rcases List.mem_cons.1 hm with hx | hx
        · exact hAS hx
        · exact hAW hx
  · rw [streamWork_cons]
    have := inv.slots Src hSrc
    omega

theorem streamStep_move (Exit II First M : Nat) (HI0 HI HI1 : HWAtomInfo) (WL0 : List Nat)
    (Src : Nat) (rest : List Nat) (hII : 1 ≤ II) (hM : M < 4294967296)
    (hWL0 : ∀ S ∈ WL0, S < First)
    (inv : StreamInv Exit II First M HI0 WL0 HI (Src :: rest))
    (hyes : ∃ D ∈ (HI.uses Src).reverse, HI.antiDep Exit II Src D = true)
    (hnext1 : HI1.NextAtom = HI.NextAtom + 1)
    (hmoved : ∀ a ∈ (HI.uses Src).reverse, HI.antiDep Exit II Src a = true →
      HI1.Atoms a = retarget Src HI.NextAtom (HI.Atoms a))
    (hkeep : ∀ a, ¬ (a ∈ (HI.uses Src).reverse ∧ HI.antiDep Exit II Src a = true) →
      a ≠ HI.NextAtom → HI1.Atoms a = HI.Atoms a)
    (hnewA : HI1.Atoms HI.NextAtom =
      { Slot := wrap32 (((HI.Atoms Src).Slot : Int) + (II : Int)),
        Deps := [(Src, false)], IsWrReg := true }) :
    StreamInv Exit II First M HI0 WL0 HI1 (HI.NextAtom :: rest) ∧
      streamWork HI1 M (HI.NextAtom :: rest) < streamWork HI M (Src :: rest) := by
  have hSrcWL : Src ∈ Src :: rest := List.mem_cons_self _ _
  have hSrc := inv.inUse Src hSrcWL
  have hSrcn : Src ≠ HI.NextAtom := Nat.ne_of_lt hSrc
  have hus := (uses_reverse_spec HI Src).2
  have hrestnd := List.nodup_cons.1 inv.nodup
  obtain ⟨Dm, hDm, hDmv⟩ := hyes
  have hDmn := ((hus Dm).1 hDm).1
  obtain ⟨hDmE, hDme, _⟩ := antiDep_true hDmv
  have hDmII := (antiDep_ahead inv hM hSrcWL hDmn hDmE hDme).2.1 hDmv
  have hDmM := inv.slots Dm hDmn
  have hw : wrap32 (((HI.Atoms Src).Slot : Int) + (II : Int)) = (HI.Atoms Src).Slot + II := by
    unfold wrap32
    omega
  rw [hw] at hnewA
  have hslot1 : ∀ a, a < HI.NextAtom → (HI1.Atoms a).Slot = (HI.Atoms a).Slot := by
    intro a ha
    by_cases hmv : a ∈ (HI.uses Src).reverse ∧ HI.antiDep Exit II Src a = true
    · rw [hmoved a hmv.1 hmv.2, retarget_Slot]
    · rw [hkeep a hmv (Nat.ne_of_lt ha)]
  have hcopy1 : ∀ N, First ≤ N → N < HI.NextAtom → HI1.Atoms N = HI.Atoms N := by
    intro N hF hN
    refine hkeep N (fun hx => ?_) (Nat.ne_of_lt hN)
    have hsome := ((hus N).1 hx.1).2
    rw [copy_not_user inv hF hN hSrcWL] at hsome
    cases hsome
  have hedgeOther : ∀ D C, D < HI.NextAtom → C ≠ Src → C < HI.NextAtom →
      HI1.getEdgeFrom D C = HI.getEdgeFrom D C := by
    intro D C hD hCS hCn
    by_cases hmv : D ∈ (HI.uses Src).reverse ∧ HI.antiDep Exit II Src D = true
    · unfold HWAtomInfo.getEdgeFrom
      rw [hmoved D hmv.1 hmv.2]
      exact mapFind_retarget_other Src HI.NextAtom C hCS (Nat.ne_of_lt hCn) _
    · unfold HWAtomInfo.getEdgeFrom
      rw [hkeep D hmv (Nat.ne_of_lt hD)]
  have hedgeNew : ∀ D, D ∈ (HI.uses Src).reverse → HI.antiDep Exit II Src D = true →
      HI1.getEdgeFrom D HI.NextAtom = some false := by
    intro D hD hmv
    unfold HWAtomInfo.getEdgeFrom
    rw [hmoved D hD hmv]
    have hfresh : ∀ e ∈ (HI.Atoms D).Deps, e.1 ≠ HI.NextAtom :=
      fun e he => Nat.ne_of_lt (inv.keys D ((hus D).1 hD).1 e he)
    have := mapFind_retarget_new Src HI.NextAtom (HI.Atoms D).Deps hfresh
    unfold retarget
    rw [this]
    exact (antiDep_true hmv).2.1
  have hedgeNewOnly : ∀ D, D < HI.NextAtom + 1 →
      HI1.getEdgeFrom D HI.NextAtom = some false →
      D ∈ (HI.uses Src).reverse ∧ HI.antiDep Exit II Src D = true := by
    intro D hD he
    by_contra hmv
    by_cases hDn : D = HI.NextAtom
    · unfold HWAtomInfo.getEdgeFrom at he
      rw [hDn, hnewA] at he
      rw [mapFind_cons, if_neg hSrcn] at he
      cases he
    · have hDlt : D < HI.NextAtom := by omega
      unfold HWAtomInfo.getEdgeFrom at he
      rw [hkeep D hmv hDn, mapFind_fresh _ _ (inv.keys D hDlt)] at he
      cases he
  have hedgeGone : ∀ D, D ∈ (HI.uses Src).reverse → HI.antiDep Exit II Src D = true →
      HI1.getEdgeFrom D Src = none := by
    intro D hD hmv
    unfold HWAtomInfo.getEdgeFrom
    rw [hmoved D hD hmv]
    exact mapFind_retarget_old Src HI.NextAtom hSrcn _
  constructor
  · refine ⟨?_, ?_, ?_, ?_, ?_, ?_, ?_, ?_, ?_, ?_, ?_, ?_⟩
    · rw [hnext1]
      exact Nat.le_succ_of_le inv.next
    · refine List.nodup_cons.2 ⟨fun hm => ?_, hrestnd.2⟩
      exact absurd (inv.inUse _ (List.mem_cons_of_mem _ hm)) (lt_irrefl _)
    · intro S hS
      rw [hnext1]
      rcases List.mem_cons.1 hS with rfl | hS
      · exact Nat.lt_succ_self _
      · exact Nat.lt_succ_of_lt (inv.inUse S (List.mem_cons_of_mem _ hS))
    · intro D hD e he
      rw [hnext1] at hD ⊢
      by_cases hDn : D = HI.NextAtom
      · rw [hDn, hnewA] at he
        rcases List.mem_singleton.1 he with rfl
        exact Nat.lt_succ_of_lt hSrc
      · have hDlt : D < HI.NextAtom := by omega
        by_cases hmv : D ∈ (HI.uses Src).reverse ∧ HI.antiDep Exit II Src D = true
        · rw [hmoved D hmv.1 hmv.2] at he
          unfold retarget at he
          obtain ⟨e0, he0, hfe⟩ := List.mem_map.1 he
          by_cases hk : e0.1 = Src
          · rw [if_pos hk] at hfe
            rw [← hfe]
            exact Nat.lt_succ_self _
          · rw [if_neg hk] at hfe
            rw [← hfe]
            exact Nat.lt_succ_of_lt (inv.keys D hDlt e0 he0)
        · rw [hkeep D hmv hDn] at he
          exact Nat.lt_succ_of_lt (inv.keys D hDlt e he)
    · intro D hD
      rw [hnext1] at hD
      by_cases hDn : D = HI.NextAtom
      · rw [hDn, hnewA]
        show (HI.Atoms Src).Slot + II ≤ M
        omega
      · have hDlt : D < HI.NextAtom := by omega
        rw [hslot1 D hDlt]
        exact inv.slots D hDlt
    · intro D hD
      rw [hslot1 D (Nat.lt_of_lt_of_le hD inv.next)]
      exact inv.old D hD
    · intro N hF hN
      rw [hnext1] at hN
      by_cases hNn : N = HI.NextAtom
      · refine ⟨Src, by rw [hNn]; exact hSrc, by rw [hNn, hnewA], by rw [hNn, hnewA], ?_, ?_⟩
        · rw [hNn, hnewA, hslot1 Src hSrc]
        · intro hm
          rcases List.mem_cons.1 hm with he | hm
          · exact hSrcn he
          · exact hrestnd.1 hm
      · have hNlt : N < HI.NextAtom := by omega
        obtain ⟨B, hBN, hdeps, hwr, hsl, hB⟩ := inv.copies N hF hNlt
        have hBlt : B < HI.NextAtom := Nat.lt_trans hBN hNlt
        refine ⟨B, hBN, by rw [hcopy1 N hF hNlt]; exact hdeps,
          by rw [hcopy1 N hF hNlt]; exact hwr, ?_, ?_⟩
        · rw [hcopy1 N hF hNlt, hslot1 B hBlt]
          exact hsl
        · intro hm
          rcases List.mem_cons.1 hm with he | hm
          · exact absurd hBlt (by rw [he]; exact lt_irrefl _)
          · exact hB (List.mem_cons_of_mem _ hm)
    · intro S hS D hD hDE he
      rw [hnext1] at hD
      rcases List.mem_cons.1 hS with rfl | hS
      · obtain ⟨hDus, hDmv⟩ := hedgeNewOnly D hD he
        have hDlt := ((hus D).1 hDus).1
        have := (antiDep_ahead inv hM hSrcWL hDlt hDE (antiDep_true hDmv).2.1).2.1 hDmv
        rw [hnewA, hslot1 D hDlt]
        exact this
      · have hSS : S ≠ Src := fun hx => hrestnd.1 (hx ▸ hS)
        have hSlt := inv.inUse S (List.mem_cons_of_mem _ hS)
        by_cases hDn : D = HI.NextAtom
        · unfold HWAtomInfo.getEdgeFrom at he
          rw [hDn, hnewA] at he
          rw [mapFind_cons, if_neg (Ne.symm hSS)] at he
          cases he
        · have hDlt : D < HI.NextAtom := by omega
          rw [hedgeOther D S hDlt hSS hSlt] at he
          rw [hslot1 S hSlt, hslot1 D hDlt]
          exact inv.ahead S (List.mem_cons_of_mem _ hS) D hDlt hDE he
    · intro S hS D hD hDE he
      obtain ⟨C, hCn, hchain, hedge, hle, hor⟩ := inv.served S hS D hD hDE he
      have hDlt : D < HI.NextAtom := Nat.lt_of_lt_of_le hD inv.next
      have hSlt : S < HI.NextAtom := Nat.lt_of_lt_of_le (hWL0 S hS) inv.next
      have hchain1 : CopyChain HI1 II First S C :=
        CopyChain_stable hSlt (by rw [hnext1]; exact Nat.le_succ _) hcopy1 hslot1 hchain
      by_cases hCS : C = Src
      · subst hCS
        by_cases hmv : HI.antiDep Exit II C D = true
        · have hDus : D ∈ (HI.uses C).reverse :=
            (hus D).2 ⟨hDlt, by rw [hedge]; rfl⟩
          have hfar := (antiDep_ahead inv hM hSrcWL hDlt hDE hedge).2.1 hmv
          refine ⟨HI.NextAtom, by rw [hnext1]; exact Nat.lt_succ_self _, ?_,
            hedgeNew D hDus hmv, ?_, Or.inr (List.mem_cons_self _ _)⟩
          · refine CopyChain.step hchain1 (Nat.le_trans inv.next (le_refl _))
              (by rw [hnext1]; exact Nat.lt_succ_self _) (by rw [hnewA]) (by rw [hnewA]) ?_
            rw [hnewA, hslot1 C hSrc]
          · rw [hnewA, hslot1 D hDlt]
            exact hfar
        · have hnear : ¬ (HI.Atoms C).Slot + II ≤ (HI.Atoms D).Slot :=
            fun hx => hmv ((antiDep_ahead inv hM hSrcWL hDlt hDE hedge).2.2 hx)
          have hDkeep : HI1.Atoms D = HI.Atoms D :=
            hkeep D (fun hx => hmv hx.2) (Nat.ne_of_lt hDlt)
          refine ⟨C, by rw [hnext1]; exact Nat.lt_succ_of_lt hCn, hchain1, ?_, ?_, Or.inl ?_⟩
          · unfold HWAtomInfo.getEdgeFrom
            rw [hDkeep]
            exact hedge
          · rw [hslot1 C hCn, hslot1 D hDlt]
            exact hle
          · rw [hslot1 C hCn, hslot1 D hDlt]
            omega
      · refine ⟨C, by rw [hnext1]; exact Nat.lt_succ_of_lt hCn, hchain1, ?_, ?_, ?_⟩
        · rw [hedgeOther D C hDlt hCS hCn]
          exact hedge
        · rw [hslot1 C hCn, hslot1 D hDlt]
          exact hle
        · rw [hslot1 C hCn, hslot1 D hDlt]
          rcases hor with hlt | hmem
          · exact Or.inl hlt
          · rcases List.mem_cons.1 hmem with he1 | hmem
            · exact absurd he1 hCS
            · exact Or.inr (List.mem_cons_of_mem _ hmem)
    · intro S hS
      rcases List.mem_cons.1 hS with rfl | hS
      · exact Or.inr inv.next
      · exact inv.origin S (List.mem_cons_of_mem _ hS)
    · intro A hA hAW hAo D hD hDE he
      rw [hnext1] at hA
      have hAn : A ≠ HI.NextAtom := fun hx => hAW (hx ▸ List.mem_cons_self _ _)
      have hAlt : A < HI.NextAtom := by omega
      have hDlt : D < HI.NextAtom := Nat.lt_of_lt_of_le hD inv.next
      rw [hslot1 A hAlt, hslot1 D hDlt]
      by_cases hAS : A = Src
      · subst hAS
        by_cases hmv : D ∈ (HI.uses A).reverse ∧ HI.antiDep Exit II A D = true
        · rw [hedgeGone D hmv.1 hmv.2] at he
          cases he
        · have he0 : HI.getEdgeFrom D A = some false := by
            unfold HWAtomInfo.getEdgeFrom at he ⊢
            rw [hkeep D hmv (Nat.ne_of_lt hDlt)] at he
            exact he
          have hah := antiDep_ahead inv hM hSrcWL hDlt hDE he0
          have hDus : D ∈ (HI.uses A).reverse := (hus D).2 ⟨hDlt, by rw [he0]; rfl⟩
          have hnot : ¬ (HI.Atoms A).Slot + II ≤ (HI.Atoms D).Slot :=
            fun hx => hmv ⟨hDus, hah.2.2 hx⟩
          exact ⟨hah.1, by omega⟩
      · rw [hedgeOther D A hDlt hAS hAlt] at he
        refine inv.settled A hAlt (fun hm => ?_) hAo D hD hDE he
        rcases List.mem_cons.1 hm with hx | hx
        · exact hAS hx
        · exact hAW (List.mem_cons_of_mem _ hx)
    · intro D hD K hK hKW
      have hDlt : D < HI.NextAtom := Nat.lt_of_lt_of_le hD inv.next
      have hKlt : K < HI.NextAtom := Nat.lt_of_lt_of_le hK inv.next
      have hKS : K ≠ Src := by
        intro hx
        rcases inv.origin Src hSrcWL with ho | ho
        · exact hKW (hx ▸ ho)
        · rw [hx] at hK
          omega
      rw [hedgeOther D K hDlt hKS hKlt]
      exact inv.frame D hD K hK hKW
  · rw [streamWork_cons, streamWork_cons, hnewA,
      streamWork_congr HI HI1 M rest
        (fun S hS => hslot1 S (inv.inUse S (List.mem_cons_of_mem _ hS)))]
    show M + 2 - ((HI.Atoms Src).Slot + II) + streamWork HI M rest <
      M + 2 - (HI.Atoms Src).Slot + streamWork HI M rest
    omega

theorem streamLoop_spec (Exit II First M : Nat) (HI0 : HWAtomInfo) (WL0 : List Nat)
    (hII : 1 ≤ II) (hM : M < 4294967296) (hWL0 : ∀ S ∈ WL0, S < First) :
    ∀ (fuel : Nat) (HI : HWAtomInfo) (WL : List Nat),
      StreamInv Exit II First M HI0 WL0 HI WL → streamWork HI M WL < fuel →
      ∃ HI1, streamLoop Exit II fuel WL HI = some (.ok HI1) ∧
        StreamInv Exit II First M HI0 WL0 HI1 [] := by
  intro fuel
  induction fuel with
  | zero =>
    intro HI WL _ hlt
    omega
  | succ k ih =>
    intro HI WL inv hlt
    cases WL with
    | nil => exact ⟨HI, by simp [streamLoop], inv⟩
    | cons Src rest =>
      have hSrc := inv.inUse Src (List.mem_cons_self _ _)
      obtain ⟨hund, hmemus⟩ := uses_reverse_spec HI Src
      obtain ⟨HI1, c1, hrun, hA1, hA2, hA3, hC1, hC2⟩ :=
        streamUsers_spec Exit II Src HI.NextAtom hSrc (HI.uses Src).reverse HI none hund
          (fun D hD => (hmemus D).1 hD) (fun _ => rfl) (fun N hN => Option.noConfusion hN)
      by_cases hex : ∃ D ∈ (HI.uses Src).reverse, HI.antiDep Exit II Src D = true
      · obtain ⟨hc1, hnext1⟩ := hC1 hex
        subst hc1
        obtain ⟨inv1, hwork⟩ :=
          streamStep_move Exit II First M HI0 HI HI1 WL0 Src rest hII hM hWL0 inv hex hnext1
            hA1 (fun a hna han => hA2 a hna (fun hx => han hx.1)) (hA3 rfl hex)
        obtain ⟨HI2, hrun2, inv2⟩ := ih HI1 (HI.NextAtom :: rest) inv1 (by omega)
        refine ⟨HI2, ?_, inv2⟩
        simp only [streamLoop, hrun]
        exact hrun2
      · obtain ⟨hc1, hH⟩ := hC2 hex
        subst hc1
        subst hH
        obtain ⟨inv1, hwork⟩ := streamStep_idle Exit II First M HI0 HI1 WL0 Src rest hM inv hex
        obtain ⟨HI2, hrun2, inv2⟩ := ih HI1 rest inv1 (by omega)
        refine ⟨HI2, ?_, inv2⟩
        simp only [streamLoop, hrun]
        exact hrun2

theorem initialWorkList_mem (HI : HWAtomInfo) (State : FSMState) (S : Nat) :
    S ∈ initialWorkList HI State ↔ S ∈ State.Atoms ∧ isStreamSource (HI.Atoms S) := by
  unfold initialWorkList
  rw [List.mem_reverse, List.mem_filter]
  refine and_congr Iff.rfl ?_
  rcases HI.Atoms S with ⟨sl, dp, w, f, r, ph⟩
  cases w <;> cases f <;> cases r <;> cases ph <;> simp [isStreamSource]

theorem initialWorkList_length (HI : HWAtomInfo) (State : FSMState) :
    (initialWorkList HI State).length ≤ State.Atoms.length := by
  unfold initialWorkList
  rw [List.length_reverse]
  exact List.length_filter_le _ _

/-- C26: when the state has no self loop or its II equals its total slot count,
`runOnBasicBlock` changes nothing.  For a self-loop state with 1 <= II < total slots, whose
atoms are distinct atoms in use (edges join atoms in use, no slot exceeds `M`, an unsigned
32-bit value) and in which every forward user, the exit root apart, of a source (a register
write that does not write a function-unit register, or a PHI register read, of the state) is
scheduled no earlier than that source, the pass ends for every fuel above a bound and keeps
every slot.  Afterwards every such user `D` of a source `S` reads, through a forward edge, an
atom `C` that holds the value of `S` (`S` itself or an inserted copy) with
`slot D - slot C < II`; no atom in use before the pass, the exit root apart, has a forward
edge from a source or from an inserted copy that is `II` slots or more before it, so the
edges over `II` slots or more are gone; every inserted copy is a register write whose only
dependency is a forward edge from an older atom `II` slots before it; and the edges from
the atoms that are no sources are as before. -/
theorem runOnBasicBlock_streams (HI : HWAtomInfo) (State : FSMState) (M fuel : Nat) :
    ((State.HaveSelfLoop = false ∨ State.II = State.TotalSlot) →
      runOnBasicBlock fuel HI State = some (.ok HI)) ∧
    (State.HaveSelfLoop = true → 1 ≤ State.II → State.II < State.TotalSlot →
      State.Atoms.Nodup → (∀ a ∈ State.Atoms, a < HI.NextAtom) →
      (∀ D, D < HI.NextAtom → ∀ e ∈ (HI.Atoms D).Deps, e.1 < HI.NextAtom) →
      (∀ D, D < HI.NextAtom → (HI.Atoms D).Slot ≤ M) → M < 4294967296 →
      (∀ S ∈ State.Atoms, isStreamSource (HI.Atoms S) → ∀ D, D < HI.NextAtom →
        D ≠ State.ExitRoot → HI.getEdgeFrom D S = some false →
        (HI.Atoms S).Slot ≤ (HI.Atoms D).Slot) →
      State.Atoms.length * (M + 2) < fuel →
      ∃ HI1, runOnBasicBlock fuel HI State = some (.ok HI1) ∧
        HI.NextAtom ≤ HI1.NextAtom ∧
        (∀ D, D < HI.NextAtom → (HI1.Atoms D).Slot = (HI.Atoms D).Slot) ∧
        (∀ S ∈ State.Atoms, isStreamSource (HI.Atoms S) → ∀ D, D < HI.NextAtom →
          D ≠ State.ExitRoot → HI.getEdgeFrom D S = some false →
          ∃ C, CopyChain HI1 State.II HI.NextAtom S C ∧
            HI1.getEdgeFrom D C = some false ∧
            (HI1.Atoms C).Slot ≤ (HI1.Atoms D).Slot ∧
            (HI1.Atoms D).Slot - (HI1.Atoms C).Slot < State.II) ∧
        (∀ A, A < HI1.NextAtom →
          ((A ∈ State.Atoms ∧ isStreamSource (HI.Atoms A)) ∨ HI.NextAtom ≤ A) →
          ∀ D, D < HI.NextAtom → D ≠ State.ExitRoot →
          HI1.getEdgeFrom D A = some false →
          (HI1.Atoms A).Slot ≤ (HI1.Atoms D).Slot ∧
          (HI1.Atoms D).Slot - (HI1.Atoms A).Slot < State.II) ∧
        (∀ N, HI.NextAtom ≤ N → N < HI1.NextAtom →
          ∃ B, B < N ∧ (HI1.Atoms N).Deps = [(B, false)] ∧ (HI1.Atoms N).IsWrReg = true ∧
            (HI1.Atoms N).Slot = (HI1.Atoms B).Slot + State.II) ∧
        (∀ D, D < HI.NextAtom → ∀ K, K < HI.NextAtom →
          ¬ (K ∈ State.Atoms ∧ isStreamSource (HI.Atoms K)) →
          HI1.getEdgeFrom D K = HI.getEdgeFrom D K)) := by
  constructor
  · intro hor
    unfold runOnBasicBlock
    rcases hor with hno | heq
    · rw [if_pos hno]
    · by_cases hno : State.HaveSelfLoop = false
      · rw [if_pos hno]
      · rw [if_neg hno, if_pos heq]
  · intro hloop hII1 hII2 hnd hin hkeys hslots hM hsched0 hfuel
    have hmemWL := initialWorkList_mem HI State
    have hsched : ∀ S ∈ initialWorkList HI State, ∀ D, D < HI.NextAtom →
        D ≠ State.ExitRoot → HI.getEdgeFrom D S = some false →
        (HI.Atoms S).Slot ≤ (HI.Atoms D).Slot :=
      fun S hS => hsched0 S ((hmemWL S).1 hS).1 ((hmemWL S).1 hS).2
    have hWL0 : ∀ S ∈ initialWorkList HI State, S < HI.NextAtom :=
      fun S hS => hin S ((hmemWL S).1 hS).1
    have inv0 : StreamInv State.ExitRoot State.II HI.NextAtom M HI (initialWorkList HI State)
        HI (initialWorkList HI State) := by
      refine ⟨le_refl _, ?_, hWL0, hkeys, hslots, fun _ _ => rfl, ?_, hsched, ?_,
        fun S hS => Or.inl hS, ?_, fun _ _ _ _ _ => rfl⟩
      · unfold initialWorkList
        rw [List.nodup_reverse]
        exact hnd.filter _
      · intro N hF hN
        omega
      · intro S hS D hD hDE he
        exact ⟨S, hWL0 S hS, CopyChain.refl, he, hsched S hS D hD hDE he, Or.inr hS⟩
      · intro A hA hAW hAo
        rcases hAo with ho | ho
        · exact absurd ho hAW
        · omega
    have hwork : streamWork HI M (initialWorkList HI State) < fuel := by
      have h1 := streamWork_le HI M (initialWorkList HI State)
      have h2 := Nat.mul_le_mul_right (M + 2) (initialWorkList_length HI State)
      omega
    obtain ⟨HI1, hrun, inv1⟩ :=
      streamLoop_spec State.ExitRoot State.II HI.NextAtom M HI (initialWorkList HI State)
        hII1 hM hWL0 fuel HI (initialWorkList HI State) inv0 hwork
    refine ⟨HI1, ?_, inv1.next, inv1.old, ?_, ?_, ?_, ?_⟩
    · unfold runOnBasicBlock
      rw [if_neg (by rw [hloop]; decide), if_neg (Nat.ne_of_lt hII2)]
      exact hrun
    · intro S hS hsrc D hD hDE he
      obtain ⟨C, _, hchain, hedge, hle, hor⟩ :=
        inv1.served S ((hmemWL S).2 ⟨hS, hsrc⟩) D hD hDE he
      refine ⟨C, hchain, hedge, hle, ?_⟩
      rcases hor with hlt | hmem
      · exact hlt
      · cases hmem
    · intro A hA hAo D hD hDE he
      refine inv1.settled A hA (List.not_mem_nil A) ?_ D hD hDE he
      rcases hAo with ho | ho
      · exact Or.inl ((hmemWL A).2 ho)
      · exact Or.inr ho
    · intro N hF hN
      obtain ⟨B, hBN, hdeps, hwr, hsl, _⟩ := inv1.copies N hF hN
      exact ⟨B, hBN, hdeps, hwr, hsl⟩
    · intro D hD K hK hKs
      exact inv1.frame D hD K hK (fun hm => hKs ((hmemWL K).1 hm))

/-- C26 (witness): in the streamization example the sources are the register write 1 and
the PHI register read 5.  The user 3 of atom 1, five slots behind it, ends up reading the
second copy, atom 12 at slot 5, which reads the first copy, atom 11 at slot 3; the user 6 of
atom 5 ends up reading the copy 10 at slot 3; the user 2, the exit root and the back-edge
user 4 still read atom 1; the user 9 still reads the function-unit register write 7 and the
plain register read 8, five slots before it; without the self loop nothing changes. -/
theorem runOnBasicBlock_streams_witness :
    (∃ HI1, runOnBasicBlock 100 exAtoms exState = some (.ok HI1) ∧
      exAtoms.NextAtom ≤ HI1.NextAtom ∧
      (∀ D, D < exAtoms.NextAtom → (HI1.Atoms D).Slot = (exAtoms.Atoms D).Slot) ∧
      (∀ S ∈ exState.Atoms, isStreamSource (exAtoms.Atoms S) → ∀ D, D < exAtoms.NextAtom →
        D ≠ exState.ExitRoot → exAtoms.getEdgeFrom D S = some false →
        ∃ C, CopyChain HI1 exState.II exAtoms.NextAtom S C ∧
          HI1.getEdgeFrom D C = some false ∧
          (HI1.Atoms C).Slot ≤ (HI1.Atoms D).Slot ∧
          (HI1.Atoms D).Slot - (HI1.Atoms C).Slot < exState.II) ∧
      (∀ A, A < HI1.NextAtom →
        ((A ∈ exState.Atoms ∧ isStreamSource (exAtoms.Atoms A)) ∨ exAtoms.NextAtom ≤ A) →
        ∀ D, D < exAtoms.NextAtom → D ≠ exState.ExitRoot →
        HI1.getEdgeFrom D A = some false →
        (HI1.Atoms A).Slot ≤ (HI1.Atoms D).Slot ∧
        (HI1.Atoms D).Slot - (HI1.Atoms A).Slot < exState.II) ∧
      (∀ N, exAtoms.NextAtom ≤ N → N < HI1.NextAtom →
        ∃ B, B < N ∧ (HI1.Atoms N).Deps = [(B, false)] ∧ (HI1.Atoms N).IsWrReg = true ∧
          (HI1.Atoms N).Slot = (HI1.Atoms B).Slot + exState.II) ∧
      (∀ D, D < exAtoms.NextAtom → ∀ K, K < exAtoms.NextAtom →
        ¬ (K ∈ exState.Atoms ∧ isStreamSource (exAtoms.Atoms K)) →
        HI1.getEdgeFrom D K = exAtoms.getEdgeFrom D K)) ∧
    runOnBasicBlock 100 exAtoms exState = some (.ok exStreamed) ∧
    initialWorkList exAtoms exState = [5, 1] ∧
    (exStreamed.Atoms 3).Deps = [(12, false)] ∧ (exStreamed.Atoms 12).Deps = [(11, false)] ∧
    (exStreamed.Atoms 11).Deps = [(1, false)] ∧ (exStreamed.Atoms 12).Slot = 5 ∧
    (exStreamed.Atoms 11).Slot = 3 ∧ (exStreamed.Atoms 6).Deps = [(10, false)] ∧
    (exStreamed.Atoms 10).Deps = [(5, false)] ∧ (exStreamed.Atoms 10).Slot = 3 ∧
    (exStreamed.Atoms 2).Deps = [(1, false)] ∧
    (exStreamed.Atoms 0).Deps = [(1, false)] ∧ (exStreamed.Atoms 4).Deps = [(1, true)] ∧
    (exStreamed.Atoms 9).Deps = [(7, false), (8, false)] ∧
    exStreamed.NextAtom = 13 ∧
    runOnBasicBlock 100 exAtoms { exState with HaveSelfLoop := false } = some (.ok exAtoms) :=
  ⟨(runOnBasicBlock_streams exAtoms exState 6 100).2 rfl (by decide) (by decide) (by decide)
      (by decide) (by decide) (by decide) (by decide) (by decide) (by decide),
    rfl, by decide, by decide, by decide, by decide, by decide, by decide, by decide,
    by decide, by decide, by decide, by decide, by decide, by decide, by decide,
    (runOnBasicBlock_streams exAtoms { exState with HaveSelfLoop := false } 6 100).1
      (Or.inl rfl)⟩

end Shang
